import Mathlib

/-!
# memopool: a fixed-size-unit memory pool

Shallow embedding of `memopool.go`.

* A `*memoBlock` is an index into the pool's node table `MemoPool.nodes`; `nil` is `none`.
  The three list heads `full`, `partial`, `empty`, which the Go struct embeds by value, are the
  nodes `0`, `1`, `2`; the block created by the `n`-th call of `newMemoPool` is node `3 + n`.
* A `uintptr` / `unsafe.Pointer` is a `Nat` below `2 ^ 64`; the nil pointer is `0`.
* The address of the byte slice that `make` returns is not decided by the program: it is the
  parameter `addr`, `addr n` being the address of the slice of the `n`-th block of the pool.
* Of the byte slice `bs` only the header word of each unit is kept (`bs[i]` is the word stored at
  `pBlock + i * unitTtlSize`); the payload bytes belong to the caller and the pool never reads them.
* The counters `nFree` and `blockCnt` are not reduced modulo the word size: overflowing them takes
  `2 ^ 63` calls.
* A run that dereferences nil or never leaves the search loop of `Free` has the result `none`.
-/

namespace Memopool

/-- Number of values of a `uintptr`. -/
def W : Nat := 2 ^ 64

/-- The Go package variable `intSize = unsafe.Sizeof(int(0))`. -/
def intSize : Nat := 8

/-- Conversion `uintptr(x)` of an `int`. -/
def uintptr (x : Int) : Nat := (x % (W : Int)).toNat

/-- The Go struct `memoBlock`. `bs` holds the header words of the units. -/
structure memoBlock where
  pBlock : Nat
  Next : Option Nat
  Pre : Option Nat
  nUnitSize : Nat
  nUnitCount : Nat
  nFree : Nat
  nFirst : Nat
  bs : List Nat
  unitTtlSize : Nat
  endPtr : Nat
deriving DecidableEq, Repr, Inhabited

/-- The Go function `newMemoPool`, the slice `make` returns being at address `base`. The loop
writes `i + 1` into the header of unit `i`. -/
def newMemoPool (base nUnitSize nUnitCount : Nat) : memoBlock :=
  let ln := (nUnitCount * ((nUnitSize + intSize) % W)) % W
  { pBlock := base
    Next := none
    Pre := none
    nUnitSize := nUnitSize
    nUnitCount := nUnitCount
    nFree := nUnitCount
    nFirst := 0
    bs := (List.range nUnitCount).map (fun i => i + 1)
    unitTtlSize := (nUnitSize + intSize) % W
    endPtr := (base + ln) % W }

/-- The Go method `memoBlock.alloc`: the new block and the returned pointer (`0` is nil). The
word read at `ptr` is the header of unit `nFirst`, which is inside the slice whenever the block
counts a free unit (`BlockOK.inRange` below). -/
def memoBlock.alloc (mb : memoBlock) : memoBlock × Nat :=
  if mb.nFree = 0 then (mb, 0)
  else
    let ptr := (mb.pBlock + mb.unitTtlSize * mb.nFirst) % W
    let next := mb.bs.getD mb.nFirst 0
    ({ mb with nFirst := next, nFree := mb.nFree - 1 }, (ptr + intSize) % W)

/-- The Go method `memoBlock.free`: the new block and the returned boolean. With a stride
`nUnitSize + intSize` of 0 modulo `2 ^ 64` Go stops at the division; `newMemoPool` gives no
block of a pool such a stride as long as the unit size plus 8 is below `2 ^ 64`. -/
def memoBlock.free (mb : memoBlock) (ptr : Nat) : memoBlock × Bool :=
  let startPtr := (ptr + W - intSize) % W
  if startPtr < mb.pBlock ∨ startPtr ≥ mb.endPtr then (mb, false)
  else
    let unitSize := (mb.nUnitSize + intSize) % W
    if (startPtr - mb.pBlock) % unitSize ≠ 0 then (mb, false)
    else
      let idx := (startPtr - mb.pBlock) / unitSize
      ({ mb with nFirst := idx, bs := mb.bs.set idx mb.nFirst, nFree := mb.nFree + 1 }, true)

/-- Dereference of a node pointer. -/
def getB (h : List memoBlock) (i : Nat) : memoBlock := h.getD i default

/-- Assignment `p.Next = v`. -/
def setNext (h : List memoBlock) (p : Nat) (v : Option Nat) : List memoBlock :=
  h.set p { getB h p with Next := v }

/-- Assignment `p.Pre = v`. -/
def setPre (h : List memoBlock) (p : Nat) (v : Option Nat) : List memoBlock :=
  h.set p { getB h p with Pre := v }

/-- The Go method `memoBlock.remove`. -/
def remove (h : List memoBlock) (mb : Nat) : List memoBlock :=
  let pre := (getB h mb).Pre
  let next := (getB h mb).Next
  let h1 := match pre with
    | some p => setNext h p next
    | none => h
  let h2 := match next with
    | some n => setPre h1 n pre
    | none => h1
  setPre (setNext h2 mb none) mb none

/-- The Go function `moveAfter(mp, insert)` for a non-nil `insert`. -/
def moveAfter (h : List memoBlock) (mp insert : Nat) : List memoBlock :=
  if (getB h mp).Next = some insert then h
  else
    let h1 := remove h insert
    let next := (getB h1 mp).Next
    let h2 := match next with
      | some n => setPre h1 n (some insert)
      | none => h1
    setNext (setNext (setPre h2 insert (some mp)) insert next) mp (some insert)

/-- Node of the list head `full`. -/
def fullId : Nat := 0

/-- Node of the list head `partial`. -/
def partialId : Nat := 1

/-- Node of the list head `empty`. -/
def emptyId : Nat := 2

/-- The Go struct `MemoPool`. -/
structure MemoPool where
  nodes : List memoBlock
  blockCnt : Int
  maxBlockCnt : Int
  nUintSize : Nat
  nUnitCount : Nat
deriving DecidableEq, Repr, Inhabited

/-- The Go function `New`. The three heads are `newMemoPool(0, 0)`; their slice is empty and
its address is never used. -/
def New (addr : Nat → Nat) (nUintSize nUnitCount maxBlockCnt : Int) : MemoPool :=
  let head := newMemoPool 0 0 0
  let sz := uintptr nUintSize
  let cnt := uintptr nUnitCount
  { nodes := moveAfter [head, head, head, newMemoPool (addr 0) sz cnt] partialId 3
    blockCnt := 1
    maxBlockCnt := maxBlockCnt
    nUintSize := sz
    nUnitCount := cnt }

/-- The call `moveAfter(&mp.partial, mp.empty.Next)` of `Alloc`; with a nil argument `moveAfter`
returns at its first test, the partial list being empty there. -/
def moveEmptyHead (h : List memoBlock) : List memoBlock :=
  match (getB h emptyId).Next with
  | some e => moveAfter h partialId e
  | none => h

/-- First half of `MemoPool.Alloc`: make the partial list non-empty. `none` is the return of nil
for `over max block count`. -/
def MemoPool.refill (addr : Nat → Nat) (mp : MemoPool) : Option MemoPool :=
  if (getB mp.nodes partialId).Next = none then
    if (getB mp.nodes emptyId).Next = none then
      if mp.blockCnt ≥ mp.maxBlockCnt ∧ mp.maxBlockCnt > 0 then none
      else
        let id := mp.nodes.length
        let h := moveAfter (mp.nodes ++ [newMemoPool (addr (id - 3)) mp.nUintSize mp.nUnitCount])
          emptyId id
        some { mp with nodes := moveEmptyHead h, blockCnt := mp.blockCnt + 1 }
    else some { mp with nodes := moveEmptyHead mp.nodes }
  else some mp

/-- Second half of `MemoPool.Alloc`, from `partial := mp.partial.Next` on: the new pool and the
returned pointer; `none` when the head of the partial list is nil at its dereference. -/
def MemoPool.allocHead (mp : MemoPool) : Option (MemoPool × Nat) :=
  match (getB mp.nodes partialId).Next with
  | none => none
  | some pa =>
    let r := (getB mp.nodes pa).alloc
    let h := mp.nodes.set pa r.1
    if r.1.nFree ≤ 0 then some ({ mp with nodes := moveAfter h fullId pa }, r.2)
    else some ({ mp with nodes := h }, r.2)

/-- The Go method `MemoPool.Alloc`: the new pool and the returned pointer (`0` is nil). -/
def MemoPool.Alloc (addr : Nat → Nat) (mp : MemoPool) : Option (MemoPool × Nat) :=
  match mp.refill addr with
  | none => some (mp, 0)
  | some mp1 => mp1.allocHead

/-- The Go method `MemoPool.searchAndFree`: the new pool, the returned block pointer and the
returned boolean. -/
def MemoPool.searchAndFree (mp : MemoPool) (mb : Nat) (pt : Nat) : MemoPool × Option Nat × Bool :=
  let r := (getB mp.nodes mb).free pt
  if r.2 then
    let h := mp.nodes.set mb r.1
    if r.1.nFree = mp.nUnitCount ∧ some mb ≠ (getB h partialId).Next then
      ({ mp with nodes := moveAfter h emptyId mb }, some mb, true)
    else
      ({ mp with nodes := moveAfter h partialId mb }, some mb, true)
  else (mp, (getB mp.nodes mb).Next, false)

/-- The statement `if cur != nil { cur, ok = mp.searchAndFree(cur, pt) }`. -/
def MemoPool.searchIfAny (mp : MemoPool) (cur : Option Nat) (pt : Nat) :
    MemoPool × Option Nat × Bool :=
  match cur with
  | some mb => mp.searchAndFree mb pt
  | none => (mp, none, false)

/-- The loop `for i := 0; i < 2 && partition != nil; i++` of `Free`, entered with `ok` false:
the new pool, `partition` and `ok`. -/
def MemoPool.probe (pt : Nat) : Nat → MemoPool → Option Nat → MemoPool × Option Nat × Bool
  | 0, mp, partition => (mp, partition, false)
  | _ + 1, mp, none => (mp, none, false)
  | n + 1, mp, some mb =>
    let r := mp.searchAndFree mb pt
    if r.2.2 then r else MemoPool.probe pt n r.1 r.2.1

/-- The loop `for partition != nil || full != nil` of `Free`, entered with `ok` false, run for
at most `fuel` rounds: the new pool and `ok`, or `none` when the fuel does not suffice. -/
def MemoPool.lockstep (pt : Nat) : Nat → MemoPool → Option Nat → Option Nat → Option (MemoPool × Bool)
  | 0, mp, partition, full =>
    if partition = none ∧ full = none then some (mp, false) else none
  | fuel + 1, mp, partition, full =>
    if partition = none ∧ full = none then some (mp, false)
    else
      let r := mp.searchIfAny partition pt
      if r.2.2 then some (r.1, true)
      else
        let s := r.1.searchIfAny full pt
        if s.2.2 then some (s.1, true)
        else MemoPool.lockstep pt fuel s.1 r.2.1 s.2.1

/-- The Go method `MemoPool.Free`: the new pool and the returned boolean. The lockstep loop gets
one round for every node of the pool. -/
def MemoPool.Free (mp : MemoPool) (pt : Nat) : Option (MemoPool × Bool) :=
  let partition := (getB mp.nodes partialId).Next
  let full := (getB mp.nodes fullId).Next
  match partition with
  | none => MemoPool.lockstep pt mp.nodes.length mp none full
  | some mb =>
    let r := mp.searchAndFree mb pt
    if r.2.2 then some (r.1, true)
    else
      let s := MemoPool.probe pt 2 r.1 r.2.1
      if s.2.2 then some (s.1, true)
      else MemoPool.lockstep pt mp.nodes.length s.1 s.2.1 full

/-- The Go struct `Pools`; the mutex guards `shared` and has no content in a sequential run. -/
structure Pools where
  max : Int
  mps : List MemoPool
  shared : MemoPool
deriving DecidableEq, Repr, Inhabited

/-- The Go function `NewParallelPools`; `addrs i` is the address parameter of local pool `i`
and `saddr` that of the shared pool. `make` fails for a negative `maxLocal`. -/
def NewParallelPools (addrs : Nat → Nat → Nat) (saddr : Nat → Nat)
    (maxLocal unitSize localUnitCount maxLocalBlock shareUnitCount maxShareBlock : Int) :
    Option Pools :=
  if maxLocal < 0 then none
  else some
    { max := maxLocal
      mps := (List.range maxLocal.toNat).map
        (fun i => New (addrs i) unitSize localUnitCount maxLocalBlock)
      shared := New saddr unitSize shareUnitCount maxShareBlock }

/-- The Go method `Pools.Alloc`; `none` when `local` is not an index of `mps`. -/
def Pools.Alloc (addrs : Nat → Nat → Nat) (saddr : Nat → Nat) (ps : Pools) (loc : Int) :
    Option (Pools × Nat) :=
  if loc < 0 ∨ (ps.mps.length : Int) ≤ loc then none
  else
    match (ps.mps.getD loc.toNat default).Alloc (addrs loc.toNat) with
    | none => none
    | some r =>
      let ps1 := { ps with mps := ps.mps.set loc.toNat r.1 }
      if r.2 ≠ 0 then some (ps1, r.2)
      else
        match ps1.shared.Alloc saddr with
        | none => none
        | some s => some ({ ps1 with shared := s.1 }, s.2)

/-- The Go method `Pools.Free`; `none` when `local` is not an index of `mps`. -/
def Pools.Free (ps : Pools) (loc : Int) (p : Nat) : Option (Pools × Bool) :=
  if loc < 0 ∨ (ps.mps.length : Int) ≤ loc then none
  else
    match (ps.mps.getD loc.toNat default).Free p with
    | none => none
    | some r =>
      let ps1 := { ps with mps := ps.mps.set loc.toNat r.1 }
      if r.2 then some (ps1, true)
      else
        match ps1.shared.Free p with
        | none => none
        | some s => some ({ ps1 with shared := s.1 }, s.2)

end Memopool

/-! ## Invariants and specification-side definitions -/
namespace Memopool

/-- A block without its two links. -/
def core (b : memoBlock) : memoBlock := { b with Next := none, Pre := none }

/-- The nodes `l` hang, in this order, behind node `prev`: every `Next` leads to the following
node, every `Pre` back, and the last `Next` is nil. -/
def Linked (h : List memoBlock) : Nat → List Nat → Prop
  | prev, [] => (getB h prev).Next = none
  | prev, b :: rest => (getB h prev).Next = some b ∧ (getB h b).Pre = some prev ∧ Linked h b rest

/-- The three lists of a pool: `L 0`, `L 1`, `L 2` are the blocks behind the heads `full`,
`partial` and `empty`; they are disjoint, without repetition and made of created blocks. -/
structure Rep (h : List memoBlock) (L : Nat → List Nat) : Prop where
  linked : ∀ s, s < 3 → Linked h s (L s)
  nodup : ∀ s, s < 3 → (L s).Nodup
  disj : ∀ s t, s < 3 → t < 3 → s ≠ t → ∀ b, b ∈ L s → b ∉ L t
  range : ∀ s, s < 3 → ∀ b, b ∈ L s → 3 ≤ b ∧ b < h.length

/-- The lists after `moveAfter(head s, b)`. -/
def moved (L : Nat → List Nat) (s b : Nat) : Nat → List Nat :=
  fun t => if t = s then b :: (L t).erase b else (L t).erase b

/-- Lists of a pool that `New` has just returned: the first block alone, in the partial list. -/
def newLists : Nat → List Nat := moved (fun _ => []) 1 3

/-- The test `mp.blockCnt >= mp.maxBlockCnt && mp.maxBlockCnt > 0` of `Alloc`. -/
def MemoPool.over (mp : MemoPool) : Prop := mp.blockCnt ≥ mp.maxBlockCnt ∧ mp.maxBlockCnt > 0

/-- The block that `Alloc` creates in pool `mp`. -/
def MemoPool.fresh (addr : Nat → Nat) (mp : MemoPool) : memoBlock :=
  newMemoPool (addr (mp.nodes.length - 3)) mp.nUintSize mp.nUnitCount

/-- A block after a successful `alloc`. -/
def memoBlock.popped (b : memoBlock) : memoBlock :=
  { b with nFirst := b.bs.getD b.nFirst 0, nFree := b.nFree - 1 }

/-- A block after a successful `free` of unit `j`. -/
def memoBlock.pushed (b : memoBlock) (j : Nat) : memoBlock :=
  { b with nFirst := j, bs := b.bs.set j b.nFirst, nFree := b.nFree + 1 }

/-- Whether the block at node `b` passes the bounds and alignment test of `free` for `pt`. -/
def accepts (h : List memoBlock) (pt : Nat) (b : Nat) : Bool := ((getB h b).free pt).2

/-- Two lists taken in turn, one entry of each at a time. -/
def interleave : List Nat → List Nat → List Nat
  | [], l => l
  | a :: as, [] => a :: as
  | a :: as, b :: bs => a :: b :: interleave as bs

/-- Order in which `Free` tries the blocks: the first three of the partial list `P`, then the
rest of `P` and the full list `F` in turn. -/
def searchOrder (P F : List Nat) : List Nat := P.take 3 ++ interleave (P.drop 3) F

/-- Result of `Free` when the first accepting block of its search is `o`. -/
def MemoPool.outcome (mp : MemoPool) (pt : Nat) : Option Nat → Option (MemoPool × Bool)
  | none => some (mp, false)
  | some b => some ((mp.searchAndFree b pt).1, true)

/-- Following `Next` from the pointer `cur` visits the nodes `l` and ends at nil. -/
def Walk (h : List memoBlock) : Option Nat → List Nat → Prop
  | cur, [] => cur = none
  | cur, b :: rest => cur = some b ∧ Walk h (getB h b).Next rest

/-- The nodes reached from the pointer `cur` by following `Next`, at most `fuel` of them. -/
def follow (h : List memoBlock) : Nat → Option Nat → List Nat
  | 0, _ => []
  | _ + 1, none => []
  | fuel + 1, some b => b :: follow h fuel (getB h b).Next

/-- The blocks linked behind the list head `s` of a pool, in list order. -/
def MemoPool.listOf (mp : MemoPool) (s : Nat) : List Nat :=
  follow mp.nodes mp.nodes.length (getB mp.nodes s).Next

/-- Address of the payload of unit `j` of the `n`-th block of a pool. -/
def unitPtr (addr : Nat → Nat) (sz n j : Nat) : Nat := addr n + (sz + intSize) * j + intSize

/-- Facts about the block at node `i` of a pool of unit size `sz` and `u` units per block: its
address data are those `newMemoPool` computed, without overflow, and while the block counts free
units the head of its free list is the index of a unit. -/
structure BlockOK (addr : Nat → Nat) (sz u i : Nat) (b : memoBlock) : Prop where
  base : b.pBlock = addr (i - 3)
  size : b.nUnitSize = sz
  count : b.nUnitCount = u
  stride : b.unitTtlSize = sz + intSize
  endp : b.endPtr = addr (i - 3) + u * (sz + intSize)
  strideFits : sz + intSize < W
  fits : addr (i - 3) + u * (sz + intSize) < W
  len : b.bs.length = u
  inRange : ∀ m, m < b.nFree → (fun x => b.bs.getD x 0)^[m] b.nFirst < u

/-- Well-formedness of a pool, kept by every call whatever its argument: the three lists `L` are
well formed and hold every created block, and a block is in the full list with no free unit,
in the partial list with some, in the empty list with all. -/
structure WF (addr : Nat → Nat) (sz u : Nat) (mp : MemoPool) (L : Nat → List Nat) : Prop where
  rep : Rep mp.nodes L
  len3 : 3 ≤ mp.nodes.length
  cover : ∀ i, 3 ≤ i → i < mp.nodes.length → ∃ s, s < 3 ∧ i ∈ L s
  usz : mp.nUintSize = sz
  ucnt : mp.nUnitCount = u
  cnt : mp.blockCnt = (mp.nodes.length : Int) - 3
  blocks : ∀ i, 3 ≤ i → i < mp.nodes.length → BlockOK addr sz u i (getB mp.nodes i)
  full : ∀ b, b ∈ L 0 → (getB mp.nodes b).nFree = 0
  part : ∀ b, b ∈ L 1 → 0 < (getB mp.nodes b).nFree
  empt : ∀ b, b ∈ L 2 → (getB mp.nodes b).nFree = u

/-- The list `c` follows the free list of a block from its head `first`: each entry is the index
of a unit and the header of that unit holds the next entry. -/
def FreeChain (bs : List Nat) (u : Nat) : Nat → List Nat → Prop
  | _, [] => True
  | first, c :: rest => c = first ∧ c < u ∧ FreeChain bs u (bs.getD c 0) rest

/-- Sum of the free counts of the created blocks. -/
def freeSum (h : List memoBlock) : Nat :=
  ((List.range (h.length - 3)).map (fun n => (getB h (n + 3)).nFree)).sum

/-- Invariant of a pool whose `Free` calls were all given live pointers: `ch i` is the free list
of block `i`, it has `nFree` distinct entries, and every live pointer is the payload address of
a unit that is on no free list. -/
structure Good (addr : Nat → Nat) (sz u : Nat) (mp : MemoPool) (L : Nat → List Nat)
    (ch : Nat → List Nat) (live : List Nat) : Prop where
  wf : WF addr sz u mp L
  chain : ∀ i, 3 ≤ i → i < mp.nodes.length →
    FreeChain (getB mp.nodes i).bs u (getB mp.nodes i).nFirst (ch i) ∧ (ch i).Nodup ∧
      (ch i).length = (getB mp.nodes i).nFree
  liveNodup : live.Nodup
  liveUnit : ∀ p, p ∈ live → ∃ i j, 3 ≤ i ∧ i < mp.nodes.length ∧ j < u ∧ j ∉ ch i ∧
    p = unitPtr addr sz (i - 3) j
  count : live.length + freeSum mp.nodes = u * (mp.nodes.length - 3)

/-- Placement of the first `n` blocks in the address space: each lies below `2 ^ 64` and no
two overlap. -/
structure Layout (addr : Nat → Nat) (sz u n : Nat) : Prop where
  stride : sz + intSize < W
  fits : ∀ i, i < n → addr i + u * (sz + intSize) < W
  disjoint : ∀ i j, i < n → j < n → i ≠ j →
    addr i + u * (sz + intSize) ≤ addr j ∨ addr j + u * (sz + intSize) ≤ addr i

/-- A call of the pool. -/
inductive Call where
  | alloc : Call
  | free (p : Nat) : Call
deriving DecidableEq, Repr

/-- One call on a pool, keeping the list of live pointers: a pointer becomes live when `Alloc`
returns it and stops being live when `Free` returns true for it. -/
def MemoPool.call (addr : Nat → Nat) (mp : MemoPool) (live : List Nat) :
    Call → Option (MemoPool × List Nat)
  | Call.alloc =>
    match mp.Alloc addr with
    | none => none
    | some r => some (r.1, if r.2 = 0 then live else r.2 :: live)
  | Call.free p =>
    match mp.Free p with
    | none => none
    | some r => some (r.1, if r.2 then live.erase p else live)

/-- A sequence of calls on a pool. -/
def MemoPool.run (addr : Nat → Nat) : MemoPool → List Nat → List Call →
    Option (MemoPool × List Nat)
  | mp, live, [] => some (mp, live)
  | mp, live, c :: cs =>
    match mp.call addr live c with
    | none => none
    | some r => MemoPool.run addr r.1 r.2 cs

/-- Test that every `Free` of the sequence is given a pointer that is live when it is called;
what follows a call that does not return is not tested. -/
def disciplinedB (addr : Nat → Nat) : MemoPool → List Nat → List Call → Bool
  | _, _, [] => true
  | mp, live, c :: cs =>
    (match c with
      | Call.alloc => true
      | Call.free p => decide (p ∈ live)) &&
    match mp.call addr live c with
    | none => true
    | some r => disciplinedB addr r.1 r.2 cs

/-- Every `Free` of the sequence is given a pointer that is live when it is called. -/
def Disciplined (addr : Nat → Nat) (mp : MemoPool) (live : List Nat) (calls : List Call) : Prop :=
  disciplinedB addr mp live calls = true

instance Disciplined.instDecidable (addr : Nat → Nat) (mp : MemoPool) (live : List Nat)
    (calls : List Call) : Decidable (Disciplined addr mp live calls) :=
  inferInstanceAs (Decidable (disciplinedB addr mp live calls = true))

/-- Number of `Alloc` calls of a sequence. -/
def allocCount : List Call → Nat
  | [] => 0
  | Call.alloc :: cs => allocCount cs + 1
  | Call.free _ :: cs => allocCount cs

/-- The blocks a pool has created and may still create all have their place in the layout of
`n` blocks: the pool has a positive block budget of at most `n` that it has not exceeded, or it
will see no more `Alloc` calls than there are places left. -/
def Room (mp : MemoPool) (n : Nat) (calls : List Call) : Prop :=
  (0 < mp.maxBlockCnt ∧ mp.maxBlockCnt ≤ n ∧ mp.blockCnt ≤ mp.maxBlockCnt) ∨
    mp.nodes.length - 3 + allocCount calls ≤ n

/-- A call of the sharded pool, on the shard with index `s`. -/
inductive PCall where
  | alloc (s : Int) : PCall
  | free (s : Int) (p : Nat) : PCall
deriving DecidableEq, Repr

/-- Shard index of a call. -/
def PCall.shard : PCall → Int
  | PCall.alloc s => s
  | PCall.free s _ => s

/-- One call on a sharded pool; `none` when the shard index is out of range. -/
def Pools.call (addrs : Nat → Nat → Nat) (saddr : Nat → Nat) (ps : Pools) : PCall → Option Pools
  | PCall.alloc s => (ps.Alloc addrs saddr s).map (fun r => r.1)
  | PCall.free s p => (ps.Free s p).map (fun r => r.1)

/-- A sequence of calls on a sharded pool. -/
def Pools.run (addrs : Nat → Nat → Nat) (saddr : Nat → Nat) : Pools → List PCall → Option Pools
  | ps, [] => some ps
  | ps, c :: cs =>
    match ps.call addrs saddr c with
    | none => none
    | some q => Pools.run addrs saddr q cs

/-- Well-formedness of a sharded pool of `n` shards: every local pool and the shared pool are
well formed and have created at most `b` blocks. -/
structure PoolsWF (addrs : Nat → Nat → Nat) (saddr : Nat → Nat) (sz ul us n b : Nat)
    (ps : Pools) : Prop where
  count : ps.mps.length = n
  locals : ∀ i, i < n → ∃ L, WF (addrs i) sz ul (ps.mps.getD i default) L
  localsLen : ∀ i, i < n → (ps.mps.getD i default).nodes.length ≤ b + 3
  shared : ∃ L, WF saddr sz us ps.shared L
  sharedLen : ps.shared.nodes.length ≤ b + 3

/-- A placement of the blocks of local pools used in the examples: block `m` of shard `i` at
address `1048576 * (i + 1) + 4096 * (m + 1)`. -/
def exampleAddrs : Nat → Nat → Nat := fun i m => 1048576 * (i + 1) + 4096 * (m + 1)

/-- A placement of blocks used in the examples: block `n` at address `4096 * (n + 1)`. -/
def exampleAddr : Nat → Nat := fun n => 4096 * (n + 1)

end Memopool

/-! ## Definitions for the block-level and search claims -/
namespace Memopool

/-- Facts about a block that `newMemoPool` built at address `a` for `u` units of size `sz`,
true at any later time: its address data are those computed at construction, without overflow,
and its slice holds the `u` unit headers. -/
structure Shape (a sz u : Nat) (b : memoBlock) : Prop where
  base : b.pBlock = a
  size : b.nUnitSize = sz
  stride : b.unitTtlSize = sz + intSize
  endp : b.endPtr = a + u * (sz + intSize)
  strideFits : sz + intSize < W
  fits : a + u * (sz + intSize) < W
  len : b.bs.length = u

/-- The block and the pointers returned, in order, by `n` successive calls of `alloc`. -/
def memoBlock.allocN : Nat → memoBlock → memoBlock × List Nat
  | 0, b => (b, [])
  | n + 1, b =>
    let r := b.alloc
    let s := memoBlock.allocN n r.1
    (s.1, r.2 :: s.2)

/-- A plain linear scan for the first block that accepts `pt`: the partial list `P` from its
head, then the full list `F`. -/
def linearScan (h : List memoBlock) (pt : Nat) (P F : List Nat) : Option Nat :=
  (P ++ F).find? (accepts h pt)

/-- The pool of the examples of the search: two blocks of two units of size 16 after three
allocations, the first block in the full list and the second in the partial list. -/
def examplePool : MemoPool :=
  (((New exampleAddr 16 2 2).run exampleAddr []
    [Call.alloc, Call.alloc, Call.alloc]).map (fun r => r.1)).getD (New exampleAddr 16 2 2)

end Memopool

/-! ## Reading and writing nodes -/
namespace Memopool

theorem getB_set (h : List memoBlock) (i j : Nat) (b : memoBlock) :
    getB (h.set i b) j = if i = j ∧ i < h.length then b else getB h j := by
  unfold getB
  by_cases hij : i = j
  · subst hij
    by_cases hi : i < h.length
    · simp [List.getD_eq_getElem?_getD, List.getElem?_set, hi]
    · have : h.set i b = h := by
        apply List.set_eq_of_length_le; omega
      simp [this, hi]
  · simp [List.getD_eq_getElem?_getD, List.getElem?_set, hij]

theorem getB_append_left (h : List memoBlock) (b : memoBlock) (i : Nat) (hi : i < h.length) :
    getB (h ++ [b]) i = getB h i := by
  unfold getB
  simp [List.getD_eq_getElem?_getD, List.getElem?_append_left, hi]

theorem getB_append_self (h : List memoBlock) (b : memoBlock) :
    getB (h ++ [b]) h.length = b := by
  unfold getB
  simp [List.getD_eq_getElem?_getD]

theorem length_setNext (h : List memoBlock) (p : Nat) (v : Option Nat) :
    (setNext h p v).length = h.length := by
  simp [setNext]

theorem length_setPre (h : List memoBlock) (p : Nat) (v : Option Nat) :
    (setPre h p v).length = h.length := by
  simp [setPre]

theorem next_setNext (h : List memoBlock) (p x : Nat) (v : Option Nat) (hp : p < h.length) :
    (getB (setNext h p v) x).Next = if x = p then v else (getB h x).Next := by
  unfold setNext
  rw [getB_set]
  by_cases hx : x = p
  · subst hx; simp [hp]
  · have : ¬ p = x := fun e => hx e.symm
    simp [hx, this]

theorem pre_setNext (h : List memoBlock) (p x : Nat) (v : Option Nat) :
    (getB (setNext h p v) x).Pre = (getB h x).Pre := by
  unfold setNext
  rw [getB_set]
  split
  · next hc => rw [hc.1]
  · rfl

theorem pre_setPre (h : List memoBlock) (p x : Nat) (v : Option Nat) (hp : p < h.length) :
    (getB (setPre h p v) x).Pre = if x = p then v else (getB h x).Pre := by
  unfold setPre
  rw [getB_set]
  by_cases hx : x = p
  · subst hx; simp [hp]
  · have : ¬ p = x := fun e => hx e.symm
    simp [hx, this]

theorem next_setPre (h : List memoBlock) (p x : Nat) (v : Option Nat) :
    (getB (setPre h p v) x).Next = (getB h x).Next := by
  unfold setPre
  rw [getB_set]
  split
  · next hc => rw [hc.1]
  · rfl

theorem core_setNext (h : List memoBlock) (p x : Nat) (v : Option Nat) :
    core (getB (setNext h p v) x) = core (getB h x) := by
  unfold setNext
  rw [getB_set]
  split
  · next hc => rw [hc.1]; rfl
  · rfl

theorem core_setPre (h : List memoBlock) (p x : Nat) (v : Option Nat) :
    core (getB (setPre h p v) x) = core (getB h x) := by
  unfold setPre
  rw [getB_set]
  split
  · next hc => rw [hc.1]; rfl
  · rfl

end Memopool

/-! ## The links after remove and moveAfter -/
namespace Memopool

theorem length_remove (h : List memoBlock) (b : Nat) : (remove h b).length = h.length := by
  unfold remove
  simp only [length_setPre, length_setNext]
  cases (getB h b).Pre <;> cases (getB h b).Next <;> simp [length_setPre, length_setNext]

theorem length_moveAfter (h : List memoBlock) (s b : Nat) : (moveAfter h s b).length = h.length := by
  unfold moveAfter
  split
  · rfl
  · simp only [length_setPre, length_setNext]
    cases (getB (remove h b) s).Next <;> simp [length_setPre, length_remove]

theorem core_remove (h : List memoBlock) (b x : Nat) : core (getB (remove h b) x) = core (getB h x) := by
  unfold remove
  simp only [core_setPre, core_setNext]
  cases (getB h b).Pre <;> cases (getB h b).Next <;> simp [core_setPre, core_setNext]

theorem core_moveAfter (h : List memoBlock) (s b x : Nat) :
    core (getB (moveAfter h s b) x) = core (getB h x) := by
  unfold moveAfter
  split
  · rfl
  · simp only [core_setPre, core_setNext]
    cases (getB (remove h b) s).Next <;> simp [core_setPre, core_remove]

/-- The `Next` fields after `remove`. -/
theorem next_remove (h : List memoBlock) (b x : Nat) (hb : b < h.length)
    (hp : ∀ p, (getB h b).Pre = some p → p < h.length) :
    (getB (remove h b) x).Next =
      if x = b then none else if (getB h b).Pre = some x then (getB h b).Next
      else (getB h x).Next := by
  simp only [remove]
  cases hpre : (getB h b).Pre with
  | none =>
    cases hnx : (getB h b).Next with
    | none =>
      simp only [next_setPre]
      rw [next_setNext _ _ _ _ hb]
      by_cases hx : x = b <;> simp [hx]
    | some n =>
      simp only [next_setPre]
      rw [next_setNext _ _ _ _ (by simpa [length_setPre] using hb)]
      by_cases hx : x = b <;> simp [hx, next_setPre]
  | some p =>
    have hpl := hp p hpre
    cases hnx : (getB h b).Next with
    | none =>
      simp only [next_setPre]
      rw [next_setNext _ _ _ _ (by simpa [length_setNext] using hb)]
      by_cases hx : x = b
      · simp [hx]
      · rw [next_setNext _ _ _ _ hpl]
        by_cases hxp : x = p
        · simp [hx, hxp]
        · have : ¬ p = x := fun e => hxp e.symm
          simp [hx, hxp, this]
    | some n =>
      simp only [next_setPre]
      rw [next_setNext _ _ _ _ (by simpa [length_setNext, length_setPre] using hb)]
      by_cases hx : x = b
      · simp [hx]
      · rw [next_setPre, next_setNext _ _ _ _ hpl]
        by_cases hxp : x = p
        · simp [hx, hxp]
        · have : ¬ p = x := fun e => hxp e.symm
          simp [hx, hxp, this]

/-- The `Pre` fields after `remove`. -/
theorem pre_remove (h : List memoBlock) (b x : Nat) (hb : b < h.length)
    (hn : ∀ n, (getB h b).Next = some n → n < h.length) :
    (getB (remove h b) x).Pre =
      if x = b then none else if (getB h b).Next = some x then (getB h b).Pre
      else (getB h x).Pre := by
  simp only [remove]
  cases hpre : (getB h b).Pre with
  | none =>
    cases hnx : (getB h b).Next with
    | none =>
      rw [pre_setPre _ _ _ _ (by simpa [length_setNext] using hb)]
      by_cases hx : x = b <;> simp [hx, pre_setNext]
    | some n =>
      have hnl := hn n hnx
      rw [pre_setPre _ _ _ _ (by simpa [length_setNext, length_setPre] using hb)]
      by_cases hx : x = b
      · simp [hx]
      · rw [pre_setNext, pre_setPre _ _ _ _ hnl]
        by_cases hxn : x = n
        · simp [hx, hxn]
        · have : ¬ n = x := fun e => hxn e.symm
          simp [hx, hxn, this]
  | some p =>
    cases hnx : (getB h b).Next with
    | none =>
      rw [pre_setPre _ _ _ _ (by simpa [length_setNext] using hb)]
      by_cases hx : x = b <;> simp [hx, pre_setNext]
    | some n =>
      have hnl := hn n hnx
      rw [pre_setPre _ _ _ _ (by simpa [length_setNext, length_setPre] using hb)]
      by_cases hx : x = b
      · simp [hx]
      · rw [pre_setNext, pre_setPre _ _ _ _ (by simpa [length_setNext] using hnl)]
        by_cases hxn : x = n
        · simp [hx, hxn]
        · have : ¬ n = x := fun e => hxn e.symm
          simp [hx, hxn, this, pre_setNext]

/-- The `Next` fields after a `moveAfter` that is not its early return. -/
theorem next_moveAfter (h : List memoBlock) (s b x : Nat) (hne : (getB h s).Next ≠ some b)
    (hs : s < h.length) (hb : b < h.length) :
    (getB (moveAfter h s b) x).Next =
      if x = s then some b else if x = b then (getB (remove h b) s).Next
      else (getB (remove h b) x).Next := by
  have hl := length_remove h b
  simp only [moveAfter, if_neg hne]
  cases hnx : (getB (remove h b) s).Next with
  | none =>
    rw [next_setNext _ _ _ _ (by simpa [length_setNext, length_setPre, hl] using hs)]
    by_cases hx : x = s
    · simp [hx]
    · rw [next_setNext _ _ _ _ (by simpa [length_setPre, hl] using hb)]
      by_cases hxb : x = b <;> simp [hx, hxb, next_setPre]
  | some n =>
    rw [next_setNext _ _ _ _ (by simpa [length_setNext, length_setPre, hl] using hs)]
    by_cases hx : x = s
    · simp [hx]
    · rw [next_setNext _ _ _ _ (by simpa [length_setPre, hl] using hb)]
      by_cases hxb : x = b <;> simp [hx, hxb, next_setPre]

/-- The `Pre` fields after a `moveAfter` that is not its early return. -/
theorem pre_moveAfter (h : List memoBlock) (s b x : Nat) (hne : (getB h s).Next ≠ some b)
    (hb : b < h.length) (hn : ∀ n, (getB (remove h b) s).Next = some n → n < h.length) :
    (getB (moveAfter h s b) x).Pre =
      if x = b then some s else if (getB (remove h b) s).Next = some x then some b
      else (getB (remove h b) x).Pre := by
  have hl := length_remove h b
  simp only [moveAfter, if_neg hne]
  cases hnx : (getB (remove h b) s).Next with
  | none =>
    simp only [pre_setNext]
    rw [pre_setPre _ _ _ _ (by simpa [hl] using hb)]
    by_cases hx : x = b <;> simp [hx]
  | some n =>
    have hnl := hn n hnx
    simp only [pre_setNext]
    rw [pre_setPre _ _ _ _ (by simpa [length_setPre, hl] using hb)]
    by_cases hx : x = b
    · simp [hx]
    · rw [pre_setPre _ _ _ _ (by simpa [hl] using hnl)]
      by_cases hxn : x = n
      · simp [hx, hxn]
      · have : ¬ n = x := fun e => hxn e.symm
        simp [hx, hxn, this]

theorem Linked_congr {h h2 : List memoBlock} : ∀ (l : List Nat) (s : Nat),
    (∀ x, x = s ∨ x ∈ l → (getB h2 x).Next = (getB h x).Next) →
    (∀ x, x ∈ l → (getB h2 x).Pre = (getB h x).Pre) →
    Linked h s l → Linked h2 s l
  | [], s, hN, _, hl => by
    simp only [Linked] at hl ⊢
    rw [hN s (Or.inl rfl)]; exact hl
  | b :: r, s, hN, hP, hl => by
    simp only [Linked] at hl ⊢
    refine ⟨?_, ?_, ?_⟩
    · rw [hN s (Or.inl rfl)]; exact hl.1
    · rw [hP b (List.mem_cons_self _ _)]; exact hl.2.1
    · exact Linked_congr r b (fun x hx => hN x (Or.inr (by
          rcases hx with hx | hx
          · rw [hx]; exact List.mem_cons_self _ _
          · exact List.mem_cons_of_mem _ hx)))
        (fun x hx => hP x (List.mem_cons_of_mem _ hx)) hl.2.2

theorem Linked_mid_pre {h : List memoBlock} {b : Nat} {l2 : List Nat} : ∀ (l1 : List Nat) (s : Nat),
    Linked h s (l1 ++ b :: l2) → ∃ p, (p = s ∨ p ∈ l1) ∧ (getB h b).Pre = some p
  | [], s, hl => by
    simp only [List.nil_append, Linked] at hl
    exact ⟨s, Or.inl rfl, hl.2.1⟩
  | a :: l1, s, hl => by
    simp only [List.cons_append, Linked] at hl
    obtain ⟨p, hp, hpre⟩ := Linked_mid_pre l1 a hl.2.2
    refine ⟨p, Or.inr ?_, hpre⟩
    rcases hp with hp | hp
    · rw [hp]; exact List.mem_cons_self _ _
    · exact List.mem_cons_of_mem _ hp

theorem Linked_head {h : List memoBlock} {s : Nat} {l : List Nat} (hl : Linked h s l) :
    (getB h s).Next = l.head? := by
  cases l with
  | nil => simpa [Linked] using hl
  | cons a r => simpa [Linked] using hl.1

theorem Linked_mid_suffix {h : List memoBlock} {b : Nat} {l2 : List Nat} : ∀ (l1 : List Nat) (s : Nat),
    Linked h s (l1 ++ b :: l2) → Linked h b l2
  | [], s, hl => by
    simp only [List.nil_append, Linked] at hl
    exact hl.2.2
  | a :: l1, s, hl => by
    simp only [List.cons_append, Linked] at hl
    exact Linked_mid_suffix l1 a hl.2.2

theorem Linked_remove {h : List memoBlock} {b : Nat} {l2 : List Nat} : ∀ (l1 : List Nat) (s : Nat),
    Linked h s (l1 ++ b :: l2) → (s :: (l1 ++ b :: l2)).Nodup →
    (∀ x, x ∈ s :: (l1 ++ b :: l2) → x < h.length) → Linked (remove h b) s (l1 ++ l2)
  | [], s, hl, hnd, hlt => by
    simp only [List.nil_append, Linked] at hl
    simp only [List.nil_append] at hnd hlt ⊢
    obtain ⟨hs, hb, hr⟩ := hl
    have hbl : b < h.length := hlt b (by simp)
    have hpb : ∀ p, (getB h b).Pre = some p → p < h.length := by
      intro p hp; rw [hb] at hp; cases hp; exact hlt s (by simp)
    have hnb : ∀ n, (getB h b).Next = some n → n < h.length := by
      intro n hn
      rw [Linked_head hr] at hn
      exact hlt n (by
        cases l2 with
        | nil => simp at hn
        | cons c r => simp at hn; simp [hn])
    have hsb : s ≠ b := by
      intro e; subst e; simp at hnd
    have hNs : (getB (remove h b) s).Next = l2.head? := by
      rw [next_remove h b s hbl hpb, if_neg hsb, if_pos hb, Linked_head hr]
    cases l2 with
    | nil => simpa [Linked] using hNs
    | cons n r =>
      simp only [Linked] at hr ⊢
      have hnd2 : s ≠ n ∧ s ∉ r ∧ b ≠ n ∧ b ∉ r ∧ n ∉ r := by
        simp only [List.nodup_cons, List.mem_cons, not_or] at hnd
        tauto
      refine ⟨by simpa using hNs, ?_, ?_⟩
      · rw [pre_remove h b n hbl hnb, if_neg (fun e => hnd2.2.2.1 e.symm), if_pos hr.1, hb]
      · refine Linked_congr r n ?_ ?_ hr.2.2
        · intro x hx
          have hxb : x ≠ b := by
            rcases hx with hx | hx
            · rw [hx]; exact fun e => hnd2.2.2.1 e.symm
            · intro e; rw [e] at hx; exact hnd2.2.2.2.1 hx
          have hxs : (getB h b).Pre ≠ some x := by
            rw [hb]; intro e; cases e
            rcases hx with hx | hx
            · exact hnd2.1 hx
            · exact hnd2.2.1 hx
          rw [next_remove h b x hbl hpb, if_neg hxb, if_neg hxs]
        · intro x hx
          have hxb : x ≠ b := by
            intro e; rw [e] at hx; exact hnd2.2.2.2.1 hx
          have hxn : (getB h b).Next ≠ some x := by
            rw [hr.1]; intro e; cases e; exact hnd2.2.2.2.2 hx
          rw [pre_remove h b x hbl hnb, if_neg hxb, if_neg hxn]
  | a :: l1, s, hl, hnd, hlt => by
    simp only [List.cons_append, Linked] at hl ⊢
    obtain ⟨hs, ha, hr⟩ := hl
    have hnd1 : (a :: (l1 ++ b :: l2)).Nodup := (List.nodup_cons.mp hnd).2
    have hsn : s ∉ a :: (l1 ++ b :: l2) := (List.nodup_cons.mp hnd).1
    have han : a ∉ l1 ++ b :: l2 := (List.nodup_cons.mp hnd1).1
    have ih := Linked_remove l1 a hr hnd1 (fun x hx => hlt x (List.mem_cons_of_mem _ hx))
    have hbl : b < h.length := hlt b (by simp)
    obtain ⟨p, hp, hpre⟩ := Linked_mid_pre l1 a hr
    have hnext := Linked_head (Linked_mid_suffix l1 a hr)
    have hpb : ∀ q, (getB h b).Pre = some q → q < h.length := by
      intro q hq; rw [hpre] at hq; cases hq
      apply hlt
      rcases hp with hp | hp
      · simp [hp]
      · simp [hp]
    have hnb : ∀ n, (getB h b).Next = some n → n < h.length := by
      intro n hn
      rw [hnext] at hn
      apply hlt
      cases l2 with
      | nil => simp at hn
      | cons c r => simp at hn; simp [hn]
    have hsb : s ≠ b := by
      intro e; apply hsn; rw [e]; simp
    have hab : a ≠ b := by
      intro e; apply han; rw [e]; simp
    refine ⟨?_, ?_, ih⟩
    · have : (getB h b).Pre ≠ some s := by
        rw [hpre]; intro e; cases e
        apply hsn
        rcases hp with hp | hp
        · simp [hp]
        · simp [hp]
      rw [next_remove h b s hbl hpb, if_neg hsb, if_neg this, hs]
    · have : (getB h b).Next ≠ some a := by
        rw [hnext]; intro e
        apply han
        cases l2 with
        | nil => simp at e
        | cons c r => simp at e; simp [e]
      rw [pre_remove h b a hbl hnb, if_neg hab, if_neg this, ha]

end Memopool

/-! ## Effect of moveAfter on the three lists -/
namespace Memopool

theorem mem_moved {L : Nat → List Nat} {s b t x : Nat} (hnd : (L t).Nodup) :
    x ∈ moved L s b t ↔ (x = b ∧ t = s) ∨ (x ≠ b ∧ x ∈ L t) := by
  unfold moved
  by_cases hts : t = s
  · simp only [if_pos hts, List.mem_cons, hnd.mem_erase_iff]
    constructor
    · rintro (h | h)
      · exact Or.inl ⟨h, hts⟩
      · exact Or.inr h
    · rintro (h | h)
      · exact Or.inl h.1
      · exact Or.inr h
  · simp only [if_neg hts, hnd.mem_erase_iff]
    constructor
    · intro h; exact Or.inr h
    · rintro (h | h)
      · exact absurd h.2 hts
      · exact h

theorem Rep.lt_of_mem {h : List memoBlock} {L : Nat → List Nat} (hR : Rep h L) {s b : Nat}
    (hs : s < 3) (hb : b ∈ L s) : b < h.length := (hR.range s hs b hb).2

/-- A head is not a member of a list. -/
theorem Rep.head_not_mem {h : List memoBlock} {L : Nat → List Nat} (hR : Rep h L) {s t : Nat}
    (hs : s < 3) (ht : t < 3) : t ∉ L s := by
  intro hm
  have := (hR.range s hs t hm).1
  omega

/-- Unlinking block `b` takes it out of its list and leaves the lists well formed. -/
theorem Rep.remove {h : List memoBlock} {L : Nat → List Nat} (hR : Rep h L) {b : Nat}
    (hb3 : 3 ≤ b) (hbl : b < h.length)
    (hb : (∃ t, t < 3 ∧ b ∈ L t) ∨
      ((getB h b).Next = none ∧ (getB h b).Pre = none ∧ ∀ t, t < 3 → b ∉ L t)) :
    ∀ t, t < 3 → Linked (Memopool.remove h b) t ((L t).erase b) := by
  rcases hb with ⟨t0, ht0, hmem⟩ | ⟨hn, hp, hfresh⟩
  · obtain ⟨l1, l2, hsplit⟩ := List.append_of_mem hmem
    have hnd0 := hR.nodup t0 ht0
    rw [hsplit] at hnd0
    have hb1 : b ∉ l1 := by
      intro hm
      have := List.nodup_append.mp hnd0
      exact this.2.2 hm (List.mem_cons_self _ _)
    have hlk := hR.linked t0 ht0
    rw [hsplit] at hlk
    obtain ⟨p, hpm, hpre⟩ := Linked_mid_pre l1 t0 hlk
    have hnext := Linked_head (Linked_mid_suffix l1 t0 hlk)
    have hpl : ∀ q, (getB h b).Pre = some q → q < h.length := by
      intro q hq; rw [hpre] at hq; cases hq
      rcases hpm with hpm | hpm
      · omega
      · exact hR.lt_of_mem ht0 (by rw [hsplit]; simp [hpm])
    have hnl : ∀ n, (getB h b).Next = some n → n < h.length := by
      intro n hn; rw [hnext] at hn
      apply hR.lt_of_mem ht0
      rw [hsplit]
      cases l2 with
      | nil => simp at hn
      | cons c r => simp at hn; simp [hn]
    intro t ht
    by_cases htt : t = t0
    · subst htt
      rw [hsplit, List.erase_append_right _ hb1, List.erase_cons_head]
      refine Linked_remove l1 t hlk ?_ ?_
      · rw [List.nodup_cons]
        refine ⟨?_, hnd0⟩
        rw [← hsplit]; exact hR.head_not_mem ht ht
      · intro x hx
        rcases List.mem_cons.mp hx with hx | hx
        · omega
        · exact hR.lt_of_mem ht (by rw [hsplit]; exact hx)
    · have hbt : b ∉ L t := fun hm => hR.disj t t0 ht ht0 htt b hm hmem
      rw [List.erase_of_not_mem hbt]
      refine Linked_congr (L t) t ?_ ?_ (hR.linked t ht)
      · intro x hx
        have hxb : x ≠ b := by
          rcases hx with hx | hx
          · omega
          · intro e; rw [e] at hx; exact hbt hx
        have hxp : (getB h b).Pre ≠ some x := by
          rw [hpre]; intro e; cases e
          rcases hx with hx | hx <;> rcases hpm with hpm | hpm
          · exact htt (hx.symm.trans hpm)
          · rw [hx] at hpm
            exact hR.head_not_mem ht0 ht (by rw [hsplit]; simp [hpm])
          · rw [hpm] at hx; exact hR.head_not_mem ht ht0 hx
          · exact hR.disj t t0 ht ht0 htt _ hx (by rw [hsplit]; simp [hpm])
        rw [next_remove h b x hbl hpl, if_neg hxb, if_neg hxp]
      · intro x hx
        have hxb : x ≠ b := by
          intro e; rw [e] at hx; exact hbt hx
        have hxn : (getB h b).Next ≠ some x := by
          rw [hnext]; intro e
          apply hR.disj t t0 ht ht0 htt _ hx
          rw [hsplit]
          cases l2 with
          | nil => simp at e
          | cons c r => simp at e; simp [e]
        rw [pre_remove h b x hbl hnl, if_neg hxb, if_neg hxn]
  · intro t ht
    have hbt : b ∉ L t := hfresh t ht
    rw [List.erase_of_not_mem hbt]
    refine Linked_congr (L t) t ?_ ?_ (hR.linked t ht)
    · intro x hx
      have hxb : x ≠ b := by
        rcases hx with hx | hx
        · omega
        · intro e; rw [e] at hx; exact hbt hx
      rw [next_remove h b x hbl (by intro q hq; rw [hp] at hq; cases hq), if_neg hxb,
        if_neg (by rw [hp]; simp)]
    · intro x hx
      have hxb : x ≠ b := by
        intro e; rw [e] at hx; exact hbt hx
      rw [pre_remove h b x hbl (by intro q hq; rw [hn] at hq; cases hq), if_neg hxb,
        if_neg (by rw [hn]; simp)]

/-- Effect of `moveAfter(head s, b)` on the lists: `b` leaves its list, if it is in one, and
becomes the first block of list `s`. -/
theorem Rep.moveAfter {h : List memoBlock} {L : Nat → List Nat} (hR : Rep h L) {s b : Nat}
    (hs : s < 3) (hb3 : 3 ≤ b) (hbl : b < h.length)
    (hb : (∃ t, t < 3 ∧ b ∈ L t) ∨
      ((getB h b).Next = none ∧ (getB h b).Pre = none ∧ ∀ t, t < 3 → b ∉ L t)) :
    Rep (Memopool.moveAfter h s b) (moved L s b) := by
  have hmm : ∀ t, t < 3 → ∀ x, x ∈ moved L s b t ↔ (x = b ∧ t = s) ∨ (x ≠ b ∧ x ∈ L t) :=
    fun t ht x => mem_moved (hR.nodup t ht)
  have hnodup : ∀ t, t < 3 → (moved L s b t).Nodup := by
    intro t ht
    unfold moved
    split
    · rw [List.nodup_cons]
      exact ⟨fun hm => ((hR.nodup t ht).mem_erase_iff.mp hm).1 rfl, (hR.nodup t ht).erase b⟩
    · exact (hR.nodup t ht).erase b
  have hdisj : ∀ t1 t2, t1 < 3 → t2 < 3 → t1 ≠ t2 → ∀ x, x ∈ moved L s b t1 →
      x ∉ moved L s b t2 := by
    intro t1 t2 ht1 ht2 hne x hx1 hx2
    rw [hmm t1 ht1] at hx1
    rw [hmm t2 ht2] at hx2
    rcases hx1 with ⟨h1, h1s⟩ | ⟨h1, h1m⟩ <;> rcases hx2 with ⟨h2, h2s⟩ | ⟨h2, h2m⟩
    · exact hne (h1s.trans h2s.symm)
    · exact h2 h1
    · exact h1 h2
    · exact hR.disj t1 t2 ht1 ht2 hne x h1m h2m
  have hrange : ∀ t, t < 3 → ∀ x, x ∈ moved L s b t →
      3 ≤ x ∧ x < (Memopool.moveAfter h s b).length := by
    intro t ht x hx
    rw [length_moveAfter]
    rw [hmm t ht] at hx
    rcases hx with ⟨h1, _⟩ | ⟨_, h1m⟩
    · rw [h1]; exact ⟨hb3, hbl⟩
    · exact hR.range t ht x h1m
  refine ⟨?_, hnodup, hdisj, hrange⟩
  by_cases hne : (getB h s).Next = some b
  · -- early return: `b` already is the first block of list `s`
    have hhead := Linked_head (hR.linked s hs)
    rw [hne] at hhead
    have hLs : ∃ r, L s = b :: r := by
      cases hl : L s with
      | nil => rw [hl] at hhead; simp at hhead
      | cons c r => rw [hl] at hhead; simp at hhead; exact ⟨r, by rw [hhead]⟩
    obtain ⟨r, hr⟩ := hLs
    have hbs : b ∈ L s := by rw [hr]; exact List.mem_cons_self _ _
    intro t ht
    have hLt : moved L s b t = L t := by
      unfold moved
      by_cases hts : t = s
      · rw [if_pos hts, hts, hr, List.erase_cons_head]
      · rw [if_neg hts, List.erase_of_not_mem]
        exact fun hm => hR.disj t s ht hs hts b hm hbs
    rw [hLt]
    have : Memopool.moveAfter h s b = h := by
      unfold Memopool.moveAfter
      rw [if_pos hne]
    rw [this]
    exact hR.linked t ht
  · have hrem := hR.remove hb3 hbl hb
    have hl1 := length_remove h b
    have hpl : ∀ q, (getB h b).Pre = some q → q < h.length := by
      intro q hq
      rcases hb with ⟨t0, ht0, hmem⟩ | ⟨_, hp, _⟩
      · obtain ⟨l1, l2, hsplit⟩ := List.append_of_mem hmem
        have hlk := hR.linked t0 ht0
        rw [hsplit] at hlk
        obtain ⟨p, hpm, hpre⟩ := Linked_mid_pre l1 t0 hlk
        rw [hpre] at hq; cases hq
        rcases hpm with hpm | hpm
        · omega
        · exact hR.lt_of_mem ht0 (by rw [hsplit]; simp [hpm])
      · rw [hp] at hq; cases hq
    have hsl : s < h.length := by omega
    have hsb : s ≠ b := by omega
    have hNs := Linked_head (hrem s hs)
    have hnl : ∀ n, (getB (Memopool.remove h b) s).Next = some n → n < h.length := by
      intro n hn
      rw [hNs] at hn
      have : n ∈ (L s).erase b := by
        cases hl : (L s).erase b with
        | nil => rw [hl] at hn; simp at hn
        | cons c r => rw [hl] at hn; simp at hn; simp [hn]
      exact hR.lt_of_mem hs (List.mem_of_mem_erase this)
    have hbe : ∀ t, t < 3 → b ∉ (L t).erase b := fun t ht hm =>
      ((hR.nodup t ht).mem_erase_iff.mp hm).1 rfl
    intro t ht
    by_cases hts : t = s
    · subst hts
      have hmv : moved L t b t = b :: (L t).erase b := by simp [moved]
      rw [hmv]
      simp only [Linked]
      refine ⟨?_, ?_, ?_⟩
      · rw [next_moveAfter h t b t hne hsl hbl, if_pos rfl]
      · rw [pre_moveAfter h t b b hne hbl hnl, if_pos rfl]
      · have hlk := hrem t ht
        have hbt := hbe t ht
        have hndt := (hR.nodup t ht).erase b
        have htn : t ∉ (L t).erase b := fun hm =>
          hR.head_not_mem ht ht (List.mem_of_mem_erase hm)
        revert hlk hbt hndt htn hNs
        generalize (L t).erase b = l
        intro hNs hlk hbt hndt htn
        cases l with
        | nil =>
          simp only [Linked] at hlk ⊢
          rw [next_moveAfter h t b b hne hsl hbl, if_neg (fun e => hsb e.symm), if_pos rfl, hlk]
        | cons n r =>
          simp only [Linked] at hlk ⊢
          have hnb : n ≠ b := fun e => hbt (by rw [e]; exact List.mem_cons_self _ _)
          refine ⟨?_, ?_, ?_⟩
          · rw [next_moveAfter h t b b hne hsl hbl, if_neg (fun e => hsb e.symm), if_pos rfl,
              hlk.1]
          · rw [pre_moveAfter h t b n hne hbl hnl, if_neg hnb, if_pos hlk.1]
          · refine Linked_congr r n ?_ ?_ hlk.2.2
            · intro x hx
              have hxm : x ∈ n :: r := by
                rcases hx with hx | hx
                · rw [hx]; exact List.mem_cons_self _ _
                · exact List.mem_cons_of_mem _ hx
              have hxt : x ≠ t := fun e => htn (by rw [← e]; exact hxm)
              have hxb : x ≠ b := fun e => hbt (by rw [← e]; exact hxm)
              rw [next_moveAfter h t b x hne hsl hbl, if_neg hxt, if_neg hxb]
            · intro x hx
              have hxb : x ≠ b := fun e => hbt (by rw [← e]; exact List.mem_cons_of_mem _ hx)
              have hxn : (getB (Memopool.remove h b) t).Next ≠ some x := by
                rw [hlk.1]; intro e; cases e
                exact (List.nodup_cons.mp hndt).1 hx
              rw [pre_moveAfter h t b x hne hbl hnl, if_neg hxb, if_neg hxn]
    · have hmv : moved L s b t = (L t).erase b := by simp [moved, hts]
      rw [hmv]
      refine Linked_congr _ t ?_ ?_ (hrem t ht)
      · intro x hx
        have hxs : x ≠ s := by
          rcases hx with hx | hx
          · rw [hx]; exact hts
          · intro e; rw [e] at hx
            exact hR.head_not_mem ht hs (List.mem_of_mem_erase hx)
        have hxb : x ≠ b := by
          rcases hx with hx | hx
          · omega
          · intro e; rw [e] at hx; exact hbe t ht hx
        rw [next_moveAfter h s b x hne hsl hbl, if_neg hxs, if_neg hxb]
      · intro x hx
        have hxb : x ≠ b := by
          intro e; rw [e] at hx; exact hbe t ht hx
        have hxn : (getB (Memopool.remove h b) s).Next ≠ some x := by
          rw [hNs]; intro e
          have hxs : x ∈ (L s).erase b := by
            cases hl : (L s).erase b with
            | nil => rw [hl] at e; simp at e
            | cons c r => rw [hl] at e; simp at e; simp [e]
          exact hR.disj t s ht hs hts x (List.mem_of_mem_erase hx) (List.mem_of_mem_erase hxs)
        rw [pre_moveAfter h s b x hne hbl hnl, if_neg hxb, if_neg hxn]

end Memopool

/-! ## Blocks: alloc and free -/
namespace Memopool

theorem W_pos : 0 < W := by unfold W; positivity

theorem W_val : W = 18446744073709551616 := by unfold W; norm_num

theorem free_false {b : memoBlock} {p : Nat} (h : (b.free p).2 = false) : (b.free p).1 = b := by
  unfold memoBlock.free at h ⊢
  simp only at h ⊢
  split
  · rfl
  · split
    · rfl
    · next h1 h2 => rw [if_neg h1, if_neg h2] at h; simp at h

theorem free_links (b : memoBlock) (p : Nat) :
    (b.free p).1.Next = b.Next ∧ (b.free p).1.Pre = b.Pre := by
  unfold memoBlock.free
  simp only
  split
  · exact ⟨rfl, rfl⟩
  · split <;> exact ⟨rfl, rfl⟩

theorem alloc_links (b : memoBlock) :
    b.alloc.1.Next = b.Next ∧ b.alloc.1.Pre = b.Pre := by
  unfold memoBlock.alloc
  split <;> exact ⟨rfl, rfl⟩

theorem free_unit {addr : Nat → Nat} {sz u i : Nat} {b : memoBlock}
    (hb : BlockOK addr sz u i b) {j : Nat} (hj : j < u) :
    b.free (unitPtr addr sz (i - 3) j) =
      ({ b with nFirst := j, bs := b.bs.set j b.nFirst, nFree := b.nFree + 1 }, true) := by
  have hW := W_val
  have hfit := hb.fits
  have hsf := hb.strideFits
  have hmul : (sz + intSize) * (j + 1) ≤ u * (sz + intSize) := by
    rw [Nat.mul_comm u]; exact Nat.mul_le_mul_left _ hj
  have hmul2 : (sz + intSize) * (j + 1) = (sz + intSize) * j + (sz + intSize) := by ring
  have hi8 : intSize = 8 := rfl
  have hstart : (unitPtr addr sz (i - 3) j + W - intSize) % W = addr (i - 3) + (sz + intSize) * j := by
    unfold unitPtr
    have : addr (i - 3) + (sz + intSize) * j + intSize + W - intSize
        = addr (i - 3) + (sz + intSize) * j + W := by omega
    rw [this, Nat.add_mod_right, Nat.mod_eq_of_lt (by omega)]
  have hS : (b.nUnitSize + intSize) % W = sz + intSize := by
    rw [hb.size, Nat.mod_eq_of_lt hsf]
  have hSpos : 0 < sz + intSize := by omega
  unfold memoBlock.free
  simp only [hstart, hS, hb.base, hb.endp]
  rw [if_neg (by omega)]
  have hsub : addr (i - 3) + (sz + intSize) * j - addr (i - 3) = (sz + intSize) * j := by omega
  rw [hsub, Nat.mul_mod_right, Nat.mul_div_cancel_left _ hSpos]
  simp

/-- A block accepts exactly the payload addresses of its units. -/
theorem free_accepts {addr : Nat → Nat} {sz u i : Nat} {b : memoBlock}
    (hb : BlockOK addr sz u i b) {p : Nat} (hp : p < W) :
    (b.free p).2 = true ↔ ∃ j, j < u ∧ p = unitPtr addr sz (i - 3) j := by
  constructor
  · intro hacc
    have hW := W_val
    have hfit := hb.fits
    have hsf := hb.strideFits
    have hi8 : intSize = 8 := rfl
    have hS : (b.nUnitSize + intSize) % W = sz + intSize := by
      rw [hb.size, Nat.mod_eq_of_lt hsf]
    unfold memoBlock.free at hacc
    simp only [hS, hb.base, hb.endp] at hacc
    by_cases h1 : (p + W - intSize) % W < addr (i - 3) ∨
        (p + W - intSize) % W ≥ addr (i - 3) + u * (sz + intSize)
    · rw [if_pos h1] at hacc; simp at hacc
    · rw [if_neg h1] at hacc
      by_cases h2 : ((p + W - intSize) % W - addr (i - 3)) % (sz + intSize) ≠ 0
      · rw [if_pos h2] at hacc; simp at hacc
      · have h2z : ((p + W - intSize) % W - addr (i - 3)) % (sz + intSize) = 0 := by
          by_contra hc; exact h2 hc
        have hdvd := Nat.dvd_of_mod_eq_zero h2z
        obtain ⟨j, hj⟩ := hdvd
        have hju : j < u := by
          by_contra hc
          have : u * (sz + intSize) ≤ (sz + intSize) * j := by
            rw [Nat.mul_comm u]; exact Nat.mul_le_mul_left _ (by omega)
          omega
        have hmul : (sz + intSize) * (j + 1) ≤ u * (sz + intSize) := by
          rw [Nat.mul_comm u]; exact Nat.mul_le_mul_left _ hju
        have hmul2 : (sz + intSize) * (j + 1) = (sz + intSize) * j + (sz + intSize) := by ring
        refine ⟨j, hju, ?_⟩
        unfold unitPtr
        by_cases hp8 : 8 ≤ p
        · have hst : (p + W - intSize) % W = p - 8 := by
            have : p + W - intSize = (p - 8) + W := by omega
            rw [this, Nat.add_mod_right, Nat.mod_eq_of_lt (by omega)]
          rw [hst] at hj h1
          omega
        · have hst : (p + W - intSize) % W = p + W - 8 := by
            rw [hi8, Nat.mod_eq_of_lt (by omega)]
          rw [hst] at hj h1
          omega
  · rintro ⟨j, hj, rfl⟩
    rw [free_unit hb hj]

theorem free_reject {addr : Nat → Nat} {sz u i : Nat} {b : memoBlock}
    (hb : BlockOK addr sz u i b) {p : Nat} (hp : p < W)
    (hno : ∀ j, j < u → p ≠ unitPtr addr sz (i - 3) j) : b.free p = (b, false) := by
  have h2 : (b.free p).2 = false := by
    cases hc : (b.free p).2 with
    | false => rfl
    | true =>
      obtain ⟨j, hj, hpj⟩ := (free_accepts hb hp).mp hc
      exact absurd hpj (hno j hj)
  have h1 := free_false h2
  exact Prod.ext h1 h2

/-- A block with a free unit hands out the payload address of the unit at the head of its
free list. -/
theorem alloc_some {addr : Nat → Nat} {sz u i : Nat} {b : memoBlock}
    (hb : BlockOK addr sz u i b) (hf : 0 < b.nFree) :
    b.alloc = ({ b with nFirst := b.bs.getD b.nFirst 0, nFree := b.nFree - 1 },
      unitPtr addr sz (i - 3) b.nFirst) ∧ b.nFirst < u := by
  have hW := W_val
  have hfit := hb.fits
  have hi8 : intSize = 8 := rfl
  have hj : b.nFirst < u := by simpa using hb.inRange 0 hf
  have hmul : (sz + intSize) * (b.nFirst + 1) ≤ u * (sz + intSize) := by
    rw [Nat.mul_comm u]; exact Nat.mul_le_mul_left _ hj
  have hmul2 : (sz + intSize) * (b.nFirst + 1) = (sz + intSize) * b.nFirst + (sz + intSize) := by
    ring
  refine ⟨?_, hj⟩
  unfold memoBlock.alloc unitPtr
  rw [if_neg (by omega)]
  simp only [hb.base, hb.stride]
  rw [Nat.mod_eq_of_lt (a := addr (i - 3) + (sz + intSize) * b.nFirst) (by omega),
    Nat.mod_eq_of_lt (by omega)]

theorem unitPtr_pos_lt {addr : Nat → Nat} {sz u n j : Nat} (hfit : addr n + u * (sz + intSize) < W)
    (hj : j < u) : 0 < unitPtr addr sz n j ∧ unitPtr addr sz n j < W := by
  have hi8 : intSize = 8 := rfl
  have hmul : (sz + intSize) * (j + 1) ≤ u * (sz + intSize) := by
    rw [Nat.mul_comm u]; exact Nat.mul_le_mul_left _ hj
  have hmul2 : (sz + intSize) * (j + 1) = (sz + intSize) * j + (sz + intSize) := by ring
  unfold unitPtr
  omega

end Memopool

/-! ## Block facts are kept by alloc and free -/
namespace Memopool

theorem BlockOK.of_core {addr : Nat → Nat} {sz u i : Nat} {b c : memoBlock}
    (hb : BlockOK addr sz u i b) (hc : core c = core b) : BlockOK addr sz u i c := by
  have e1 : c.pBlock = b.pBlock := show (core c).pBlock = (core b).pBlock from by rw [hc]
  have e2 : c.nUnitSize = b.nUnitSize := show (core c).nUnitSize = (core b).nUnitSize from by rw [hc]
  have e3 : c.nUnitCount = b.nUnitCount := show (core c).nUnitCount = (core b).nUnitCount from by rw [hc]
  have e4 : c.unitTtlSize = b.unitTtlSize := show (core c).unitTtlSize = (core b).unitTtlSize from by rw [hc]
  have e5 : c.endPtr = b.endPtr := show (core c).endPtr = (core b).endPtr from by rw [hc]
  have e6 : c.bs = b.bs := show (core c).bs = (core b).bs from by rw [hc]
  have e7 : c.nFree = b.nFree := show (core c).nFree = (core b).nFree from by rw [hc]
  have e8 : c.nFirst = b.nFirst := show (core c).nFirst = (core b).nFirst from by rw [hc]
  exact ⟨e1 ▸ hb.base, e2 ▸ hb.size, e3 ▸ hb.count, e4 ▸ hb.stride, e5 ▸ hb.endp, hb.strideFits,
    hb.fits, e6 ▸ hb.len, by rw [e6, e7, e8]; exact hb.inRange⟩

theorem getD_identity (u x : Nat) (hx : x < u) :
    ((List.range u).map (fun i => i + 1)).getD x 0 = x + 1 := by
  simp [List.getD_eq_getElem?_getD, List.getElem?_map, List.getElem?_range hx]

theorem iterate_identity (u : Nat) : ∀ m, m ≤ u →
    (fun x => ((List.range u).map (fun i => i + 1)).getD x 0)^[m] 0 = m
  | 0, _ => rfl
  | m + 1, hm => by
    rw [Function.iterate_succ_apply', iterate_identity u m (by omega)]
    exact getD_identity u m (by omega)

theorem BlockOK.new {addr : Nat → Nat} {sz u i : Nat} (hs : sz + intSize < W)
    (hfit : addr (i - 3) + u * (sz + intSize) < W) :
    BlockOK addr sz u i (newMemoPool (addr (i - 3)) sz u) := by
  have hln : (u * ((sz + intSize) % W)) % W = u * (sz + intSize) := by
    rw [Nat.mod_eq_of_lt hs, Nat.mod_eq_of_lt (by omega)]
  refine ⟨rfl, rfl, rfl, ?_, ?_, hs, hfit, ?_, ?_⟩
  · show (sz + intSize) % W = sz + intSize
    exact Nat.mod_eq_of_lt hs
  · show (addr (i - 3) + (u * ((sz + intSize) % W)) % W) % W = _
    rw [hln, Nat.mod_eq_of_lt hfit]
  · show ((List.range u).map (fun i => i + 1)).length = u
    simp
  · intro m hm
    show (fun x => ((List.range u).map (fun i => i + 1)).getD x 0)^[m] 0 < u
    have hm2 : m < u := hm
    rw [iterate_identity u m (by omega)]
    exact hm2

theorem BlockOK.alloc {addr : Nat → Nat} {sz u i : Nat} {b : memoBlock}
    (hb : BlockOK addr sz u i b) :
    BlockOK addr sz u i { b with nFirst := b.bs.getD b.nFirst 0, nFree := b.nFree - 1 } := by
  refine ⟨hb.base, hb.size, hb.count, hb.stride, hb.endp, hb.strideFits, hb.fits, hb.len, ?_⟩
  intro m hm
  have hm2 : m + 1 < b.nFree := by
    have : m < b.nFree - 1 := hm
    omega
  have := hb.inRange (m + 1) hm2
  rw [Function.iterate_succ_apply] at this
  exact this

theorem getD_set_nat (l : List Nat) (j v x : Nat) (hj : j < l.length) :
    (l.set j v).getD x 0 = if x = j then v else l.getD x 0 := by
  by_cases hx : x = j
  · subst hx
    simp [List.getD_eq_getElem?_getD, List.getElem?_set, hj]
  · have : ¬ j = x := fun e => hx e.symm
    simp [List.getD_eq_getElem?_getD, List.getElem?_set, hx, this]

theorem BlockOK.free {addr : Nat → Nat} {sz u i : Nat} {b : memoBlock}
    (hb : BlockOK addr sz u i b) {j : Nat} (hj : j < u) :
    BlockOK addr sz u i { b with nFirst := j, bs := b.bs.set j b.nFirst, nFree := b.nFree + 1 } := by
  refine ⟨hb.base, hb.size, hb.count, hb.stride, hb.endp, hb.strideFits, hb.fits, ?_, ?_⟩
  · show (b.bs.set j b.nFirst).length = u
    rw [List.length_set]; exact hb.len
  · have hjl : j < b.bs.length := by rw [hb.len]; exact hj
    have key : ∀ m, m ≤ b.nFree →
        (fun x => (b.bs.set j b.nFirst).getD x 0)^[m] j = j ∨
        ∃ k, k < m ∧ (fun x => (b.bs.set j b.nFirst).getD x 0)^[m] j =
          (fun x => b.bs.getD x 0)^[k] b.nFirst := by
      intro m
      induction m with
      | zero => intro _; exact Or.inl rfl
      | succ m ih =>
        intro hm
        rw [Function.iterate_succ_apply']
        rcases ih (by omega) with h0 | ⟨k, hk, hk2⟩
        · rw [h0]
          right
          refine ⟨0, by omega, ?_⟩
          rw [getD_set_nat _ _ _ _ hjl, if_pos rfl]
          rfl
        · rw [hk2]
          by_cases hc : (fun x => b.bs.getD x 0)^[k] b.nFirst = j
          · right
            refine ⟨0, by omega, ?_⟩
            rw [hc, getD_set_nat _ _ _ _ hjl, if_pos rfl]
            rfl
          · right
            refine ⟨k + 1, by omega, ?_⟩
            rw [getD_set_nat _ _ _ _ hjl, if_neg hc, Function.iterate_succ_apply']
    intro m hm
    have hm2 : m ≤ b.nFree := by
      have : m < b.nFree + 1 := hm
      omega
    show (fun x => (b.bs.set j b.nFirst).getD x 0)^[m] j < u
    rcases key m hm2 with h0 | ⟨k, hk, hk2⟩
    · rw [h0]; exact hj
    · rw [hk2]; exact hb.inRange k (by omega)

end Memopool

/-! ## Well-formed pools: updates and moves -/
namespace Memopool

theorem Rep.set_data {h : List memoBlock} {L : Nat → List Nat} (hR : Rep h L) {b : Nat}
    {c : memoBlock} (hN : c.Next = (getB h b).Next) (hP : c.Pre = (getB h b).Pre) :
    Rep (h.set b c) L := by
  have hn : ∀ x, (getB (h.set b c) x).Next = (getB h x).Next := by
    intro x; rw [getB_set]; split
    · next hc => rw [hN, hc.1]
    · rfl
  have hp : ∀ x, (getB (h.set b c) x).Pre = (getB h x).Pre := by
    intro x; rw [getB_set]; split
    · next hc => rw [hP, hc.1]
    · rfl
  refine ⟨fun s hs => Linked_congr _ _ (fun x _ => hn x) (fun x _ => hp x) (hR.linked s hs),
    hR.nodup, hR.disj, ?_⟩
  intro s hs x hx
  rw [List.length_set]
  exact hR.range s hs x hx

theorem Rep.append {h : List memoBlock} {L : Nat → List Nat} (hR : Rep h L) (h3 : 3 ≤ h.length)
    (c : memoBlock) : Rep (h ++ [c]) L := by
  refine ⟨fun s hs => Linked_congr _ _ ?_ ?_ (hR.linked s hs), hR.nodup, hR.disj, ?_⟩
  · intro x hx
    rw [getB_append_left]
    rcases hx with hx | hx
    · omega
    · exact hR.lt_of_mem hs hx
  · intro x hx
    rw [getB_append_left]
    exact hR.lt_of_mem hs hx
  · intro s hs x hx
    have := hR.range s hs x hx
    rw [List.length_append]
    simp only [List.length_singleton]
    omega

theorem set_getB_self (h : List memoBlock) (b : Nat) : h.set b (getB h b) = h := by
  by_cases hb : b < h.length
  · unfold getB
    apply List.ext_getElem?
    intro n
    rw [List.getElem?_set]
    split
    · next hbn =>
      subst hbn
      simp [hb, List.getD_eq_getElem?_getD]
    · rfl
  · exact List.set_eq_of_length_le (by omega)

theorem nFree_core (b : memoBlock) : (core b).nFree = b.nFree := rfl

theorem nFree_of_core {b c : memoBlock} (h : core b = core c) : b.nFree = c.nFree := by
  rw [← nFree_core b, h]; rfl

/-- Writing new data into a block and moving it to the front of list `s`, whose class its free
count fits, keeps the pool well formed. -/
theorem WF.update_move {addr : Nat → Nat} {sz u : Nat} {mp : MemoPool} {L : Nat → List Nat}
    (hwf : WF addr sz u mp L) {b t s : Nat} (ht : t < 3) (hb : b ∈ L t) (hs : s < 3)
    {c : memoBlock} (hc : BlockOK addr sz u b c) (hN : c.Next = (getB mp.nodes b).Next)
    (hP : c.Pre = (getB mp.nodes b).Pre)
    (h0 : s = 0 → c.nFree = 0) (h1 : s = 1 → 0 < c.nFree) (h2 : s = 2 → c.nFree = u) :
    WF addr sz u { mp with nodes := moveAfter (mp.nodes.set b c) s b } (moved L s b) := by
  have hbr := hwf.rep.range t ht b hb
  have hrep1 : Rep (mp.nodes.set b c) L := hwf.rep.set_data hN hP
  have hlen1 : (mp.nodes.set b c).length = mp.nodes.length := List.length_set ..
  have hrep2 : Rep (moveAfter (mp.nodes.set b c) s b) (moved L s b) :=
    hrep1.moveAfter hs hbr.1 (by rw [hlen1]; exact hbr.2) (Or.inl ⟨t, ht, hb⟩)
  have hlen2 : (moveAfter (mp.nodes.set b c) s b).length = mp.nodes.length := by
    rw [length_moveAfter, hlen1]
  have hcore : ∀ x, core (getB (moveAfter (mp.nodes.set b c) s b) x) =
      if x = b then core c else core (getB mp.nodes x) := by
    intro x
    rw [core_moveAfter, getB_set]
    by_cases hx : x = b
    · rw [if_pos hx, if_pos ⟨hx.symm, hbr.2⟩]
    · rw [if_neg hx, if_neg (fun e => hx e.1.symm)]
  have hmm : ∀ r, r < 3 → ∀ x, x ∈ moved L s b r ↔ (x = b ∧ r = s) ∨ (x ≠ b ∧ x ∈ L r) :=
    fun r hr x => mem_moved (hwf.rep.nodup r hr)
  have hcls : ∀ r, r < 3 → ∀ x, x ∈ moved L s b r →
      (x = b ∧ r = s ∧ (getB (moveAfter (mp.nodes.set b c) s b) x).nFree = c.nFree) ∨
      (x ∈ L r ∧ (getB (moveAfter (mp.nodes.set b c) s b) x).nFree = (getB mp.nodes x).nFree) := by
    intro r hr x hx
    rcases (hmm r hr x).mp hx with ⟨hxb, hrs⟩ | ⟨hxb, hxl⟩
    · left
      refine ⟨hxb, hrs, ?_⟩
      have := hcore x
      rw [if_pos hxb] at this
      exact nFree_of_core this
    · right
      refine ⟨hxl, ?_⟩
      have := hcore x
      rw [if_neg hxb] at this
      exact nFree_of_core this
  refine ⟨hrep2, ?_, ?_, hwf.usz, hwf.ucnt, ?_, ?_, ?_, ?_, ?_⟩
  · show 3 ≤ (moveAfter (mp.nodes.set b c) s b).length
    rw [hlen2]; exact hwf.len3
  · intro i hi3 hil
    by_cases hib : i = b
    · exact ⟨s, hs, (hmm s hs i).mpr (Or.inl ⟨hib, rfl⟩)⟩
    · obtain ⟨r, hr, hir⟩ := hwf.cover i hi3 (by
        have : i < (moveAfter (mp.nodes.set b c) s b).length := hil
        rw [hlen2] at this; exact this)
      exact ⟨r, hr, (hmm r hr i).mpr (Or.inr ⟨hib, hir⟩)⟩
  · show mp.blockCnt = ((moveAfter (mp.nodes.set b c) s b).length : Int) - 3
    rw [hlen2]; exact hwf.cnt
  · intro i hi3 hil
    have hil2 : i < mp.nodes.length := by
      have : i < (moveAfter (mp.nodes.set b c) s b).length := hil
      rw [hlen2] at this; exact this
    show BlockOK addr sz u i (getB (moveAfter (mp.nodes.set b c) s b) i)
    by_cases hib : i = b
    · refine BlockOK.of_core (b := c) (by rw [hib]; exact hc) ?_
      rw [hcore, if_pos hib]
    · refine BlockOK.of_core (hwf.blocks i hi3 hil2) ?_
      rw [hcore, if_neg hib]
  · intro x hx
    show (getB (moveAfter (mp.nodes.set b c) s b) x).nFree = 0
    rcases hcls 0 (by omega) x hx with ⟨_, hrs, hf⟩ | ⟨hxl, hf⟩
    · rw [hf]; exact h0 hrs.symm
    · rw [hf]; exact hwf.full x hxl
  · intro x hx
    show 0 < (getB (moveAfter (mp.nodes.set b c) s b) x).nFree
    rcases hcls 1 (by omega) x hx with ⟨_, hrs, hf⟩ | ⟨hxl, hf⟩
    · rw [hf]; exact h1 hrs.symm
    · rw [hf]; exact hwf.part x hxl
  · intro x hx
    show (getB (moveAfter (mp.nodes.set b c) s b) x).nFree = u
    rcases hcls 2 (by omega) x hx with ⟨_, hrs, hf⟩ | ⟨hxl, hf⟩
    · rw [hf]; exact h2 hrs.symm
    · rw [hf]; exact hwf.empt x hxl

/-- Moving a block to the front of a list whose class its free count fits keeps the pool
well formed. -/
theorem WF.move {addr : Nat → Nat} {sz u : Nat} {mp : MemoPool} {L : Nat → List Nat}
    (hwf : WF addr sz u mp L) {b t s : Nat} (ht : t < 3) (hb : b ∈ L t) (hs : s < 3)
    (h0 : s = 0 → (getB mp.nodes b).nFree = 0) (h1 : s = 1 → 0 < (getB mp.nodes b).nFree)
    (h2 : s = 2 → (getB mp.nodes b).nFree = u) :
    WF addr sz u { mp with nodes := moveAfter mp.nodes s b } (moved L s b) := by
  have hbr := hwf.rep.range t ht b hb
  have := hwf.update_move ht hb hs (hwf.blocks b hbr.1 hbr.2) rfl rfl h0 h1 h2
  rw [set_getB_self] at this
  exact this

/-- Writing new data into a block whose free count stays in the class of its list keeps the
pool well formed. -/
theorem WF.update {addr : Nat → Nat} {sz u : Nat} {mp : MemoPool} {L : Nat → List Nat}
    (hwf : WF addr sz u mp L) {b t : Nat} (ht : t < 3) (hb : b ∈ L t)
    {c : memoBlock} (hc : BlockOK addr sz u b c) (hN : c.Next = (getB mp.nodes b).Next)
    (hP : c.Pre = (getB mp.nodes b).Pre)
    (h0 : t = 0 → c.nFree = 0) (h1 : t = 1 → 0 < c.nFree) (h2 : t = 2 → c.nFree = u) :
    WF addr sz u { mp with nodes := mp.nodes.set b c } L := by
  have hbr := hwf.rep.range t ht b hb
  have hlen1 : (mp.nodes.set b c).length = mp.nodes.length := List.length_set ..
  have hget : ∀ x, getB (mp.nodes.set b c) x = if x = b then c else getB mp.nodes x := by
    intro x
    rw [getB_set]
    by_cases hx : x = b
    · rw [if_pos hx, if_pos ⟨hx.symm, hbr.2⟩]
    · rw [if_neg hx, if_neg (fun e => hx e.1.symm)]
  have hcls : ∀ r, r < 3 → ∀ x, x ∈ L r →
      (x = b ∧ r = t ∧ (getB (mp.nodes.set b c) x).nFree = c.nFree) ∨
      ((getB (mp.nodes.set b c) x).nFree = (getB mp.nodes x).nFree) := by
    intro r hr x hx
    by_cases hxb : x = b
    · left
      refine ⟨hxb, ?_, by rw [hget, if_pos hxb]⟩
      by_contra hrt
      exact hwf.rep.disj r t hr ht hrt x hx (hxb ▸ hb)
    · right
      rw [hget, if_neg hxb]
  refine ⟨hwf.rep.set_data hN hP, ?_, ?_, hwf.usz, hwf.ucnt, ?_, ?_, ?_, ?_, ?_⟩
  · show 3 ≤ (mp.nodes.set b c).length
    rw [hlen1]; exact hwf.len3
  · intro i hi3 hil
    exact hwf.cover i hi3 (by
      have : i < (mp.nodes.set b c).length := hil
      rw [hlen1] at this; exact this)
  · show mp.blockCnt = ((mp.nodes.set b c).length : Int) - 3
    rw [hlen1]; exact hwf.cnt
  · intro i hi3 hil
    have hil2 : i < mp.nodes.length := by
      have : i < (mp.nodes.set b c).length := hil
      rw [hlen1] at this; exact this
    show BlockOK addr sz u i (getB (mp.nodes.set b c) i)
    rw [hget]
    by_cases hib : i = b
    · rw [if_pos hib, hib]; exact hc
    · rw [if_neg hib]; exact hwf.blocks i hi3 hil2
  · intro x hx
    show (getB (mp.nodes.set b c) x).nFree = 0
    rcases hcls 0 (by omega) x hx with ⟨_, hrs, hf⟩ | hf
    · rw [hf]; exact h0 hrs.symm
    · rw [hf]; exact hwf.full x hx
  · intro x hx
    show 0 < (getB (mp.nodes.set b c) x).nFree
    rcases hcls 1 (by omega) x hx with ⟨_, hrs, hf⟩ | hf
    · rw [hf]; exact h1 hrs.symm
    · rw [hf]; exact hwf.part x hx
  · intro x hx
    show (getB (mp.nodes.set b c) x).nFree = u
    rcases hcls 2 (by omega) x hx with ⟨_, hrs, hf⟩ | hf
    · rw [hf]; exact h2 hrs.symm
    · rw [hf]; exact hwf.empt x hx

end Memopool

/-! ## Fresh blocks and New -/
namespace Memopool

/-- Appending a fresh block and linking it to the front of the partial or the empty list keeps
the pool well formed. -/
theorem WF.addBlock {addr : Nat → Nat} {sz u : Nat} {mp : MemoPool} {L : Nat → List Nat}
    (hwf : WF addr sz u mp L) (hst : sz + intSize < W)
    (hfit : addr (mp.nodes.length - 3) + u * (sz + intSize) < W) {s : Nat}
    (hs12 : s = 1 ∨ s = 2) (hu : s = 1 → 0 < u) :
    WF addr sz u
      { mp with
        nodes := moveAfter (mp.nodes ++
          [newMemoPool (addr (mp.nodes.length - 3)) mp.nUintSize mp.nUnitCount]) s mp.nodes.length
        blockCnt := mp.blockCnt + 1 }
      (moved L s mp.nodes.length) := by
  have hs : s < 3 := by omega
  have h3 := hwf.len3
  generalize hnew : newMemoPool (addr (mp.nodes.length - 3)) mp.nUintSize mp.nUnitCount = c
  have hcOK : BlockOK addr sz u mp.nodes.length c := by
    rw [← hnew, hwf.usz, hwf.ucnt]
    exact BlockOK.new hst hfit
  have hcN : c.Next = none := by rw [← hnew]; rfl
  have hcP : c.Pre = none := by rw [← hnew]; rfl
  have hcF : c.nFree = u := by rw [← hnew, ← hwf.ucnt]; rfl
  have hrep1 : Rep (mp.nodes ++ [c]) L := hwf.rep.append h3 c
  have hlen1 : (mp.nodes ++ [c]).length = mp.nodes.length + 1 := by simp
  have hfresh : ∀ t, t < 3 → mp.nodes.length ∉ L t := by
    intro t ht hm
    have := hwf.rep.lt_of_mem ht hm
    omega
  have hrep2 : Rep (moveAfter (mp.nodes ++ [c]) s mp.nodes.length) (moved L s mp.nodes.length) :=
    hrep1.moveAfter hs h3 (by rw [hlen1]; omega)
      (Or.inr ⟨by rw [getB_append_self]; exact hcN, by rw [getB_append_self]; exact hcP, hfresh⟩)
  have hlen2 : (moveAfter (mp.nodes ++ [c]) s mp.nodes.length).length = mp.nodes.length + 1 := by
    rw [length_moveAfter, hlen1]
  have hcore : ∀ x, core (getB (moveAfter (mp.nodes ++ [c]) s mp.nodes.length) x) =
      core (getB (mp.nodes ++ [c]) x) := fun x => core_moveAfter _ _ _ _
  have hmm : ∀ r, r < 3 → ∀ x, x ∈ moved L s mp.nodes.length r ↔
      (x = mp.nodes.length ∧ r = s) ∨ (x ≠ mp.nodes.length ∧ x ∈ L r) :=
    fun r hr x => mem_moved (hwf.rep.nodup r hr)
  have hcls : ∀ r, r < 3 → ∀ x, x ∈ moved L s mp.nodes.length r →
      (r = s ∧ (getB (moveAfter (mp.nodes ++ [c]) s mp.nodes.length) x).nFree = u) ∨
      (x ∈ L r ∧ (getB (moveAfter (mp.nodes ++ [c]) s mp.nodes.length) x).nFree =
        (getB mp.nodes x).nFree) := by
    intro r hr x hx
    rcases (hmm r hr x).mp hx with ⟨hxb, hrs⟩ | ⟨_, hxl⟩
    · left
      refine ⟨hrs, ?_⟩
      rw [nFree_of_core (hcore x), hxb, getB_append_self]
      exact hcF
    · right
      refine ⟨hxl, ?_⟩
      rw [nFree_of_core (hcore x), getB_append_left _ _ _ (hwf.rep.lt_of_mem hr hxl)]
  refine ⟨hrep2, ?_, ?_, hwf.usz, hwf.ucnt, ?_, ?_, ?_, ?_, ?_⟩
  · show 3 ≤ (moveAfter (mp.nodes ++ [c]) s mp.nodes.length).length
    rw [hlen2]; omega
  · intro i hi3 hil
    have hil2 : i < mp.nodes.length + 1 := by
      have : i < (moveAfter (mp.nodes ++ [c]) s mp.nodes.length).length := hil
      rw [hlen2] at this; exact this
    by_cases hib : i = mp.nodes.length
    · exact ⟨s, hs, (hmm s hs i).mpr (Or.inl ⟨hib, rfl⟩)⟩
    · obtain ⟨r, hr, hir⟩ := hwf.cover i hi3 (by omega)
      exact ⟨r, hr, (hmm r hr i).mpr (Or.inr ⟨hib, hir⟩)⟩
  · show mp.blockCnt + 1 = ((moveAfter (mp.nodes ++ [c]) s mp.nodes.length).length : Int) - 3
    rw [hlen2, hwf.cnt]; push_cast; ring
  · intro i hi3 hil
    have hil2 : i < mp.nodes.length + 1 := by
      have : i < (moveAfter (mp.nodes ++ [c]) s mp.nodes.length).length := hil
      rw [hlen2] at this; exact this
    show BlockOK addr sz u i (getB (moveAfter (mp.nodes ++ [c]) s mp.nodes.length) i)
    by_cases hib : i = mp.nodes.length
    · refine BlockOK.of_core (b := c) (by rw [hib]; exact hcOK) ?_
      rw [hcore, hib, getB_append_self]
    · refine BlockOK.of_core (hwf.blocks i hi3 (by omega)) ?_
      rw [hcore, getB_append_left _ _ _ (by omega)]
  · intro x hx
    show (getB (moveAfter (mp.nodes ++ [c]) s mp.nodes.length) x).nFree = 0
    rcases hcls 0 (by omega) x hx with ⟨hrs, _⟩ | ⟨hxl, hf⟩
    · omega
    · rw [hf]; exact hwf.full x hxl
  · intro x hx
    show 0 < (getB (moveAfter (mp.nodes ++ [c]) s mp.nodes.length) x).nFree
    rcases hcls 1 (by omega) x hx with ⟨hrs, hf⟩ | ⟨hxl, hf⟩
    · rw [hf]; exact hu hrs.symm
    · rw [hf]; exact hwf.part x hxl
  · intro x hx
    show (getB (moveAfter (mp.nodes ++ [c]) s mp.nodes.length) x).nFree = u
    rcases hcls 2 (by omega) x hx with ⟨_, hf⟩ | ⟨hxl, hf⟩
    · exact hf
    · rw [hf]; exact hwf.empt x hxl

theorem uintptr_cast (n : Nat) (hn : n < W) : uintptr (n : Int) = n := by
  unfold uintptr
  rw [← Int.ofNat_emod, Int.toNat_ofNat, Nat.mod_eq_of_lt hn]

/-- The pool `New` returns is well formed. -/
theorem WF.ofNew (addr : Nat → Nat) {sz u : Nat} (k : Int) (hst : sz + intSize < W)
    (hfit : addr 0 + u * (sz + intSize) < W) (hu : 0 < u) :
    WF addr sz u (New addr sz u k) newLists := by
  have hi8 : intSize = 8 := rfl
  have huW : u < W := by
    have : u * 1 ≤ u * (sz + intSize) := Nat.mul_le_mul_left _ (by omega)
    omega
  have hszW : sz < W := by omega
  let mp0 : MemoPool :=
    { nodes := [newMemoPool 0 0 0, newMemoPool 0 0 0, newMemoPool 0 0 0]
      blockCnt := 0, maxBlockCnt := k, nUintSize := sz, nUnitCount := u }
  have hwf0 : WF addr sz u mp0 (fun _ => []) := by
    refine ⟨⟨?_, ?_, ?_, ?_⟩, ?_, ?_, rfl, rfl, ?_, ?_, ?_, ?_, ?_⟩
    · intro s hs
      show (getB mp0.nodes s).Next = none
      have : s = 0 ∨ s = 1 ∨ s = 2 := by omega
      rcases this with h | h | h <;> subst h <;> rfl
    · intro s _; exact List.nodup_nil
    · intro s t _ _ _ b hb; simp at hb
    · intro s _ b hb; simp at hb
    · show 3 ≤ 3; omega
    · intro i hi3 hil
      have : i < 3 := hil
      omega
    · rfl
    · intro i hi3 hil
      have : i < 3 := hil
      omega
    · intro b hb; simp at hb
    · intro b hb; simp at hb
    · intro b hb; simp at hb
  have := hwf0.addBlock hst (by simpa using hfit) (Or.inl rfl) (fun _ => hu)
  have hN : New addr sz u k =
      { mp0 with
        nodes := moveAfter (mp0.nodes ++
          [newMemoPool (addr (mp0.nodes.length - 3)) mp0.nUintSize mp0.nUnitCount]) 1
            mp0.nodes.length
        blockCnt := mp0.blockCnt + 1 } := by
    unfold New
    simp only [uintptr_cast u huW, uintptr_cast sz hszW]
    rfl
  rw [hN]
  exact this

end Memopool

/-! ## The two halves of Alloc -/
namespace Memopool

theorem head?_eq_nil {l : List Nat} (h : l.head? = none) : l = [] := by
  cases l with
  | nil => rfl
  | cons a r => simp at h

/-- The four ways through the first half of `Alloc`. -/
theorem refill_cases {addr : Nat → Nat} {sz u : Nat} {mp : MemoPool} {L : Nat → List Nat}
    (hwf : WF addr sz u mp L) :
    (L 1 ≠ [] ∧ mp.refill addr = some mp) ∨
    (L 1 = [] ∧ ∃ e r, L 2 = e :: r ∧
      mp.refill addr = some { mp with nodes := moveAfter mp.nodes 1 e }) ∨
    (L 1 = [] ∧ L 2 = [] ∧ mp.over ∧ mp.refill addr = none) ∨
    (L 1 = [] ∧ L 2 = [] ∧ ¬ mp.over ∧
      mp.refill addr = some
        { mp with
          nodes := moveAfter (moveAfter (mp.nodes ++ [mp.fresh addr]) 2 mp.nodes.length) 1
            mp.nodes.length
          blockCnt := mp.blockCnt + 1 }) := by
  have hp := Linked_head (hwf.rep.linked 1 (by omega))
  have he := Linked_head (hwf.rep.linked 2 (by omega))
  have h3 := hwf.len3
  unfold MemoPool.refill
  simp only [partialId, emptyId]
  cases hL1 : L 1 with
  | cons pa rest =>
    left
    rw [hL1] at hp
    refine ⟨by simp, ?_⟩
    rw [if_neg (by rw [hp]; simp)]
  | nil =>
    right
    rw [hL1] at hp
    rw [if_pos (by rw [hp]; rfl)]
    cases hL2 : L 2 with
    | cons e r =>
      left
      rw [hL2] at he
      refine ⟨rfl, e, r, rfl, ?_⟩
      rw [if_neg (by rw [he]; simp)]
      unfold moveEmptyHead
      simp only [emptyId, partialId]
      rw [he]
      rfl
    | nil =>
      right
      rw [hL2] at he
      rw [if_pos (by rw [he]; rfl)]
      by_cases hov : mp.over
      · left
        refine ⟨rfl, rfl, hov, ?_⟩
        have hov2 : mp.blockCnt ≥ mp.maxBlockCnt ∧ mp.maxBlockCnt > 0 := hov
        rw [if_pos hov2]
      · right
        refine ⟨rfl, rfl, hov, ?_⟩
        have hov2 : ¬ (mp.blockCnt ≥ mp.maxBlockCnt ∧ mp.maxBlockCnt > 0) := hov
        rw [if_neg hov2]
        have hne : (getB (mp.nodes ++ [mp.fresh addr]) 2).Next ≠ some mp.nodes.length := by
          rw [getB_append_left _ _ _ (by omega), he]; simp
        have hhead : (getB (moveAfter (mp.nodes ++ [mp.fresh addr]) 2 mp.nodes.length) 2).Next =
            some mp.nodes.length := by
          rw [next_moveAfter _ _ _ _ hne (by simp; omega) (by simp), if_pos rfl]
        unfold moveEmptyHead
        simp only [emptyId, partialId]
        unfold MemoPool.fresh at hhead
        rw [hhead]
        rfl

theorem moved_nil_head {L : Nat → List Nat} {s b : Nat} :
    moved L s b s = b :: (L s).erase b := by
  simp [moved]

theorem moved_other {L : Nat → List Nat} {s b t : Nat} (h : t ≠ s) :
    moved L s b t = (L t).erase b := by
  simp [moved, h]

/-- Outcome of the first half of `Alloc` on a well-formed pool. -/
theorem refill_spec {addr : Nat → Nat} {sz u : Nat} {mp : MemoPool} {L : Nat → List Nat}
    (hwf : WF addr sz u mp L) (hu : 0 < u) (hst : sz + intSize < W)
    (hfit : ¬ mp.over → addr (mp.nodes.length - 3) + u * (sz + intSize) < W) :
    (mp.refill addr = none ∧ L 1 = [] ∧ L 2 = [] ∧ mp.over) ∨
    ∃ mp1 L1 pa rest, mp.refill addr = some mp1 ∧ WF addr sz u mp1 L1 ∧ L1 1 = pa :: rest ∧
      mp1.maxBlockCnt = mp.maxBlockCnt ∧
      ((mp1.nodes.length = mp.nodes.length ∧
          (∀ x, core (getB mp1.nodes x) = core (getB mp.nodes x)) ∧
          ((L 1 ≠ [] ∧ mp1 = mp ∧ L1 = L) ∨
            (L 1 = [] ∧ ∃ e r, L 2 = e :: r ∧ L1 = moved L 1 e))) ∨
        (L 1 = [] ∧ L 2 = [] ∧ ¬ mp.over ∧ mp1.nodes.length = mp.nodes.length + 1 ∧
          (∀ x, x < mp.nodes.length → core (getB mp1.nodes x) = core (getB mp.nodes x)) ∧
          core (getB mp1.nodes mp.nodes.length) = core (mp.fresh addr) ∧
          L1 = moved (moved L 2 mp.nodes.length) 1 mp.nodes.length)) := by
  rcases @refill_cases addr sz u mp L hwf with ⟨hL1, hr⟩ | ⟨hL1, e, r, hL2, hr⟩ |
      ⟨hL1, hL2, hov, hr⟩ | ⟨hL1, hL2, hov, hr⟩
  · right
    obtain ⟨pa, rest, hpa⟩ : ∃ pa rest, L 1 = pa :: rest := by
      cases hl : L 1 with
      | nil => exact absurd hl hL1
      | cons a r => exact ⟨a, r, rfl⟩
    exact ⟨mp, L, pa, rest, hr, hwf, hpa, rfl, Or.inl ⟨rfl, fun _ => rfl, Or.inl ⟨hL1, rfl, rfl⟩⟩⟩
  · right
    have hem : e ∈ L 2 := by rw [hL2]; exact List.mem_cons_self _ _
    have hef := hwf.empt e hem
    have hwf1 := hwf.move (s := 1) (by omega) hem (by omega) (by omega) (fun _ => by omega)
      (by omega)
    refine ⟨_, moved L 1 e, e, (L 1).erase e, hr, hwf1, moved_nil_head, rfl,
      Or.inl ⟨?_, ?_, Or.inr ⟨hL1, e, r, hL2, rfl⟩⟩⟩
    · exact length_moveAfter _ _ _
    · intro x; exact core_moveAfter _ _ _ _
  · left
    exact ⟨hr, hL1, hL2, hov⟩
  · right
    have hwf1 := hwf.addBlock hst (hfit hov) (s := 2) (Or.inr rfl) (by omega)
    have hmem : mp.nodes.length ∈ moved L 2 mp.nodes.length 2 := by
      rw [moved_nil_head]; exact List.mem_cons_self _ _
    have hnf : (getB (moveAfter (mp.nodes ++ [mp.fresh addr]) 2 mp.nodes.length)
        mp.nodes.length).nFree = u := hwf1.empt _ hmem
    have hwf2 := hwf1.move (s := 1) (by omega) hmem (by omega) (by omega)
      (fun _ => by
        show 0 < (getB (moveAfter (mp.nodes ++ [mp.fresh addr]) 2 mp.nodes.length)
          mp.nodes.length).nFree
        omega)
      (by omega)
    refine ⟨_, moved (moved L 2 mp.nodes.length) 1 mp.nodes.length, mp.nodes.length, _, hr, hwf2,
      moved_nil_head, rfl, Or.inr ⟨hL1, hL2, hov, ?_, ?_, ?_, rfl⟩⟩
    · show (moveAfter (moveAfter (mp.nodes ++ [mp.fresh addr]) 2 mp.nodes.length) 1
        mp.nodes.length).length = mp.nodes.length + 1
      rw [length_moveAfter, length_moveAfter]; simp
    · intro x hx
      show core (getB (moveAfter (moveAfter (mp.nodes ++ [mp.fresh addr]) 2 mp.nodes.length) 1
        mp.nodes.length) x) = _
      rw [core_moveAfter, core_moveAfter, getB_append_left _ _ _ hx]
    · show core (getB (moveAfter (moveAfter (mp.nodes ++ [mp.fresh addr]) 2 mp.nodes.length) 1
        mp.nodes.length) mp.nodes.length) = _
      rw [core_moveAfter, core_moveAfter, getB_append_self]

/-- Outcome of the second half of `Alloc` on a well-formed pool with a non-empty partial list:
the first block `pa` of that list hands out the unit at the head of its free list, and goes to
the full list when that was its last free unit. -/
theorem allocHead_spec {addr : Nat → Nat} {sz u : Nat} {mp : MemoPool} {L : Nat → List Nat}
    (hwf : WF addr sz u mp L) {pa : Nat} {rest : List Nat} (hL : L 1 = pa :: rest) :
    ∃ mp2 L2, mp.allocHead = some (mp2, unitPtr addr sz (pa - 3) (getB mp.nodes pa).nFirst) ∧
      WF addr sz u mp2 L2 ∧ (getB mp.nodes pa).nFirst < u ∧ 0 < (getB mp.nodes pa).nFree ∧
      mp2.nodes.length = mp.nodes.length ∧ mp2.maxBlockCnt = mp.maxBlockCnt ∧
      (∀ x, core (getB mp2.nodes x) =
        if x = pa then core (getB mp.nodes pa).popped else core (getB mp.nodes x)) ∧
      L2 = (if (getB mp.nodes pa).nFree = 1 then moved L 0 pa else L) := by
  have hpm : pa ∈ L 1 := by rw [hL]; exact List.mem_cons_self _ _
  have hpr := hwf.rep.range 1 (by omega) pa hpm
  have hOK := hwf.blocks pa hpr.1 hpr.2
  have hfree := hwf.part pa hpm
  obtain ⟨hal, hfirst⟩ := alloc_some hOK hfree
  have hhead := Linked_head (hwf.rep.linked 1 (by omega))
  rw [hL] at hhead
  have hcOK : BlockOK addr sz u pa (getB mp.nodes pa).popped := hOK.alloc
  have hget : ∀ x, getB (mp.nodes.set pa (getB mp.nodes pa).popped) x =
      if x = pa then (getB mp.nodes pa).popped else getB mp.nodes x := by
    intro x
    rw [getB_set]
    by_cases hx : x = pa
    · rw [if_pos hx, if_pos ⟨hx.symm, hpr.2⟩]
    · rw [if_neg hx, if_neg (fun e => hx e.1.symm)]
  unfold MemoPool.allocHead
  simp only [partialId, fullId, hhead, List.head?_cons, hal]
  by_cases h1 : (getB mp.nodes pa).nFree = 1
  · have hz : (getB mp.nodes pa).nFree - 1 ≤ 0 := by omega
    rw [if_pos hz, if_pos h1]
    have hwf2 := hwf.update_move (s := 0) (by omega) hpm (by omega) hcOK rfl rfl
      (fun _ => by show (getB mp.nodes pa).nFree - 1 = 0; omega) (by omega) (by omega)
    refine ⟨_, _, rfl, hwf2, hfirst, hfree, ?_, rfl, ?_, rfl⟩
    · show (moveAfter (mp.nodes.set pa (getB mp.nodes pa).popped) 0 pa).length = _
      rw [length_moveAfter, List.length_set]
    · intro x
      show core (getB (moveAfter (mp.nodes.set pa (getB mp.nodes pa).popped) 0 pa) x) = _
      rw [core_moveAfter, hget]
      split <;> rfl
  · have hz : ¬ (getB mp.nodes pa).nFree - 1 ≤ 0 := by omega
    rw [if_neg hz, if_neg h1]
    have hwf2 := hwf.update (t := 1) (by omega) hpm hcOK rfl rfl (by omega)
      (fun _ => by show 0 < (getB mp.nodes pa).nFree - 1; omega) (by omega)
    refine ⟨_, _, rfl, hwf2, hfirst, hfree, ?_, rfl, ?_, rfl⟩
    · show (mp.nodes.set pa (getB mp.nodes pa).popped).length = _
      rw [List.length_set]
    · intro x
      show core (getB (mp.nodes.set pa (getB mp.nodes pa).popped) x) = _
      rw [hget]
      split <;> rfl

end Memopool

/-! ## The search of Free -/
namespace Memopool

theorem Linked.walk {h : List memoBlock} : ∀ (l : List Nat) (s : Nat), Linked h s l →
    Walk h (getB h s).Next l
  | [], _, hl => hl
  | b :: r, _, hl => ⟨hl.1, Linked.walk r b hl.2.2⟩

theorem interleave_nil_right (l : List Nat) : interleave l [] = l := by
  cases l <;> rfl

theorem mem_interleave : ∀ (l1 l2 : List Nat) (x : Nat), x ∈ interleave l1 l2 ↔ x ∈ l1 ∨ x ∈ l2
  | [], l2, x => by simp [interleave]
  | a :: as, [], x => by simp [interleave]
  | a :: as, b :: bs, x => by
    simp only [interleave, List.mem_cons, mem_interleave as bs x]
    tauto

theorem mem_searchOrder (P F : List Nat) (x : Nat) : x ∈ searchOrder P F ↔ x ∈ P ∨ x ∈ F := by
  unfold searchOrder
  rw [List.mem_append, mem_interleave]
  constructor
  · rintro (h | h | h)
    · exact Or.inl (List.mem_of_mem_take h)
    · exact Or.inl (List.mem_of_mem_drop h)
    · exact Or.inr h
  · rintro (h | h)
    · rw [← List.take_append_drop 3 P, List.mem_append] at h
      rcases h with h | h
      · exact Or.inl h
      · exact Or.inr (Or.inl h)
    · exact Or.inr (Or.inr h)

theorem searchAndFree_reject {mp : MemoPool} {b pt : Nat} (h : accepts mp.nodes pt b = false) :
    mp.searchAndFree b pt = (mp, (getB mp.nodes b).Next, false) := by
  unfold accepts at h
  unfold MemoPool.searchAndFree
  simp [h]

theorem searchAndFree_ok {mp : MemoPool} {b pt : Nat} (h : accepts mp.nodes pt b = true) :
    (mp.searchAndFree b pt).2.2 = true := by
  unfold accepts at h
  unfold MemoPool.searchAndFree
  simp only [h, if_true]
  split <;> rfl

/-- The lockstep loop finds the first accepting block of the two lists taken in turn. -/
theorem lockstep_spec (mp : MemoPool) (pt : Nat) : ∀ (fuel : Nat) (lp lf : List Nat)
    (cp cf : Option Nat), Walk mp.nodes cp lp → Walk mp.nodes cf lf →
    lp.length + lf.length ≤ fuel →
    MemoPool.lockstep pt fuel mp cp cf =
      mp.outcome pt ((interleave lp lf).find? (accepts mp.nodes pt))
  | 0, lp, lf, cp, cf, hp, hf, hlen => by
    have h1 : lp = [] := List.eq_nil_of_length_eq_zero (by omega)
    have h2 : lf = [] := List.eq_nil_of_length_eq_zero (by omega)
    subst h1 h2
    have hp2 : cp = none := hp
    have hf2 : cf = none := hf
    subst hp2 hf2
    rfl
  | fuel + 1, [], [], cp, cf, hp, hf, _ => by
    have hp2 : cp = none := hp
    have hf2 : cf = none := hf
    subst hp2 hf2
    rfl
  | fuel + 1, a :: as, [], cp, cf, hp, hf, hlen => by
    have hf2 : cf = none := hf
    obtain ⟨hp1, hp2⟩ := hp
    subst hf2 hp1
    unfold MemoPool.lockstep
    rw [if_neg (by simp)]
    simp only [MemoPool.searchIfAny, interleave]
    cases hacc : accepts mp.nodes pt a with
    | true =>
      rw [searchAndFree_ok hacc, List.find?_cons_of_pos _ hacc]
      simp [MemoPool.outcome]
    | false =>
      rw [searchAndFree_reject hacc, List.find?_cons_of_neg _ (by simp [hacc])]
      simp only [Bool.false_eq_true, if_false]
      have := lockstep_spec mp pt fuel as [] (getB mp.nodes a).Next none hp2 rfl
        (by simp at hlen ⊢; omega)
      rw [interleave_nil_right] at this
      exact this
  | fuel + 1, [], b :: bs, cp, cf, hp, hf, hlen => by
    have hp2 : cp = none := hp
    obtain ⟨hf1, hf2⟩ := hf
    subst hp2 hf1
    unfold MemoPool.lockstep
    rw [if_neg (by simp)]
    simp only [MemoPool.searchIfAny, interleave]
    cases hacc : accepts mp.nodes pt b with
    | true =>
      rw [searchAndFree_ok hacc, List.find?_cons_of_pos _ hacc]
      simp [MemoPool.outcome]
    | false =>
      rw [searchAndFree_reject hacc, List.find?_cons_of_neg _ (by simp [hacc])]
      simp only [Bool.false_eq_true, if_false]
      exact lockstep_spec mp pt fuel [] bs none (getB mp.nodes b).Next rfl hf2
        (by simp at hlen ⊢; omega)
  | fuel + 1, a :: as, b :: bs, cp, cf, hp, hf, hlen => by
    obtain ⟨hp1, hp2⟩ := hp
    obtain ⟨hf1, hf2⟩ := hf
    subst hp1 hf1
    unfold MemoPool.lockstep
    rw [if_neg (by simp)]
    simp only [MemoPool.searchIfAny, interleave]
    cases hacc : accepts mp.nodes pt a with
    | true =>
      rw [searchAndFree_ok hacc, List.find?_cons_of_pos _ hacc]
      simp [MemoPool.outcome]
    | false =>
      rw [searchAndFree_reject hacc, List.find?_cons_of_neg _ (by simp [hacc])]
      simp only [Bool.false_eq_true, if_false]
      cases hacc2 : accepts mp.nodes pt b with
      | true =>
        rw [searchAndFree_ok hacc2, List.find?_cons_of_pos _ hacc2]
        simp [MemoPool.outcome]
      | false =>
        rw [searchAndFree_reject hacc2, List.find?_cons_of_neg _ (by simp [hacc2])]
        simp only [Bool.false_eq_true, if_false]
        exact lockstep_spec mp pt fuel as bs _ _ hp2 hf2 (by simp at hlen ⊢; omega)

/-- The bounded loop over the partial list finds the first accepting block among the next `n`,
or stops behind them. -/
theorem probe_spec (mp : MemoPool) (pt : Nat) : ∀ (n : Nat) (lp : List Nat) (cp : Option Nat),
    Walk mp.nodes cp lp →
    (∃ b, (lp.take n).find? (accepts mp.nodes pt) = some b ∧
      MemoPool.probe pt n mp cp = mp.searchAndFree b pt ∧ (mp.searchAndFree b pt).2.2 = true) ∨
    ((lp.take n).find? (accepts mp.nodes pt) = none ∧
      ∃ cq, MemoPool.probe pt n mp cp = (mp, cq, false) ∧ Walk mp.nodes cq (lp.drop n))
  | 0, lp, cp, hp => Or.inr ⟨by simp, cp, rfl, by simpa using hp⟩
  | n + 1, [], cp, hp => by
    have hp2 : cp = none := hp
    subst hp2
    exact Or.inr ⟨by simp, none, rfl, rfl⟩
  | n + 1, a :: as, cp, hp => by
    obtain ⟨hp1, hp2⟩ := hp
    subst hp1
    simp only [List.take_succ_cons, List.drop_succ_cons]
    cases hacc : accepts mp.nodes pt a with
    | true =>
      left
      refine ⟨a, List.find?_cons_of_pos _ hacc, ?_, searchAndFree_ok hacc⟩
      unfold MemoPool.probe
      simp only [searchAndFree_ok hacc, if_true]
    | false =>
      rw [List.find?_cons_of_neg _ (by simp [hacc])]
      have hstep : MemoPool.probe pt (n + 1) mp (some a) =
          MemoPool.probe pt n mp (getB mp.nodes a).Next := by
        rw [MemoPool.probe]
        simp only [searchAndFree_reject hacc, Bool.false_eq_true, if_false]
      rw [hstep]
      exact probe_spec mp pt n as _ hp2

theorem length_le_of_nodup_lt {l : List Nat} {n : Nat} (hnd : l.Nodup) (hlt : ∀ x, x ∈ l → x < n) :
    l.length ≤ n := by
  have hsub : l ⊆ List.range n := fun x hx => List.mem_range.mpr (hlt x hx)
  have := (List.subperm_of_subset hnd hsub).length_le
  simpa using this

/-- `Free` releases into the first accepting block in its search order, and returns false
leaving the pool as it is when no block of the partial and full lists accepts. -/
theorem Free_spec {addr : Nat → Nat} {sz u : Nat} {mp : MemoPool} {L : Nat → List Nat}
    (hwf : WF addr sz u mp L) (pt : Nat) :
    mp.Free pt = mp.outcome pt ((searchOrder (L 1) (L 0)).find? (accepts mp.nodes pt)) := by
  have hP := hwf.rep.linked 1 (by omega)
  have hF := hwf.rep.linked 0 (by omega)
  have hwP := Linked.walk _ _ hP
  have hwF := Linked.walk _ _ hF
  have hlen : (L 1).length + (L 0).length ≤ mp.nodes.length := by
    rw [← List.length_append]
    apply length_le_of_nodup_lt
    · rw [List.nodup_append]
      exact ⟨hwf.rep.nodup 1 (by omega), hwf.rep.nodup 0 (by omega),
        fun x h1 h0 => hwf.rep.disj 1 0 (by omega) (by omega) (by omega) x h1 h0⟩
    · intro x hx
      rcases List.mem_append.mp hx with hx | hx
      · exact hwf.rep.lt_of_mem (by omega) hx
      · exact hwf.rep.lt_of_mem (by omega) hx
  unfold MemoPool.Free searchOrder
  simp only [partialId, fullId]
  cases hL1 : L 1 with
  | nil =>
    rw [hL1] at hwP hlen
    have hnone : (getB mp.nodes 1).Next = none := hwP
    rw [hnone]
    simp only [List.take_nil, List.drop_nil, List.nil_append]
    exact lockstep_spec mp pt _ [] (L 0) none _ rfl hwF (by simpa using hlen)
  | cons a as =>
    rw [hL1] at hwP hlen
    obtain ⟨hw1, hw2⟩ := hwP
    rw [hw1]
    simp only [List.take_succ_cons, List.drop_succ_cons, List.cons_append]
    cases hacc : accepts mp.nodes pt a with
    | true =>
      rw [searchAndFree_ok hacc, List.find?_cons_of_pos _ hacc]
      simp [MemoPool.outcome]
    | false =>
      rw [searchAndFree_reject hacc, List.find?_cons_of_neg _ (by simp [hacc])]
      simp only [Bool.false_eq_true, if_false, List.find?_append]
      rcases probe_spec mp pt 2 as _ hw2 with ⟨b, hfind, hpr, hok⟩ | ⟨hfind, cq, hpr, hwq⟩
      · rw [hpr, hfind, hok]
        simp [MemoPool.outcome]
      · rw [hpr, hfind]
        simp only [Bool.false_eq_true, if_false, Option.none_or]
        refine lockstep_spec mp pt _ (as.drop 2) (L 0) cq _ hwq hwF ?_
        simp only [List.length_cons, List.length_drop] at hlen ⊢
        omega

end Memopool

/-! ## Alloc and Free keep a pool well formed -/
namespace Memopool

/-- An accepting `free` pushes a unit of the block onto its free list. -/
theorem free_shape {addr : Nat → Nat} {sz u i : Nat} {b : memoBlock}
    (hb : BlockOK addr sz u i b) {p : Nat} (hacc : (b.free p).2 = true) :
    ∃ j, j < u ∧ b.free p = (b.pushed j, true) := by
  have hsf := hb.strideFits
  have hi8 : intSize = 8 := rfl
  have hS : (b.nUnitSize + intSize) % W = sz + intSize := by
    rw [hb.size, Nat.mod_eq_of_lt hsf]
  unfold memoBlock.free at hacc ⊢
  simp only at hacc ⊢
  by_cases h1 : (p + W - intSize) % W < b.pBlock ∨ (p + W - intSize) % W ≥ b.endPtr
  · rw [if_pos h1] at hacc; simp at hacc
  · rw [if_neg h1] at hacc ⊢
    by_cases h2 : ((p + W - intSize) % W - b.pBlock) % ((b.nUnitSize + intSize) % W) ≠ 0
    · rw [if_pos h2] at hacc; simp at hacc
    · rw [if_neg h2]
      refine ⟨((p + W - intSize) % W - b.pBlock) / ((b.nUnitSize + intSize) % W), ?_, rfl⟩
      rw [hS, Nat.div_lt_iff_lt_mul (by omega)]
      rw [hb.base, hb.endp] at h1
      rw [hb.base]
      omega

/-- Outcome of `searchAndFree` on an accepting block of the partial or full list: a unit is
pushed on its free list and the block goes to the front of the empty list, when it is fully
free and not the first partial block, or else to the front of the partial list. -/
theorem searchAndFree_spec {addr : Nat → Nat} {sz u : Nat} {mp : MemoPool} {L : Nat → List Nat}
    (hwf : WF addr sz u mp L) {t b pt : Nat} (ht : t < 3) (hb : b ∈ L t)
    (hacc : accepts mp.nodes pt b = true) :
    ∃ j s, j < u ∧ (getB mp.nodes b).free pt = ((getB mp.nodes b).pushed j, true) ∧
      s = (if (getB mp.nodes b).nFree + 1 = u ∧ (L 1).head? ≠ some b then 2 else 1) ∧
      (mp.searchAndFree b pt).1 =
        { mp with nodes := moveAfter (mp.nodes.set b ((getB mp.nodes b).pushed j)) s b } ∧
      WF addr sz u (mp.searchAndFree b pt).1 (moved L s b) := by
  have hbr := hwf.rep.range t ht b hb
  have hOK := hwf.blocks b hbr.1 hbr.2
  obtain ⟨j, hj, hfree⟩ := free_shape hOK hacc
  have hcOK : BlockOK addr sz u b ((getB mp.nodes b).pushed j) := hOK.free hj
  have hhead := Linked_head (hwf.rep.linked 1 (by omega))
  have hnext : (getB (mp.nodes.set b ((getB mp.nodes b).pushed j)) 1).Next = (L 1).head? := by
    rw [getB_set, if_neg (fun e => by omega)]
    exact hhead
  have hpf : ((getB mp.nodes b).pushed j).nFree = (getB mp.nodes b).nFree + 1 := rfl
  by_cases hc : (getB mp.nodes b).nFree + 1 = u ∧ (L 1).head? ≠ some b
  · have hres : (mp.searchAndFree b pt).1 =
        { mp with nodes := moveAfter (mp.nodes.set b ((getB mp.nodes b).pushed j)) 2 b } := by
      unfold MemoPool.searchAndFree
      simp only [hfree, if_true, partialId, emptyId, hnext, hpf, hwf.ucnt]
      rw [if_pos ⟨hc.1, fun e => hc.2 e.symm⟩]
    refine ⟨j, 2, hj, hfree, by rw [if_pos hc], hres, ?_⟩
    rw [hres]
    exact hwf.update_move ht hb (by omega) hcOK rfl rfl (by omega) (by omega) (fun _ => hc.1)
  · have hres : (mp.searchAndFree b pt).1 =
        { mp with nodes := moveAfter (mp.nodes.set b ((getB mp.nodes b).pushed j)) 1 b } := by
      unfold MemoPool.searchAndFree
      simp only [hfree, if_true, partialId, emptyId, hnext, hpf, hwf.ucnt]
      rw [if_neg (fun e => hc ⟨e.1, fun e2 => e.2 e2.symm⟩)]
    refine ⟨j, 1, hj, hfree, by rw [if_neg hc], hres, ?_⟩
    rw [hres]
    exact hwf.update_move ht hb (by omega) hcOK rfl rfl (by omega)
      (fun _ => by rw [hpf]; omega) (by omega)

/-- `Free` keeps a pool well formed and returns, whatever its argument. -/
theorem WF.freeWF {addr : Nat → Nat} {sz u : Nat} {mp : MemoPool} {L : Nat → List Nat}
    (hwf : WF addr sz u mp L) (pt : Nat) :
    ∃ mp2 ok L2, mp.Free pt = some (mp2, ok) ∧ WF addr sz u mp2 L2 ∧
      mp2.nodes.length = mp.nodes.length ∧ mp2.maxBlockCnt = mp.maxBlockCnt ∧
      mp2.blockCnt = mp.blockCnt := by
  rw [Free_spec hwf]
  cases hfind : (searchOrder (L 1) (L 0)).find? (accepts mp.nodes pt) with
  | none => exact ⟨mp, false, L, rfl, hwf, rfl, rfl, rfl⟩
  | some b =>
    have hacc : accepts mp.nodes pt b = true := List.find?_some hfind
    have hmem := (mem_searchOrder _ _ b).mp (List.mem_of_find?_eq_some hfind)
    have : ∃ t, t < 3 ∧ b ∈ L t := by
      rcases hmem with h | h
      · exact ⟨1, by omega, h⟩
      · exact ⟨0, by omega, h⟩
    obtain ⟨t, ht, hb⟩ := this
    obtain ⟨j, s, _, _, _, hres, hwf2⟩ := searchAndFree_spec hwf ht hb hacc
    refine ⟨_, true, _, rfl, hwf2, ?_, ?_, ?_⟩
    · rw [hres]
      show (moveAfter (mp.nodes.set b ((getB mp.nodes b).pushed j)) s b).length = _
      rw [length_moveAfter, List.length_set]
    · rw [hres]
    · rw [hres]

/-- `Alloc` keeps a pool well formed and returns, provided the block it may create has its
place in the address space. -/
theorem WF.allocWF {addr : Nat → Nat} {sz u : Nat} {mp : MemoPool} {L : Nat → List Nat}
    (hwf : WF addr sz u mp L) (hu : 0 < u) (hst : sz + intSize < W)
    (hfit : ¬ mp.over → addr (mp.nodes.length - 3) + u * (sz + intSize) < W) :
    ∃ mp2 p L2, mp.Alloc addr = some (mp2, p) ∧ WF addr sz u mp2 L2 ∧
      (mp2.nodes.length = mp.nodes.length ∨
        (¬ mp.over ∧ mp2.nodes.length = mp.nodes.length + 1)) ∧
      mp2.maxBlockCnt = mp.maxBlockCnt ∧ (p = 0 → mp.over ∧ mp2 = mp) ∧ p < W := by
  unfold MemoPool.Alloc
  rcases refill_spec hwf hu hst hfit with ⟨hr, _, _, hov⟩ |
      ⟨mp1, L1, pa, rest, hr, hwf1, hL1, hmax, hdata⟩
  · rw [hr]
    exact ⟨mp, 0, L, rfl, hwf, Or.inl rfl, rfl, fun _ => ⟨hov, rfl⟩, W_pos⟩
  · rw [hr]
    obtain ⟨mp2, L2, hal, hwf2, hfirst, _, hlen, hmax2, _, _⟩ := allocHead_spec hwf1 hL1
    have hpm : pa ∈ L1 1 := by rw [hL1]; exact List.mem_cons_self _ _
    have hpr := hwf1.rep.range 1 (by omega) pa hpm
    have hpos := unitPtr_pos_lt (hwf1.blocks pa hpr.1 hpr.2).fits hfirst
    refine ⟨mp2, _, L2, hal, hwf2, ?_, by rw [hmax2, hmax], fun h0 => by omega, hpos.2⟩
    rw [hlen]
    rcases hdata with ⟨h, _⟩ | ⟨_, _, hov, h, _⟩
    · exact Or.inl h
    · exact Or.inr ⟨hov, h⟩

end Memopool

/-! ## Runs with arbitrary arguments -/
namespace Memopool

theorem follow_walk {h : List memoBlock} : ∀ (fuel : Nat) (l : List Nat) (cur : Option Nat),
    Walk h cur l → l.length ≤ fuel → follow h fuel cur = l
  | 0, l, _, _, hlen => by
    have : l = [] := List.eq_nil_of_length_eq_zero (by omega)
    subst this
    rfl
  | fuel + 1, [], cur, hw, _ => by
    have hc : cur = none := hw
    subst hc
    rfl
  | fuel + 1, b :: r, cur, hw, hlen => by
    obtain ⟨hc, hw2⟩ := hw
    subst hc
    simp only [follow]
    rw [follow_walk fuel r _ hw2 (by simp at hlen; omega)]

/-- In a well-formed pool the blocks linked behind head `s` are the list `L s`. -/
theorem WF.listOf {addr : Nat → Nat} {sz u : Nat} {mp : MemoPool} {L : Nat → List Nat}
    (hwf : WF addr sz u mp L) {s : Nat} (hs : s < 3) : mp.listOf s = L s := by
  unfold MemoPool.listOf
  apply follow_walk _ _ _ (Linked.walk _ _ (hwf.rep.linked s hs))
  exact length_le_of_nodup_lt (hwf.rep.nodup s hs) (fun x hx => hwf.rep.lt_of_mem hs hx)

theorem Room.fit {mp : MemoPool} {n : Nat} {cs : List Call} {addr : Nat → Nat} {sz u : Nat}
    {L : Nat → List Nat} (hwf : WF addr sz u mp L) (hroom : Room mp n (Call.alloc :: cs))
    (hfits : ∀ i, i < n → addr i + u * (sz + intSize) < W) :
    ¬ mp.over → addr (mp.nodes.length - 3) + u * (sz + intSize) < W := by
  intro hov
  apply hfits
  have hcnt := hwf.cnt
  have h3 := hwf.len3
  rcases hroom with ⟨hpos, hle, _⟩ | hle
  · unfold MemoPool.over at hov
    have : mp.blockCnt < mp.maxBlockCnt := by
      by_contra hc
      exact hov ⟨by omega, hpos⟩
    omega
  · simp only [allocCount] at hle
    omega

/-- The created blocks are among the first `n`. -/
theorem Room.bound {mp : MemoPool} {n : Nat} {cs : List Call} {addr : Nat → Nat} {sz u : Nat}
    {L : Nat → List Nat} (hwf : WF addr sz u mp L) (hroom : Room mp n cs) :
    mp.nodes.length ≤ n + 3 := by
  have hcnt := hwf.cnt
  have h3 := hwf.len3
  rcases hroom with ⟨_, hle, hb⟩ | hle <;> omega

theorem Room.stepAlloc {mp mp2 : MemoPool} {n : Nat} {cs : List Call} {addr : Nat → Nat}
    {sz u : Nat} {L L2 : Nat → List Nat} (hwf : WF addr sz u mp L) (hwf2 : WF addr sz u mp2 L2)
    (hroom : Room mp n (Call.alloc :: cs)) (hmax : mp2.maxBlockCnt = mp.maxBlockCnt)
    (hlen : mp2.nodes.length = mp.nodes.length ∨
      (¬ mp.over ∧ mp2.nodes.length = mp.nodes.length + 1)) :
    Room mp2 n cs := by
  have hcnt := hwf.cnt
  have hcnt2 := hwf2.cnt
  have h3 := hwf.len3
  rcases hroom with ⟨hpos, hle, hb⟩ | h
  · left
    rw [hmax]
    refine ⟨hpos, hle, ?_⟩
    rcases hlen with hl | ⟨hov, hl⟩
    · omega
    · unfold MemoPool.over at hov
      have : mp.blockCnt < mp.maxBlockCnt := by
        by_contra hc
        exact hov ⟨by omega, hpos⟩
      omega
  · right
    simp only [allocCount] at h
    rcases hlen with hl | ⟨_, hl⟩ <;> omega

theorem Room.stepFree {mp mp2 : MemoPool} {n : Nat} {pt : Nat} {cs : List Call}
    (hroom : Room mp n (Call.free pt :: cs)) (hmax : mp2.maxBlockCnt = mp.maxBlockCnt)
    (hcnt : mp2.blockCnt = mp.blockCnt) (hlen : mp2.nodes.length = mp.nodes.length) :
    Room mp2 n cs := by
  rcases hroom with h | h
  · left; rw [hmax, hcnt]; exact h
  · right
    simp only [allocCount] at h
    omega

/-- Every sequence of calls, whatever the arguments of its `Free` calls, runs to its end and
leaves the pool well formed. -/
theorem WF.runWF {addr : Nat → Nat} {sz u n : Nat} (hu : 0 < u) (hst : sz + intSize < W)
    (hfits : ∀ i, i < n → addr i + u * (sz + intSize) < W) :
    ∀ (calls : List Call) (mp : MemoPool) (live : List Nat) (L : Nat → List Nat),
    WF addr sz u mp L → Room mp n calls →
    ∃ mp2 live2 L2, mp.run addr live calls = some (mp2, live2) ∧ WF addr sz u mp2 L2 ∧
      mp2.maxBlockCnt = mp.maxBlockCnt ∧
      mp2.nodes.length ≤ mp.nodes.length + allocCount calls
  | [], mp, live, L, hwf, _ => ⟨mp, live, L, rfl, hwf, rfl, by simp [allocCount]⟩
  | Call.alloc :: cs, mp, live, L, hwf, hroom => by
    obtain ⟨mp1, p, L1, hal, hwf1, hlen, hmax, _, _⟩ :=
      hwf.allocWF hu hst (Room.fit hwf hroom hfits)
    have hroom1 : Room mp1 n cs := Room.stepAlloc hwf hwf1 hroom hmax hlen
    obtain ⟨mp2, live2, L2, hrun, hwf2, hmax2, hlen2⟩ :=
      WF.runWF hu hst hfits cs mp1 (if p = 0 then live else p :: live) L1 hwf1 hroom1
    refine ⟨mp2, live2, L2, ?_, hwf2, by rw [hmax2, hmax], ?_⟩
    · simp only [MemoPool.run, MemoPool.call, hal]
      exact hrun
    · simp only [allocCount]
      rcases hlen with hl | ⟨_, hl⟩ <;> omega
  | Call.free pt :: cs, mp, live, L, hwf, hroom => by
    obtain ⟨mp1, ok, L1, hfr, hwf1, hlen, hmax, hcnt⟩ := hwf.freeWF pt
    have hroom1 : Room mp1 n cs := Room.stepFree hroom hmax hcnt hlen
    obtain ⟨mp2, live2, L2, hrun, hwf2, hmax2, hlen2⟩ :=
      WF.runWF hu hst hfits cs mp1 (if ok then live.erase pt else live) L1 hwf1 hroom1
    refine ⟨mp2, live2, L2, ?_, hwf2, by rw [hmax2, hmax], by simp only [allocCount]; omega⟩
    simp only [MemoPool.run, MemoPool.call, hfr]
    exact hrun

/-- `Free` of an address that is no payload address of a unit of a created block returns false
and leaves the pool as it is. -/
theorem Free_foreign {addr : Nat → Nat} {sz u : Nat} {mp : MemoPool} {L : Nat → List Nat}
    (hwf : WF addr sz u mp L) {p : Nat} (hp : p < W)
    (hfor : ∀ i j, i + 3 < mp.nodes.length → j < u → p ≠ unitPtr addr sz i j) :
    mp.Free p = some (mp, false) := by
  rw [Free_spec hwf]
  have hnone : (searchOrder (L 1) (L 0)).find? (accepts mp.nodes p) = none := by
    rw [List.find?_eq_none]
    intro b hb
    have hmem := (mem_searchOrder _ _ b).mp hb
    have hbr : 3 ≤ b ∧ b < mp.nodes.length := by
      rcases hmem with h | h
      · exact hwf.rep.range 1 (by omega) b h
      · exact hwf.rep.range 0 (by omega) b h
    have := free_reject (hwf.blocks b hbr.1 hbr.2) hp
      (fun j hj => hfor (b - 3) j (by omega) hj)
    unfold accepts
    rw [this]
    simp
  rw [hnone]
  rfl

theorem New_length (addr : Nat → Nat) (sz u k : Int) : (New addr sz u k).nodes.length = 4 := by
  unfold New
  simp only [length_moveAfter]
  rfl

theorem Room.atNew {addr : Nat → Nat} {sz u n : Nat} {k : Int} {calls : List Call}
    (h : (0 < k ∧ k ≤ n) ∨ allocCount calls + 1 ≤ n) :
    Room (New addr sz u k) n calls := by
  rcases h with h | h
  · left
    refine ⟨h.1, h.2, ?_⟩
    show (1 : Int) ≤ k
    omega
  · right
    rw [New_length]; omega

end Memopool

/-! ## Unit addresses, sums and free chains -/
namespace Memopool

theorem nFirst_of_core {b c : memoBlock} (h : core b = core c) : b.nFirst = c.nFirst :=
  show (core b).nFirst = (core c).nFirst from by rw [h]

theorem bs_of_core {b c : memoBlock} (h : core b = core c) : b.bs = c.bs :=
  show (core b).bs = (core c).bs from by rw [h]

/-- Two units of the first `n` blocks lie at least one stride apart. -/
theorem unitPtr_apart {addr : Nat → Nat} {sz u n : Nat} (hlay : Layout addr sz u n)
    {i j i2 j2 : Nat} (hi : i < n) (hi2 : i2 < n) (hj : j < u) (hj2 : j2 < u)
    (hne : i ≠ i2 ∨ j ≠ j2) :
    unitPtr addr sz i j + (sz + intSize) ≤ unitPtr addr sz i2 j2 ∨
      unitPtr addr sz i2 j2 + (sz + intSize) ≤ unitPtr addr sz i j := by
  have hm1 : (sz + intSize) * (j + 1) ≤ u * (sz + intSize) := by
    rw [Nat.mul_comm u]; exact Nat.mul_le_mul_left _ hj
  have hm2 : (sz + intSize) * (j2 + 1) ≤ u * (sz + intSize) := by
    rw [Nat.mul_comm u]; exact Nat.mul_le_mul_left _ hj2
  have he1 : (sz + intSize) * (j + 1) = (sz + intSize) * j + (sz + intSize) := by ring
  have he2 : (sz + intSize) * (j2 + 1) = (sz + intSize) * j2 + (sz + intSize) := by ring
  unfold unitPtr
  by_cases hii : i = i2
  · subst hii
    have hjj : j ≠ j2 := by
      rcases hne with h | h
      · exact absurd rfl h
      · exact h
    rcases Nat.lt_or_gt_of_ne hjj with h | h
    · left
      have : (sz + intSize) * (j + 1) ≤ (sz + intSize) * j2 := Nat.mul_le_mul_left _ h
      omega
    · right
      have : (sz + intSize) * (j2 + 1) ≤ (sz + intSize) * j := Nat.mul_le_mul_left _ h
      omega
  · rcases hlay.disjoint i i2 hi hi2 hii with h | h
    · left; omega
    · right; omega

theorem unitPtr_inj {addr : Nat → Nat} {sz u n : Nat} (hlay : Layout addr sz u n)
    {i j i2 j2 : Nat} (hi : i < n) (hi2 : i2 < n) (hj : j < u) (hj2 : j2 < u)
    (he : unitPtr addr sz i j = unitPtr addr sz i2 j2) : i = i2 ∧ j = j2 := by
  by_contra hc
  have hne : i ≠ i2 ∨ j ≠ j2 := by
    by_cases h : i = i2
    · right; intro h2; exact hc ⟨h, h2⟩
    · left; exact h
  have hi8 : intSize = 8 := rfl
  rcases unitPtr_apart hlay hi hi2 hj hj2 hne with h | h <;> omega

theorem sum_range_congr (f g : Nat → Nat) : ∀ m, (∀ x, x < m → g x = f x) →
    ((List.range m).map g).sum = ((List.range m).map f).sum
  | 0, _ => rfl
  | m + 1, h => by
    rw [List.range_succ, List.map_append, List.map_append, List.sum_append, List.sum_append,
      sum_range_congr f g m (fun x hx => h x (by omega))]
    simp [h m (by omega)]

theorem sum_range_update (f g : Nat → Nat) (k : Nat) : ∀ m, k < m →
    (∀ x, x < m → x ≠ k → g x = f x) →
    ((List.range m).map g).sum + f k = ((List.range m).map f).sum + g k
  | 0, hk, _ => by omega
  | m + 1, hk, h => by
    rw [List.range_succ, List.map_append, List.map_append, List.sum_append, List.sum_append]
    simp only [List.map_cons, List.map_nil, List.sum_cons, List.sum_nil, Nat.add_zero]
    by_cases hkm : k = m
    · subst hkm
      have := sum_range_congr f g k (fun x hx => h x (by omega) (by omega))
      omega
    · have := sum_range_update f g k m (by omega) (fun x hx hne => h x (by omega) hne)
      have := h m (by omega) (fun e => hkm e.symm)
      omega

theorem freeSum_congr {h h2 : List memoBlock} (hlen : h2.length = h.length)
    (hfree : ∀ x, (getB h2 x).nFree = (getB h x).nFree) : freeSum h2 = freeSum h := by
  unfold freeSum
  rw [hlen]
  exact sum_range_congr _ _ _ (fun x _ => hfree _)

theorem freeSum_update {h h2 : List memoBlock} (hlen : h2.length = h.length) {b : Nat}
    (hb3 : 3 ≤ b) (hbl : b < h.length)
    (hfree : ∀ x, x ≠ b → (getB h2 x).nFree = (getB h x).nFree) :
    freeSum h2 + (getB h b).nFree = freeSum h + (getB h2 b).nFree := by
  unfold freeSum
  rw [hlen]
  have := sum_range_update (fun n => (getB h (n + 3)).nFree) (fun n => (getB h2 (n + 3)).nFree)
    (b - 3) (h.length - 3) (by omega) (fun x _ hx => hfree _ (by omega))
  have e : b - 3 + 3 = b := by omega
  simp only [e] at this
  exact this

theorem freeSum_append {h h2 : List memoBlock} (hlen : h2.length = h.length + 1)
    (h3 : 3 ≤ h.length)
    (hfree : ∀ x, x < h.length → (getB h2 x).nFree = (getB h x).nFree) :
    freeSum h2 = freeSum h + (getB h2 h.length).nFree := by
  unfold freeSum
  rw [hlen]
  have e : h.length + 1 - 3 = (h.length - 3) + 1 := by omega
  rw [e, List.range_succ, List.map_append, List.sum_append]
  simp only [List.map_cons, List.map_nil, List.sum_cons, List.sum_nil, Nat.add_zero]
  have e2 : h.length - 3 + 3 = h.length := by omega
  rw [e2, sum_range_congr _ _ _ (fun x hx => hfree (x + 3) (by omega))]

theorem FreeChain.set {bs : List Nat} {u j v : Nat} : ∀ (c : List Nat) (first : Nat),
    j ∉ c → FreeChain bs u first c → FreeChain (bs.set j v) u first c
  | [], _, _, _ => trivial
  | a :: r, first, hj, hc => by
    obtain ⟨h1, h2, h3⟩ := hc
    refine ⟨h1, h2, ?_⟩
    have haj : a ≠ j := fun e => hj (by rw [e]; exact List.mem_cons_self _ _)
    have hget : (bs.set j v).getD a 0 = bs.getD a 0 := by
      have : ¬ j = a := fun e => haj e.symm
      simp [List.getD_eq_getElem?_getD, List.getElem?_set, this]
    rw [hget]
    exact FreeChain.set r _ (fun hm => hj (List.mem_cons_of_mem _ hm)) h3

theorem FreeChain.identity (u : Nat) : ∀ (m j : Nat), j + m = u →
    FreeChain ((List.range u).map (fun i => i + 1)) u j (List.range' j m)
  | 0, _, _ => trivial
  | m + 1, j, h => by
    refine ⟨rfl, by omega, ?_⟩
    rw [getD_identity u j (by omega)]
    exact FreeChain.identity u m (j + 1) (by omega)

theorem FreeChain.lt {bs : List Nat} {u : Nat} : ∀ (c : List Nat) (first : Nat),
    FreeChain bs u first c → ∀ x, x ∈ c → x < u
  | [], _, _, x, hx => by simp at hx
  | a :: r, _, hc, x, hx => by
    rcases List.mem_cons.mp hx with h | h
    · rw [h]; exact hc.2.1
    · exact FreeChain.lt r _ hc.2.2 x h

theorem length_lt_of_not_mem {l : List Nat} {u j : Nat} (hnd : l.Nodup)
    (hlt : ∀ x, x ∈ l → x < u) (hj : j < u) (hjl : j ∉ l) : l.length < u := by
  have := length_le_of_nodup_lt (l := j :: l) (n := u) (List.nodup_cons.mpr ⟨hjl, hnd⟩)
    (fun x hx => by
      rcases List.mem_cons.mp hx with h | h
      · rw [h]; exact hj
      · exact hlt x h)
  simpa using this

theorem find?_unique {l : List Nat} {p : Nat → Bool} {a : Nat} (ha : a ∈ l) (hpa : p a = true)
    (huniq : ∀ x, x ∈ l → p x = true → x = a) : l.find? p = some a := by
  cases h : l.find? p with
  | none =>
    rw [List.find?_eq_none] at h
    exact absurd hpa (h a ha)
  | some b =>
    have hb := List.find?_some h
    have hbm := List.mem_of_find?_eq_some h
    rw [huniq b hbm hb]

end Memopool

/-! ## Live pointers: single steps -/
namespace Memopool

/-- A change of the links alone keeps the invariant of the live pointers. -/
theorem Good.transfer {addr : Nat → Nat} {sz u : Nat} {mp : MemoPool} {L : Nat → List Nat}
    {ch : Nat → List Nat} {live : List Nat} (hg : Good addr sz u mp L ch live)
    {mp1 : MemoPool} {L1 : Nat → List Nat} (hwf1 : WF addr sz u mp1 L1)
    (hlen : mp1.nodes.length = mp.nodes.length)
    (hcore : ∀ x, core (getB mp1.nodes x) = core (getB mp.nodes x)) :
    Good addr sz u mp1 L1 ch live := by
  refine ⟨hwf1, ?_, hg.liveNodup, ?_, ?_⟩
  · intro i hi3 hil
    rw [bs_of_core (hcore i), nFirst_of_core (hcore i), nFree_of_core (hcore i)]
    exact hg.chain i hi3 (by omega)
  · intro p hp
    obtain ⟨i, j, h1, h2, h3⟩ := hg.liveUnit p hp
    exact ⟨i, j, h1, by omega, h3⟩
  · rw [freeSum_congr hlen (fun x => nFree_of_core (hcore x)), hlen]
    exact hg.count

/-- A fresh block, all of whose units are free, keeps the invariant of the live pointers. -/
theorem Good.appendBlock {addr : Nat → Nat} {sz u : Nat} {mp : MemoPool} {L : Nat → List Nat}
    {ch : Nat → List Nat} {live : List Nat} (hg : Good addr sz u mp L ch live)
    {mp1 : MemoPool} {L1 : Nat → List Nat} (hwf1 : WF addr sz u mp1 L1)
    (hlen : mp1.nodes.length = mp.nodes.length + 1)
    (hcore : ∀ x, x < mp.nodes.length → core (getB mp1.nodes x) = core (getB mp.nodes x))
    (hnew : core (getB mp1.nodes mp.nodes.length) = core (mp.fresh addr)) :
    Good addr sz u mp1 L1 (fun i => if i = mp.nodes.length then List.range' 0 u else ch i)
      live := by
  have h3 := hg.wf.len3
  have hucnt := hg.wf.ucnt
  have hbs : (getB mp1.nodes mp.nodes.length).bs = (List.range u).map (fun i => i + 1) := by
    rw [bs_of_core hnew, ← hucnt]; rfl
  have hfirst : (getB mp1.nodes mp.nodes.length).nFirst = 0 := by
    rw [nFirst_of_core hnew]; rfl
  have hfree : (getB mp1.nodes mp.nodes.length).nFree = u := by
    rw [nFree_of_core hnew, ← hucnt]; rfl
  refine ⟨hwf1, ?_, hg.liveNodup, ?_, ?_⟩
  · intro i hi3 hil
    by_cases hi : i = mp.nodes.length
    · simp only [if_pos hi]
      rw [hi, hbs, hfirst, hfree]
      exact ⟨FreeChain.identity u u 0 (by omega), List.nodup_range' 0 u, List.length_range' ..⟩
    · simp only [if_neg hi]
      have hil2 : i < mp.nodes.length := by omega
      rw [bs_of_core (hcore i hil2), nFirst_of_core (hcore i hil2),
        nFree_of_core (hcore i hil2)]
      exact hg.chain i hi3 hil2
  · intro p hp
    obtain ⟨i, j, h1, h2, h3, h4, h5⟩ := hg.liveUnit p hp
    refine ⟨i, j, h1, by omega, h3, ?_, h5⟩
    rw [if_neg (by omega)]
    exact h4
  · rw [freeSum_append hlen h3 (fun x hx => nFree_of_core (hcore x hx)), hfree, hlen]
    have := hg.count
    have e : mp.nodes.length + 1 - 3 = (mp.nodes.length - 3) + 1 := by omega
    rw [e, Nat.mul_add]
    omega

/-- Handing out the unit at the head of the free list of block `pa` keeps the invariant, the
returned address becoming live; it was not live before. -/
theorem Good.pop {addr : Nat → Nat} {sz u n : Nat} (hlay : Layout addr sz u n)
    {mp : MemoPool} {L : Nat → List Nat} {ch : Nat → List Nat} {live : List Nat}
    (hg : Good addr sz u mp L ch live) (hbound : mp.nodes.length ≤ n + 3) {pa : Nat}
    (hpa3 : 3 ≤ pa) (hpal : pa < mp.nodes.length) (hfree : 0 < (getB mp.nodes pa).nFree)
    {mp2 : MemoPool} {L2 : Nat → List Nat} (hwf2 : WF addr sz u mp2 L2)
    (hlen : mp2.nodes.length = mp.nodes.length)
    (hcore : ∀ x, core (getB mp2.nodes x) =
      if x = pa then core (getB mp.nodes pa).popped else core (getB mp.nodes x)) :
    Good addr sz u mp2 L2 (fun i => if i = pa then (ch pa).tail else ch i)
      (unitPtr addr sz (pa - 3) (getB mp.nodes pa).nFirst :: live) ∧
    unitPtr addr sz (pa - 3) (getB mp.nodes pa).nFirst ∉ live := by
  obtain ⟨hchain, hnd, hclen⟩ := hg.chain pa hpa3 hpal
  obtain ⟨j0, rest, hch⟩ : ∃ j0 rest, ch pa = j0 :: rest := by
    cases hc : ch pa with
    | nil => rw [hc] at hclen; simp at hclen; omega
    | cons a r => exact ⟨a, r, rfl⟩
  rw [hch] at hchain hnd hclen
  obtain ⟨hj0, hj0u, hrest⟩ := hchain
  have hj0r : j0 ∉ rest := (List.nodup_cons.mp hnd).1
  have hnotlive : unitPtr addr sz (pa - 3) (getB mp.nodes pa).nFirst ∉ live := by
    intro hp
    obtain ⟨i, j, h1, h2, h3, h4, h5⟩ := hg.liveUnit _ hp
    have := @unitPtr_inj addr sz u n hlay (pa - 3) (getB mp.nodes pa).nFirst (i - 3) j
      (by omega) (by omega) (by rw [← hj0]; exact hj0u) h3 h5
    have hi : i = pa := by omega
    subst hi
    apply h4
    rw [hch, ← this.2, ← hj0]
    exact List.mem_cons_self _ _
  refine ⟨⟨hwf2, ?_, List.nodup_cons.mpr ⟨hnotlive, hg.liveNodup⟩, ?_, ?_⟩, hnotlive⟩
  · intro i hi3 hil
    have hc := hcore i
    by_cases hi : i = pa
    · simp only [if_pos hi]
      rw [if_pos hi] at hc
      rw [bs_of_core hc, nFirst_of_core hc, nFree_of_core hc, hch, List.tail_cons]
      refine ⟨?_, (List.nodup_cons.mp hnd).2, ?_⟩
      · show FreeChain (getB mp.nodes pa).bs u
          ((getB mp.nodes pa).bs.getD (getB mp.nodes pa).nFirst 0) rest
        rw [← hj0]; exact hrest
      · show rest.length = (getB mp.nodes pa).nFree - 1
        simp at hclen; omega
    · simp only [if_neg hi]
      rw [if_neg hi] at hc
      rw [bs_of_core hc, nFirst_of_core hc, nFree_of_core hc]
      exact hg.chain i hi3 (by omega)
  · intro p hp
    rcases List.mem_cons.mp hp with hp | hp
    · refine ⟨pa, (getB mp.nodes pa).nFirst, hpa3, by omega, by rw [← hj0]; exact hj0u, ?_, hp⟩
      simp only [if_pos rfl]
      rw [hch, List.tail_cons, ← hj0]
      exact hj0r
    · obtain ⟨i, j, h1, h2, h3, h4, h5⟩ := hg.liveUnit p hp
      refine ⟨i, j, h1, by omega, h3, ?_, h5⟩
      by_cases hi : i = pa
      · simp only [if_pos hi]
        subst hi
        exact fun hm => h4 (List.mem_of_mem_tail hm)
      · simp only [if_neg hi]
        exact h4
  · have hupd := freeSum_update hlen hpa3 hpal (fun x hx => by
      have hc := hcore x
      rw [if_neg hx] at hc
      exact nFree_of_core hc)
    have hpf : (getB mp2.nodes pa).nFree = (getB mp.nodes pa).nFree - 1 := by
      have hc := hcore pa
      rw [if_pos rfl] at hc
      exact nFree_of_core hc
    have := hg.count
    rw [hlen]
    simp only [List.length_cons]
    omega

/-- Pushing the unit of a live pointer back on the free list of its block keeps the invariant,
the pointer ceasing to be live. -/
theorem Good.push {addr : Nat → Nat} {sz u : Nat} {mp : MemoPool} {L : Nat → List Nat}
    {ch : Nat → List Nat} {live : List Nat} (hg : Good addr sz u mp L ch live) {i j : Nat}
    (hi3 : 3 ≤ i) (hil : i < mp.nodes.length) (hj : j < u) (hjc : j ∉ ch i)
    (hp : unitPtr addr sz (i - 3) j ∈ live)
    {mp2 : MemoPool} {L2 : Nat → List Nat} (hwf2 : WF addr sz u mp2 L2)
    (hlen : mp2.nodes.length = mp.nodes.length)
    (hcore : ∀ x, core (getB mp2.nodes x) =
      if x = i then core ((getB mp.nodes i).pushed j) else core (getB mp.nodes x)) :
    Good addr sz u mp2 L2 (fun x => if x = i then j :: ch i else ch x)
      (live.erase (unitPtr addr sz (i - 3) j)) := by
  obtain ⟨hchain, hnd, hclen⟩ := hg.chain i hi3 hil
  refine ⟨hwf2, ?_, hg.liveNodup.erase _, ?_, ?_⟩
  · intro x hx3 hxl
    have hc := hcore x
    by_cases hx : x = i
    · simp only [if_pos hx]
      rw [if_pos hx] at hc
      rw [bs_of_core hc, nFirst_of_core hc, nFree_of_core hc]
      refine ⟨⟨rfl, hj, ?_⟩, List.nodup_cons.mpr ⟨hjc, hnd⟩, ?_⟩
      · show FreeChain ((getB mp.nodes i).bs.set j (getB mp.nodes i).nFirst) u
          (((getB mp.nodes i).bs.set j (getB mp.nodes i).nFirst).getD j 0) (ch i)
        have hjl : j < (getB mp.nodes i).bs.length := by
          rw [(hg.wf.blocks i hi3 hil).len]; exact hj
        rw [getD_set_nat _ _ _ _ hjl, if_pos rfl]
        exact FreeChain.set _ _ hjc hchain
      · show (j :: ch i).length = (getB mp.nodes i).nFree + 1
        simp [hclen]
    · simp only [if_neg hx]
      rw [if_neg hx] at hc
      rw [bs_of_core hc, nFirst_of_core hc, nFree_of_core hc]
      exact hg.chain x hx3 (by omega)
  · intro q hq
    have hq2 := (hg.liveNodup.mem_erase_iff).mp hq
    obtain ⟨x, y, h1, h2, h3, h4, h5⟩ := hg.liveUnit q hq2.2
    refine ⟨x, y, h1, by omega, h3, ?_, h5⟩
    by_cases hx : x = i
    · simp only [if_pos hx]
      subst hx
      intro hm
      rcases List.mem_cons.mp hm with hm | hm
      · apply hq2.1
        rw [h5, hm]
      · exact h4 hm
    · simp only [if_neg hx]
      exact h4
  · have hupd := freeSum_update hlen hi3 hil (fun x hx => by
      have hc := hcore x
      rw [if_neg hx] at hc
      exact nFree_of_core hc)
    have hpf : (getB mp2.nodes i).nFree = (getB mp.nodes i).nFree + 1 := by
      have hc := hcore i
      rw [if_pos rfl] at hc
      exact nFree_of_core hc
    have := hg.count
    have hl := List.length_erase_of_mem hp
    have hpos : 0 < live.length := List.length_pos_of_mem hp
    rw [hlen, hl]
    omega

end Memopool

/-! ## Live pointers: Alloc and Free -/
namespace Memopool

/-- The pool `New` returns satisfies the invariant of the live pointers, none being live. -/
theorem Good.ofNewPool (addr : Nat → Nat) {sz u : Nat} (k : Int) (hst : sz + intSize < W)
    (hfit : addr 0 + u * (sz + intSize) < W) (hu : 0 < u) :
    ∃ ch, Good addr sz u (New addr sz u k) newLists ch [] := by
  have hwf := WF.ofNew addr k hst hfit hu
  have hlen : (New addr sz u k).nodes.length = 4 := New_length _ _ _ _
  have hi8 : intSize = 8 := rfl
  have huW : u < W := by
    have : u * 1 ≤ u * (sz + intSize) := Nat.mul_le_mul_left _ (by omega)
    omega
  have hszW : sz < W := by omega
  have hcore3 : core (getB (New addr sz u k).nodes 3) = core (newMemoPool (addr 0) sz u) := by
    unfold New
    simp only [uintptr_cast u huW, uintptr_cast sz hszW, core_moveAfter]
    rfl
  have hbs : (getB (New addr sz u k).nodes 3).bs = (List.range u).map (fun i => i + 1) := by
    rw [bs_of_core hcore3]; rfl
  have hfirst : (getB (New addr sz u k).nodes 3).nFirst = 0 := by
    rw [nFirst_of_core hcore3]; rfl
  have hfree : (getB (New addr sz u k).nodes 3).nFree = u := by
    rw [nFree_of_core hcore3]; rfl
  refine ⟨fun _ => List.range' 0 u, hwf, ?_, List.nodup_nil, ?_, ?_⟩
  · intro i hi3 hil
    have hi : i = 3 := by omega
    subst hi
    rw [hbs, hfirst, hfree]
    exact ⟨FreeChain.identity u u 0 (by omega), List.nodup_range' 0 u, List.length_range' ..⟩
  · intro p hp; simp at hp
  · unfold freeSum
    rw [hlen]
    simp [List.range_succ, hfree]

/-- `Alloc` on a pool whose `Free` calls were given live pointers: it returns nil, leaving the
pool as it is, when no list has a free unit and the budget is used up, and otherwise a non-nil
address that was not live and now is. -/
theorem Good.allocGood {addr : Nat → Nat} {sz u n : Nat} (hlay : Layout addr sz u n) (hu : 0 < u)
    {mp : MemoPool} {L : Nat → List Nat} {ch : Nat → List Nat} {live : List Nat}
    (hg : Good addr sz u mp L ch live) (hbound : mp.nodes.length ≤ n + 3)
    (hfit : ¬ mp.over → mp.nodes.length - 3 < n) :
    ∃ mp2 p, mp.Alloc addr = some (mp2, p) ∧
      ((p = 0 ∧ mp2 = mp ∧ mp.over ∧ L 1 = [] ∧ L 2 = []) ∨
        (p ≠ 0 ∧ p < W ∧ p ∉ live ∧ ∃ L2 ch2, Good addr sz u mp2 L2 ch2 (p :: live))) ∧
      (mp2.nodes.length = mp.nodes.length ∨
        (¬ mp.over ∧ mp2.nodes.length = mp.nodes.length + 1)) ∧
      mp2.maxBlockCnt = mp.maxBlockCnt := by
  have hwf := hg.wf
  unfold MemoPool.Alloc
  rcases refill_spec hwf hu hlay.stride (fun hov => hlay.fits _ (hfit hov)) with
    ⟨hr, hL1, hL2, hov⟩ | ⟨mp1, L1, pa, rest, hr, hwf1, hL1, hmax, hdata⟩
  · rw [hr]
    exact ⟨mp, 0, rfl, Or.inl ⟨rfl, rfl, hov, hL1, hL2⟩, Or.inl rfl, rfl⟩
  · rw [hr]
    have hg1 : ∃ ch1, Good addr sz u mp1 L1 ch1 live ∧ mp1.nodes.length ≤ n + 3 ∧
        (mp1.nodes.length = mp.nodes.length ∨
          (¬ mp.over ∧ mp1.nodes.length = mp.nodes.length + 1)) := by
      rcases hdata with ⟨hlen, hcore, _⟩ | ⟨_, _, hov, hlen, hcore, hnew, _⟩
      · exact ⟨ch, hg.transfer hwf1 hlen hcore, by omega, Or.inl hlen⟩
      · have := hfit hov
        exact ⟨_, hg.appendBlock hwf1 hlen hcore hnew, by omega, Or.inr ⟨hov, hlen⟩⟩
    obtain ⟨ch1, hg1, hb1, hl1⟩ := hg1
    obtain ⟨mp2, L2, hal, hwf2, hfirst, hfree, hlen2, hmax2, hcore2, _⟩ :=
      allocHead_spec hwf1 hL1
    have hpm : pa ∈ L1 1 := by rw [hL1]; exact List.mem_cons_self _ _
    have hpr := hwf1.rep.range 1 (by omega) pa hpm
    have hpos := unitPtr_pos_lt (hwf1.blocks pa hpr.1 hpr.2).fits hfirst
    obtain ⟨hg2, hnl⟩ := hg1.pop hlay hb1 hpr.1 hpr.2 hfree hwf2 hlen2 hcore2
    refine ⟨mp2, _, hal, Or.inr ⟨by omega, hpos.2, hnl, L2, _, hg2⟩, ?_, by rw [hmax2, hmax]⟩
    rw [hlen2]
    exact hl1

/-- `Free` of a live pointer returns true: the block of the pointer is in the partial or the
full list, it is the only block that accepts the pointer, the unit goes back on its free list
and the pointer stops being live. -/
theorem Good.freeGood {addr : Nat → Nat} {sz u n : Nat} (hlay : Layout addr sz u n)
    {mp : MemoPool} {L : Nat → List Nat} {ch : Nat → List Nat} {live : List Nat}
    (hg : Good addr sz u mp L ch live) (hbound : mp.nodes.length ≤ n + 3) {p : Nat}
    (hp : p ∈ live) :
    ∃ mp2 L2 ch2 i j s, mp.Free p = some (mp2, true) ∧
      Good addr sz u mp2 L2 ch2 (live.erase p) ∧
      mp2.nodes.length = mp.nodes.length ∧ mp2.maxBlockCnt = mp.maxBlockCnt ∧
      mp2.blockCnt = mp.blockCnt ∧
      3 ≤ i ∧ i < mp.nodes.length ∧ j < u ∧ p = unitPtr addr sz (i - 3) j ∧
      (i ∈ L 0 ∨ i ∈ L 1) ∧ i ∉ L 2 ∧ (s = 1 ∨ s = 2) ∧ L2 = moved L s i ∧
      (getB mp2.nodes i).nFirst = j := by
  have hwf := hg.wf
  obtain ⟨i, j, hi3, hil, hj, hjc, hpij⟩ := hg.liveUnit p hp
  have hOK := hwf.blocks i hi3 hil
  obtain ⟨hchain, hnd, hclen⟩ := hg.chain i hi3 hil
  have hlt : (getB mp.nodes i).nFree < u := by
    rw [← hclen]
    exact length_lt_of_not_mem hnd (FreeChain.lt _ _ hchain) hj hjc
  have hnot2 : i ∉ L 2 := by
    intro hm
    have := hwf.empt i hm
    omega
  have hmem : i ∈ L 0 ∨ i ∈ L 1 := by
    obtain ⟨s, hs, his⟩ := hwf.cover i hi3 hil
    have : s = 0 ∨ s = 1 ∨ s = 2 := by omega
    rcases this with h | h | h <;> subst h
    · exact Or.inl his
    · exact Or.inr his
    · exact absurd his hnot2
  have hpW : p < W := by
    rw [hpij]; exact (unitPtr_pos_lt hOK.fits hj).2
  have hfree : (getB mp.nodes i).free p = ((getB mp.nodes i).pushed j, true) := by
    rw [hpij]; exact free_unit hOK hj
  have hacc : accepts mp.nodes p i = true := by
    unfold accepts; rw [hfree]
  have huniq : ∀ x, x ∈ searchOrder (L 1) (L 0) → accepts mp.nodes p x = true → x = i := by
    intro x hx hax
    have hxm := (mem_searchOrder _ _ x).mp hx
    have hxr : 3 ≤ x ∧ x < mp.nodes.length := by
      rcases hxm with h | h
      · exact hwf.rep.range 1 (by omega) x h
      · exact hwf.rep.range 0 (by omega) x h
    obtain ⟨j2, hj2, hpx⟩ := (free_accepts (hwf.blocks x hxr.1 hxr.2) hpW).mp hax
    rw [hpij] at hpx
    have := unitPtr_inj hlay (by omega) (by omega) hj hj2 hpx
    omega
  have hfind : (searchOrder (L 1) (L 0)).find? (accepts mp.nodes p) = some i :=
    find?_unique ((mem_searchOrder _ _ i).mpr (by tauto)) hacc huniq
  have ht : ∃ t, t < 3 ∧ i ∈ L t := by
    rcases hmem with h | h
    · exact ⟨0, by omega, h⟩
    · exact ⟨1, by omega, h⟩
  obtain ⟨t, ht, hit⟩ := ht
  obtain ⟨j2, s, _, hfree2, hs, hres, hwf2⟩ := searchAndFree_spec hwf ht hit hacc
  have hjj : j2 = j := by
    rw [hfree] at hfree2
    have := congrArg (fun r => r.1.nFirst) hfree2
    exact this.symm
  subst hjj
  have hs12 : s = 1 ∨ s = 2 := by
    rw [hs]; split
    · exact Or.inr rfl
    · exact Or.inl rfl
  have hlen2 : (mp.searchAndFree i p).1.nodes.length = mp.nodes.length := by
    rw [hres]
    show (moveAfter (mp.nodes.set i ((getB mp.nodes i).pushed j2)) s i).length = _
    rw [length_moveAfter, List.length_set]
  have hcore2 : ∀ x, core (getB (mp.searchAndFree i p).1.nodes x) =
      if x = i then core ((getB mp.nodes i).pushed j2) else core (getB mp.nodes x) := by
    intro x
    rw [hres]
    show core (getB (moveAfter (mp.nodes.set i ((getB mp.nodes i).pushed j2)) s i) x) = _
    rw [core_moveAfter, getB_set]
    by_cases hx : x = i
    · rw [if_pos hx, if_pos ⟨hx.symm, hil⟩]
    · rw [if_neg hx, if_neg (fun e => hx e.1.symm)]
  have hg2 := hg.push hi3 hil hj hjc (hpij ▸ hp) hwf2 hlen2 hcore2
  rw [← hpij] at hg2
  refine ⟨_, _, _, i, j2, s, ?_, hg2, hlen2, by rw [hres], by rw [hres], hi3, hil, hj, hpij,
    hmem, hnot2, hs12, rfl, ?_⟩
  · rw [Free_spec hwf, hfind]
    rfl
  · have hc := hcore2 i
    rw [if_pos rfl] at hc
    exact nFirst_of_core hc

end Memopool

/-! ## Live pointers: runs and capacity -/
namespace Memopool

theorem Room.index {mp : MemoPool} {n : Nat} {cs : List Call} {addr : Nat → Nat} {sz u : Nat}
    {L : Nat → List Nat} (hwf : WF addr sz u mp L) (hroom : Room mp n (Call.alloc :: cs)) :
    ¬ mp.over → mp.nodes.length - 3 < n := by
  intro hov
  have hcnt := hwf.cnt
  have h3 := hwf.len3
  rcases hroom with ⟨hpos, hle, _⟩ | hle
  · unfold MemoPool.over at hov
    have : mp.blockCnt < mp.maxBlockCnt := by
      by_contra hc
      exact hov ⟨by omega, hpos⟩
    omega
  · simp only [allocCount] at hle
    omega

theorem run_append (addr : Nat → Nat) : ∀ (cs ds : List Call) (mp : MemoPool) (live : List Nat),
    mp.run addr live (cs ++ ds) =
      (mp.run addr live cs).bind (fun r => r.1.run addr r.2 ds)
  | [], ds, mp, live => rfl
  | c :: cs, ds, mp, live => by
    simp only [List.cons_append, MemoPool.run]
    cases h : mp.call addr live c with
    | none => rfl
    | some r => exact run_append addr cs ds r.1 r.2

theorem disciplined_replicate (addr : Nat → Nat) : ∀ (m : Nat) (mp : MemoPool) (live : List Nat),
    Disciplined addr mp live (List.replicate m Call.alloc)
  | 0, _, _ => rfl
  | m + 1, mp, live => by
    simp only [List.replicate_succ, Disciplined, disciplinedB, Bool.true_and]
    cases h : mp.call addr live Call.alloc with
    | none => rfl
    | some r => exact disciplined_replicate addr m r.1 r.2

/-- A sequence of calls whose `Free` calls are all given live pointers runs to its end and
keeps the invariant of the live pointers. -/
theorem Good.runGood {addr : Nat → Nat} {sz u n : Nat} (hlay : Layout addr sz u n) (hu : 0 < u) :
    ∀ (calls extra : List Call) (mp : MemoPool) (live : List Nat) (L ch : Nat → List Nat),
    Good addr sz u mp L ch live → Room mp n (calls ++ extra) → Disciplined addr mp live calls →
    ∃ mp2 live2 L2 ch2, mp.run addr live calls = some (mp2, live2) ∧
      Good addr sz u mp2 L2 ch2 live2 ∧ Room mp2 n extra ∧
      mp2.maxBlockCnt = mp.maxBlockCnt
  | [], extra, mp, live, L, ch, hg, hroom, _ => ⟨mp, live, L, ch, rfl, hg, hroom, rfl⟩
  | Call.alloc :: cs, extra, mp, live, L, ch, hg, hroom, hd => by
    have hroom0 : Room mp n (Call.alloc :: (cs ++ extra)) := hroom
    obtain ⟨mp1, p, hal, hcase, hlen, hmax⟩ :=
      hg.allocGood hlay hu (Room.bound hg.wf hroom0) (Room.index hg.wf hroom0)
    have hcall : mp.call addr live Call.alloc = some (mp1, if p = 0 then live else p :: live) := by
      simp only [MemoPool.call, hal]
    have hd1 : Disciplined addr mp1 (if p = 0 then live else p :: live) cs := by
      simp only [Disciplined, disciplinedB, Bool.true_and, hcall] at hd
      exact hd
    have hg1 : ∃ L1 ch1, Good addr sz u mp1 L1 ch1 (if p = 0 then live else p :: live) := by
      rcases hcase with ⟨hp0, hmp, _⟩ | ⟨hp0, _, _, L1, ch1, hg1⟩
      · rw [if_pos hp0, hmp]; exact ⟨L, ch, hg⟩
      · rw [if_neg hp0]; exact ⟨L1, ch1, hg1⟩
    obtain ⟨L1, ch1, hg1⟩ := hg1
    have hroom1 : Room mp1 n (cs ++ extra) := Room.stepAlloc hg.wf hg1.wf hroom0 hmax hlen
    obtain ⟨mp2, live2, L2, ch2, hrun, hg2, hroom2, hmax2⟩ :=
      Good.runGood hlay hu cs extra mp1 _ L1 ch1 hg1 hroom1 hd1
    refine ⟨mp2, live2, L2, ch2, ?_, hg2, hroom2, by rw [hmax2, hmax]⟩
    simp only [MemoPool.run, hcall]
    exact hrun
  | Call.free pt :: cs, extra, mp, live, L, ch, hg, hroom, hd => by
    have hroom0 : Room mp n (Call.free pt :: (cs ++ extra)) := hroom
    simp only [Disciplined, disciplinedB, Bool.and_eq_true, decide_eq_true_eq] at hd
    have hpl : pt ∈ live := hd.1
    obtain ⟨mp1, L1, ch1, i, j, s, hfr, hg1, hlen, hmax, hcnt, _⟩ :=
      hg.freeGood hlay (Room.bound hg.wf hroom0) hpl
    have hcall : mp.call addr live (Call.free pt) = some (mp1, live.erase pt) := by
      simp only [MemoPool.call, hfr, if_true]
    have hd1 : Disciplined addr mp1 (live.erase pt) cs := by
      have := hd.2
      rw [hcall] at this
      exact this
    have hroom1 : Room mp1 n (cs ++ extra) := Room.stepFree hroom0 hmax hcnt hlen
    obtain ⟨mp2, live2, L2, ch2, hrun, hg2, hroom2, hmax2⟩ :=
      Good.runGood hlay hu cs extra mp1 _ L1 ch1 hg1 hroom1 hd1
    refine ⟨mp2, live2, L2, ch2, ?_, hg2, hroom2, by rw [hmax2, hmax]⟩
    simp only [MemoPool.run, hcall]
    exact hrun

theorem sum_range_zero (f : Nat → Nat) : ∀ m, (∀ x, x < m → f x = 0) →
    ((List.range m).map f).sum = 0
  | 0, _ => rfl
  | m + 1, h => by
    rw [List.range_succ, List.map_append, List.sum_append,
      sum_range_zero f m (fun x hx => h x (by omega))]
    simp [h m (by omega)]

theorem sum_range_pos (f : Nat → Nat) : ∀ m x, x < m → 0 < f x →
    0 < ((List.range m).map f).sum
  | 0, _, hx, _ => by omega
  | m + 1, x, hx, hf => by
    rw [List.range_succ, List.map_append, List.sum_append]
    simp only [List.map_cons, List.map_nil, List.sum_cons, List.sum_nil, Nat.add_zero]
    by_cases hxm : x = m
    · subst hxm; omega
    · have := sum_range_pos f m x (by omega) hf
      omega

/-- With a positive block budget `k` that the pool has not exceeded there are at most `k * u`
live pointers. -/
theorem Good.liveBound {addr : Nat → Nat} {sz u : Nat} {mp : MemoPool} {L ch : Nat → List Nat}
    {live : List Nat} (hg : Good addr sz u mp L ch live) {k : Nat}
    (hk : mp.blockCnt ≤ (k : Int)) : live.length ≤ k * u := by
  have hcnt := hg.wf.cnt
  have h3 := hg.wf.len3
  have hc := hg.count
  have : mp.nodes.length - 3 ≤ k := by omega
  have : u * (mp.nodes.length - 3) ≤ u * k := Nat.mul_le_mul_left _ this
  rw [Nat.mul_comm k]
  omega

/-- With as many live pointers as the budget allows every block is full. -/
theorem Good.exhausted {addr : Nat → Nat} {sz u : Nat} (hu : 0 < u) {mp : MemoPool}
    {L ch : Nat → List Nat} {live : List Nat} (hg : Good addr sz u mp L ch live) {k : Nat}
    (hk : mp.blockCnt ≤ (k : Int)) (hfull : live.length = k * u) :
    L 1 = [] ∧ L 2 = [] ∧ (k : Int) ≤ mp.blockCnt := by
  have hcnt := hg.wf.cnt
  have h3 := hg.wf.len3
  have hc := hg.count
  have hle : mp.nodes.length - 3 ≤ k := by omega
  have hmul : u * (mp.nodes.length - 3) ≤ u * k := Nat.mul_le_mul_left _ hle
  rw [Nat.mul_comm k] at hfull
  have hsum : freeSum mp.nodes = 0 := by omega
  have hlen : mp.nodes.length - 3 = k := by
    have h1 : u * k ≤ u * (mp.nodes.length - 3) := by omega
    have := Nat.le_of_mul_le_mul_left h1 hu
    omega
  have hzero : ∀ b, 3 ≤ b → b < mp.nodes.length → (getB mp.nodes b).nFree = 0 := by
    intro b hb3 hbl
    by_contra hne
    have := sum_range_pos (fun n => (getB mp.nodes (n + 3)).nFree) (mp.nodes.length - 3) (b - 3)
      (by omega) (by
        have e : b - 3 + 3 = b := by omega
        simp only [e]
        omega)
    unfold freeSum at hsum
    omega
  refine ⟨?_, ?_, by omega⟩
  · cases hl : L 1 with
    | nil => rfl
    | cons a r =>
      have ha : a ∈ L 1 := by rw [hl]; exact List.mem_cons_self _ _
      have hr := hg.wf.rep.range 1 (by omega) a ha
      have := hg.wf.part a ha
      have := hzero a hr.1 hr.2
      omega
  · cases hl : L 2 with
    | nil => rfl
    | cons a r =>
      have ha : a ∈ L 2 := by rw [hl]; exact List.mem_cons_self _ _
      have hr := hg.wf.rep.range 2 (by omega) a ha
      have := hg.wf.empt a ha
      have := hzero a hr.1 hr.2
      omega

/-- When `Alloc` returns nil for capacity, every live pointer sits in a full block and the pool
holds `blockCnt * u` of them. -/
theorem Good.nil_count {addr : Nat → Nat} {sz u : Nat} {mp : MemoPool}
    {L ch : Nat → List Nat} {live : List Nat} (hg : Good addr sz u mp L ch live)
    (hL1 : L 1 = []) (hL2 : L 2 = []) :
    live.length = u * (mp.nodes.length - 3) := by
  have hc := hg.count
  have hsum : freeSum mp.nodes = 0 := by
    unfold freeSum
    apply sum_range_zero
    intro x hx
    obtain ⟨s, hs, hm⟩ := hg.wf.cover (x + 3) (by omega) (by omega)
    have : s = 0 ∨ s = 1 ∨ s = 2 := by omega
    rcases this with h | h | h <;> subst h
    · exact hg.wf.full _ hm
    · rw [hL1] at hm; simp at hm
    · rw [hL2] at hm; simp at hm
  omega

/-- The pointer `Alloc` returns when the partial list has the first block `i`, or is empty
while the empty list has the first block `i`: the unit at the head of the free list of `i`. -/
theorem Alloc_head {addr : Nat → Nat} {sz u : Nat} {mp : MemoPool} {L : Nat → List Nat}
    (hwf : WF addr sz u mp L) (hu : 0 < u) {i : Nat}
    (h : (L 1).head? = some i ∨ (L 1 = [] ∧ (L 2).head? = some i)) :
    ∃ mp2, mp.Alloc addr = some (mp2, unitPtr addr sz (i - 3) (getB mp.nodes i).nFirst) := by
  unfold MemoPool.Alloc
  rcases @refill_cases addr sz u mp L hwf with ⟨hL1, hr⟩ | ⟨hL1, e, r, hL2, hr⟩ |
      ⟨hL1, hL2, _, _⟩ | ⟨hL1, hL2, _, _⟩
  · rw [hr]
    obtain ⟨pa, rest, hpa⟩ : ∃ pa rest, L 1 = pa :: rest := by
      cases hl : L 1 with
      | nil => exact absurd hl hL1
      | cons a r => exact ⟨a, r, rfl⟩
    have hi : pa = i := by
      rcases h with h | h
      · rw [hpa] at h; simpa using h
      · exact absurd h.1 hL1
    subst hi
    obtain ⟨mp2, _, hal, _⟩ := allocHead_spec hwf hpa
    exact ⟨mp2, hal⟩
  · rw [hr]
    have hi : e = i := by
      rcases h with h | h
      · rw [hL1] at h; simp at h
      · rw [hL2] at h; simpa using h.2
    subst hi
    have hem : e ∈ L 2 := by rw [hL2]; exact List.mem_cons_self _ _
    have hef := hwf.empt e hem
    have hwf1 := hwf.move (s := 1) (by omega) hem (by omega) (by omega) (fun _ => by omega)
      (by omega)
    obtain ⟨mp2, _, hal, _⟩ := allocHead_spec hwf1 (moved_nil_head (L := L) (s := 1) (b := e))
    refine ⟨mp2, Eq.trans hal ?_⟩
    have : (getB (moveAfter mp.nodes 1 e) e).nFirst = (getB mp.nodes e).nFirst :=
      nFirst_of_core (core_moveAfter _ _ _ _)
    show some (mp2, unitPtr addr sz (e - 3) (getB (moveAfter mp.nodes 1 e) e).nFirst) = _
    rw [this]
  · rcases h with h | h
    · rw [hL1] at h; simp at h
    · have h2 := h.2
      rw [hL2] at h2; simp at h2
  · rcases h with h | h
    · rw [hL1] at h; simp at h
    · have h2 := h.2
      rw [hL2] at h2; simp at h2

end Memopool

/-! ## Pools with a block budget -/
namespace Memopool

/-- `Alloc` on a pool with the positive block budget `k`: it returns nil, leaving the pool as it
is, exactly when `k * u` pointers are live. -/
theorem Good.Alloc_capped {addr : Nat → Nat} {sz u k : Nat} (hlay : Layout addr sz u k)
    (hu : 0 < u) (hk : 0 < k) {mp : MemoPool} {L ch : Nat → List Nat} {live : List Nat}
    (hg : Good addr sz u mp L ch live) (hmax : mp.maxBlockCnt = (k : Int))
    (hbound : mp.nodes.length ≤ k + 3) :
    ∃ mp2 p, mp.Alloc addr = some (mp2, p) ∧ mp2.maxBlockCnt = (k : Int) ∧
      mp2.nodes.length ≤ k + 3 ∧
      ((p = 0 ∧ mp2 = mp ∧ live.length = k * u) ∨
        (p ≠ 0 ∧ p < W ∧ p ∉ live ∧ live.length < k * u ∧
          ∃ L2 ch2, Good addr sz u mp2 L2 ch2 (p :: live))) := by
  have hcnt := hg.wf.cnt
  have h3 := hg.wf.len3
  have hfit : ¬ mp.over → mp.nodes.length - 3 < k := by
    intro hov
    unfold MemoPool.over at hov
    have : mp.blockCnt < mp.maxBlockCnt := by
      by_contra hc
      exact hov ⟨by omega, by omega⟩
    omega
  obtain ⟨mp2, p, hal, hcase, hlen, hmax2⟩ := hg.allocGood hlay hu hbound hfit
  have hb2 : mp2.nodes.length ≤ k + 3 := by
    rcases hlen with h | ⟨hov, h⟩
    · omega
    · have := hfit hov; omega
  refine ⟨mp2, p, hal, by rw [hmax2, hmax], hb2, ?_⟩
  rcases hcase with ⟨hp0, hmp, hov, hL1, hL2⟩ | ⟨hp0, hpW, hnl, L2, ch2, hg2⟩
  · left
    refine ⟨hp0, hmp, ?_⟩
    have hn := hg.nil_count hL1 hL2
    have hge : k ≤ mp.nodes.length - 3 := by
      have := hov.1
      omega
    have : mp.nodes.length - 3 = k := by omega
    rw [hn, this, Nat.mul_comm]
  · right
    refine ⟨hp0, hpW, hnl, ?_, L2, ch2, hg2⟩
    have hcnt2 := hg2.wf.cnt
    have := hg2.liveBound (k := k) (by omega)
    simp only [List.length_cons] at this
    omega

/-- State after `m` successive `Alloc` calls on a new pool with block budget `k`: the number of
live pointers is `m`, capped at `k * u`. -/
theorem allocs_state {addr : Nat → Nat} {sz u k : Nat} (hlay : Layout addr sz u k)
    (hu : 0 < u) (hk : 0 < k) : ∀ m : Nat,
    ∃ mp live L ch, (New addr sz u k).run addr [] (List.replicate m Call.alloc) =
        some (mp, live) ∧
      Good addr sz u mp L ch live ∧ mp.maxBlockCnt = (k : Int) ∧ mp.nodes.length ≤ k + 3 ∧
      live.length = min m (k * u)
  | 0 => by
    obtain ⟨ch, hg⟩ := Good.ofNewPool addr (k : Int) hlay.stride (hlay.fits 0 hk) hu
    refine ⟨_, [], newLists, ch, rfl, hg, rfl, ?_, ?_⟩
    · rw [New_length]; omega
    · simp
  | m + 1 => by
    obtain ⟨mp, live, L, ch, hrun, hg, hmax, hb, hlen⟩ := allocs_state hlay hu hk m
    obtain ⟨mp2, p, hal, hmax2, hb2, hcase⟩ := hg.Alloc_capped hlay hu hk hmax hb
    have hrun2 : (New addr sz u k).run addr [] (List.replicate (m + 1) Call.alloc) =
        some (mp2, if p = 0 then live else p :: live) := by
      rw [List.replicate_succ', run_append, hrun]
      simp only [Option.bind, MemoPool.run, MemoPool.call, hal]
    rcases hcase with ⟨hp0, hmp, hfull⟩ | ⟨hp0, _, _, hlt, L2, ch2, hg2⟩
    · refine ⟨mp2, live, L, ch, ?_, hmp ▸ hg, hmax2, hb2, ?_⟩
      · rw [hrun2, if_pos hp0]
      · rw [hfull] at hlen
        rw [hfull]
        omega
    · refine ⟨mp2, p :: live, L2, ch2, ?_, hg2, hmax2, hb2, ?_⟩
      · rw [hrun2, if_neg hp0]
      · simp only [List.length_cons]
        omega

end Memopool

/-! ## Sharded pools -/
namespace Memopool

theorem getD_set_pool (l : List MemoPool) (i j : Nat) (a : MemoPool) :
    (l.set i a).getD j default = if i = j ∧ i < l.length then a else l.getD j default := by
  by_cases hij : i = j
  · subst hij
    by_cases hi : i < l.length
    · simp [List.getD_eq_getElem?_getD, List.getElem?_set, hi]
    · have : l.set i a = l := List.set_eq_of_length_le (by omega)
      simp [this, hi]
  · simp [List.getD_eq_getElem?_getD, List.getElem?_set, hij]

theorem set_getD_pool_self (l : List MemoPool) (i : Nat) : l.set i (l.getD i default) = l := by
  by_cases hi : i < l.length
  · apply List.ext_getElem?
    intro n
    rw [List.getElem?_set]
    split
    · next hin =>
      subst hin
      simp [hi, List.getD_eq_getElem?_getD]
    · rfl
  · exact List.set_eq_of_length_le (by omega)

theorem PoolsWF.mono {addrs : Nat → Nat → Nat} {saddr : Nat → Nat} {sz ul us n b c : Nat}
    {ps : Pools} (h : PoolsWF addrs saddr sz ul us n b ps) (hbc : b ≤ c) :
    PoolsWF addrs saddr sz ul us n c ps :=
  ⟨h.count, h.locals, fun i hi => by have := h.localsLen i hi; omega, h.shared,
    by have := h.sharedLen; omega⟩

/-- The sharded pool that `NewParallelPools` returns is well formed. -/
theorem PoolsWF.atNewPools (addrs : Nat → Nat → Nat) (saddr : Nat → Nat) {sz ul us : Nat} (n : Nat)
    (kl ks : Int) (hul : 0 < ul) (hus : 0 < us) (hst : sz + intSize < W)
    (hfl : ∀ i, i < n → addrs i 0 + ul * (sz + intSize) < W)
    (hfs : saddr 0 + us * (sz + intSize) < W) :
    ∃ ps, NewParallelPools addrs saddr n sz ul kl us ks = some ps ∧
      PoolsWF addrs saddr sz ul us n 1 ps := by
  unfold NewParallelPools
  rw [if_neg (by omega)]
  refine ⟨_, rfl, ?_⟩
  have hget : ∀ i, i < n →
      ((List.range (n : Int).toNat).map (fun i => New (addrs i) sz ul kl)).getD i default =
        New (addrs i) sz ul kl := by
    intro i hi
    simp [List.getD_eq_getElem?_getD, List.getElem?_map, List.getElem?_range, hi]
  refine ⟨by simp, ?_, ?_, ⟨newLists, WF.ofNew saddr ks hst hfs hus⟩, ?_⟩
  · intro i hi
    show ∃ L, WF (addrs i) sz ul
      (((List.range (n : Int).toNat).map (fun i => New (addrs i) sz ul kl)).getD i default) L
    rw [hget i hi]
    exact ⟨newLists, WF.ofNew (addrs i) kl hst (hfl i hi) hul⟩
  · intro i hi
    show (((List.range (n : Int).toNat).map (fun i => New (addrs i) sz ul kl)).getD i
      default).nodes.length ≤ 1 + 3
    rw [hget i hi, New_length]
  · show (New saddr sz us ks).nodes.length ≤ 1 + 3
    rw [New_length]

/-- `Pools.Alloc` on a valid shard of a well-formed sharded pool: both the local and the shared
pool return, the result is the local pointer when that is not nil and the shared one otherwise,
and only the local pool of the shard and, in the second case, the shared pool change. -/
theorem PoolsWF.allocPools {addrs : Nat → Nat → Nat} {saddr : Nat → Nat} {sz ul us n b N : Nat}
    {ps : Pools} (h : PoolsWF addrs saddr sz ul us n b ps) (hul : 0 < ul) (hus : 0 < us)
    (hst : sz + intSize < W) (hfl : ∀ i m, i < n → m < N → addrs i m + ul * (sz + intSize) < W)
    (hfs : ∀ m, m < N → saddr m + us * (sz + intSize) < W) (hb : b < N) {s : Nat}
    (hs : s < n) :
    ∃ m p sh q ps2 r, (ps.mps.getD s default).Alloc (addrs s) = some (m, p) ∧
      ps.shared.Alloc saddr = some (sh, q) ∧ ps.Alloc addrs saddr s = some (ps2, r) ∧
      r = (if p ≠ 0 then p else q) ∧ ps2.mps = ps.mps.set s m ∧
      ps2.shared = (if p ≠ 0 then ps.shared else sh) ∧
      PoolsWF addrs saddr sz ul us n (b + 1) ps2 := by
  obtain ⟨L, hwf⟩ := h.locals s hs
  obtain ⟨Ls, hwfs⟩ := h.shared
  have hlen := h.localsLen s hs
  have hlens := h.sharedLen
  obtain ⟨m, p, L2, hal, hwf2, hlen2, _, _, _⟩ :=
    hwf.allocWF hul hst (fun _ => hfl s _ hs (by omega))
  obtain ⟨sh, q, Ls2, hals, hwfs2, hlens2, _, _, _⟩ :=
    hwfs.allocWF hus hst (fun _ => hfs _ (by omega))
  have hcount := h.count
  have hloc : ∀ i, i < n → ∃ L, WF (addrs i) sz ul ((ps.mps.set s m).getD i default) L := by
    intro i hi
    rw [getD_set_pool]
    split
    · next hc => rw [← hc.1]; exact ⟨L2, hwf2⟩
    · exact h.locals i hi
  have hlocLen : ∀ i, i < n → ((ps.mps.set s m).getD i default).nodes.length ≤ b + 1 + 3 := by
    intro i hi
    rw [getD_set_pool]
    split
    · rcases hlen2 with h2 | ⟨_, h2⟩ <;> omega
    · have := h.localsLen i hi; omega
  have hnotlt : ¬ ((s : Int) < 0 ∨ (ps.mps.length : Int) ≤ (s : Int)) := by omega
  have hcall : ps.Alloc addrs saddr s =
      if p ≠ 0 then some ({ ps with mps := ps.mps.set s m }, p)
      else some ({ ps with mps := ps.mps.set s m, shared := sh }, q) := by
    unfold Pools.Alloc
    rw [if_neg hnotlt]
    simp only [Int.toNat_ofNat, hal]
    split
    · rfl
    · simp only [hals]
  by_cases hp : p ≠ 0
  · refine ⟨m, p, sh, q, { ps with mps := ps.mps.set s m }, p, hal, hals,
      by rw [hcall, if_pos hp], by rw [if_pos hp], rfl, by rw [if_pos hp], ?_⟩
    exact ⟨by simp [hcount], hloc, hlocLen, ⟨Ls, hwfs⟩, by
      show ps.shared.nodes.length ≤ b + 1 + 3
      omega⟩
  · refine ⟨m, p, sh, q, { ps with mps := ps.mps.set s m, shared := sh }, q, hal, hals,
      by rw [hcall, if_neg hp], by rw [if_neg hp], rfl, by rw [if_neg hp], ?_⟩
    exact ⟨by simp [hcount], hloc, hlocLen, ⟨Ls2, hwfs2⟩, by
      show sh.nodes.length ≤ b + 1 + 3
      rcases hlens2 with h2 | ⟨_, h2⟩ <;> omega⟩

/-- `Pools.Free` on a valid shard of a well-formed sharded pool: both the local and the shared
pool return, and the result is true when the local pool or else the shared pool returns true. -/
theorem PoolsWF.freePools {addrs : Nat → Nat → Nat} {saddr : Nat → Nat} {sz ul us n b : Nat}
    {ps : Pools} (h : PoolsWF addrs saddr sz ul us n b ps) {s : Nat} (hs : s < n) (pt : Nat) :
    ∃ m lr sh sr ps2, (ps.mps.getD s default).Free pt = some (m, lr) ∧
      ps.shared.Free pt = some (sh, sr) ∧ ps.Free s pt = some (ps2, lr || sr) ∧
      ps2.mps = ps.mps.set s m ∧ ps2.shared = (if lr then ps.shared else sh) ∧
      ps2.max = ps.max ∧ PoolsWF addrs saddr sz ul us n b ps2 := by
  obtain ⟨L, hwf⟩ := h.locals s hs
  obtain ⟨Ls, hwfs⟩ := h.shared
  have hlen := h.localsLen s hs
  have hlens := h.sharedLen
  obtain ⟨m, lr, L2, hfr, hwf2, hlen2, _, _⟩ := hwf.freeWF pt
  obtain ⟨sh, sr, Ls2, hfrs, hwfs2, hlens2, _, _⟩ := hwfs.freeWF pt
  have hcount := h.count
  have hloc : ∀ i, i < n → ∃ L, WF (addrs i) sz ul ((ps.mps.set s m).getD i default) L := by
    intro i hi
    rw [getD_set_pool]
    split
    · next hc => rw [← hc.1]; exact ⟨L2, hwf2⟩
    · exact h.locals i hi
  have hlocLen : ∀ i, i < n → ((ps.mps.set s m).getD i default).nodes.length ≤ b + 3 := by
    intro i hi
    rw [getD_set_pool]
    split
    · omega
    · exact h.localsLen i hi
  have hnotlt : ¬ ((s : Int) < 0 ∨ (ps.mps.length : Int) ≤ (s : Int)) := by omega
  have hcall : ps.Free s pt =
      if lr then some ({ ps with mps := ps.mps.set s m }, true)
      else some ({ ps with mps := ps.mps.set s m, shared := sh }, sr) := by
    unfold Pools.Free
    rw [if_neg hnotlt]
    simp only [Int.toNat_ofNat, hfr]
    split
    · rfl
    · simp only [hfrs]
  cases lr with
  | true =>
    refine ⟨m, true, sh, sr, { ps with mps := ps.mps.set s m }, hfr, hfrs, by rw [hcall]; rfl,
      rfl, rfl, rfl, ?_⟩
    exact ⟨by simp [hcount], hloc, hlocLen, ⟨Ls, hwfs⟩, hlens⟩
  | false =>
    refine ⟨m, false, sh, sr, { ps with mps := ps.mps.set s m, shared := sh }, hfr, hfrs,
      by rw [hcall]; rfl, rfl, rfl, rfl, ?_⟩
    exact ⟨by simp [hcount], hloc, hlocLen, ⟨Ls2, hwfs2⟩, by
      show sh.nodes.length ≤ b + 3
      omega⟩

/-- Every sequence of calls on valid shards runs to its end and leaves the sharded pool well
formed. -/
theorem PoolsWF.runPools {addrs : Nat → Nat → Nat} {saddr : Nat → Nat} {sz ul us n N : Nat}
    (hul : 0 < ul) (hus : 0 < us) (hst : sz + intSize < W)
    (hfl : ∀ i m, i < n → m < N → addrs i m + ul * (sz + intSize) < W)
    (hfs : ∀ m, m < N → saddr m + us * (sz + intSize) < W) :
    ∀ (calls : List PCall) (b : Nat) (ps : Pools), PoolsWF addrs saddr sz ul us n b ps →
    b + calls.length ≤ N → (∀ c, c ∈ calls → 0 ≤ c.shard ∧ c.shard < n) →
    ∃ ps2, ps.run addrs saddr calls = some ps2 ∧
      PoolsWF addrs saddr sz ul us n (b + calls.length) ps2
  | [], b, ps, h, _, _ => ⟨ps, rfl, h⟩
  | PCall.alloc s :: cs, b, ps, h, hN, hv => by
    have hsv := hv (PCall.alloc s) (List.mem_cons_self _ _)
    simp only [PCall.shard] at hsv
    obtain ⟨t, ht⟩ : ∃ t : Nat, s = t := ⟨s.toNat, by omega⟩
    subst ht
    simp only [List.length_cons] at hN
    obtain ⟨_, _, _, _, ps1, r, _, _, hcall, _, _, _, h1⟩ :=
      h.allocPools hul hus hst hfl hfs (N := N) (by omega) (s := t) (by omega)
    obtain ⟨ps2, hrun, h2⟩ := PoolsWF.runPools hul hus hst hfl hfs cs (b + 1) ps1 h1 (by omega)
      (fun c hc => hv c (List.mem_cons_of_mem _ hc))
    refine ⟨ps2, ?_, ?_⟩
    · simp only [Pools.run, Pools.call, hcall, Option.map]
      exact hrun
    · simp only [List.length_cons]
      have e : b + (cs.length + 1) = b + 1 + cs.length := by omega
      rw [e]; exact h2
  | PCall.free s pt :: cs, b, ps, h, hN, hv => by
    have hsv := hv (PCall.free s pt) (List.mem_cons_self _ _)
    simp only [PCall.shard] at hsv
    obtain ⟨t, ht⟩ : ∃ t : Nat, s = t := ⟨s.toNat, by omega⟩
    subst ht
    simp only [List.length_cons] at hN
    obtain ⟨_, lr, _, sr, ps1, _, _, hcall, _, _, _, h1⟩ := h.freePools (s := t) (by omega) pt
    obtain ⟨ps2, hrun, h2⟩ := PoolsWF.runPools hul hus hst hfl hfs cs (b + 1) ps1
      (h1.mono (by omega)) (by omega) (fun c hc => hv c (List.mem_cons_of_mem _ hc))
    refine ⟨ps2, ?_, ?_⟩
    · simp only [Pools.run, Pools.call, hcall, Option.map]
      exact hrun
    · simp only [List.length_cons]
      have e : b + (cs.length + 1) = b + 1 + cs.length := by omega
      rw [e]; exact h2

end Memopool

/-! ## Claims C10, C6, C5, C7 -/
namespace Memopool

/-- Claim C10. On a pool with at least one unit per block, after `New` and any sequence of
`Alloc` and `Free` calls, with any pointer arguments, the run reaches its end, each of the lists
full, partial and empty is without repetition, every created block is linked in exactly one of
them, and a block has free count 0 if and only if it is in the full list. -/
theorem C10_list_membership (addr : Nat → Nat) (sz u n : Nat) (k : Int) (calls : List Call)
    (hu : 1 ≤ u) (hst : sz + intSize < W)
    (hfits : ∀ i, i < n → addr i + u * (sz + intSize) < W)
    (hroom : (0 < k ∧ k ≤ n) ∨ allocCount calls + 1 ≤ n) :
    ∃ mp live, (New addr sz u k).run addr [] calls = some (mp, live) ∧
      (mp.listOf fullId).Nodup ∧ (mp.listOf partialId).Nodup ∧ (mp.listOf emptyId).Nodup ∧
      ∀ i, 3 ≤ i → i < mp.nodes.length →
        ((i ∈ mp.listOf fullId ∧ i ∉ mp.listOf partialId ∧ i ∉ mp.listOf emptyId) ∨
          (i ∉ mp.listOf fullId ∧ i ∈ mp.listOf partialId ∧ i ∉ mp.listOf emptyId) ∨
          (i ∉ mp.listOf fullId ∧ i ∉ mp.listOf partialId ∧ i ∈ mp.listOf emptyId)) ∧
        ((getB mp.nodes i).nFree = 0 ↔ i ∈ mp.listOf fullId) := by
  have hn : 0 < n := by
    rcases hroom with h | h <;> omega
  have hwf0 : WF addr sz u (New addr sz u k) newLists := WF.ofNew addr k hst (hfits 0 hn) hu
  obtain ⟨mp, live, L, hrun, hwf, _, _⟩ :=
    WF.runWF hu hst hfits calls _ [] _ hwf0 (Room.atNew hroom)
  refine ⟨mp, live, hrun, ?_, ?_, ?_, ?_⟩
  · rw [fullId, hwf.listOf (by omega)]; exact hwf.rep.nodup 0 (by omega)
  · rw [partialId, hwf.listOf (by omega)]; exact hwf.rep.nodup 1 (by omega)
  · rw [emptyId, hwf.listOf (by omega)]; exact hwf.rep.nodup 2 (by omega)
  intro i hi3 hil
  simp only [fullId, partialId, emptyId]
  rw [hwf.listOf (s := 0) (by omega), hwf.listOf (s := 1) (by omega),
    hwf.listOf (s := 2) (by omega)]
  have d01 := hwf.rep.disj 0 1 (by omega) (by omega) (by omega) i
  have d02 := hwf.rep.disj 0 2 (by omega) (by omega) (by omega) i
  have d12 := hwf.rep.disj 1 2 (by omega) (by omega) (by omega) i
  obtain ⟨s, hs, his⟩ := hwf.cover i hi3 hil
  have hs3 : s = 0 ∨ s = 1 ∨ s = 2 := by omega
  constructor
  · rcases hs3 with h | h | h <;> subst h
    · exact Or.inl ⟨his, d01 his, d02 his⟩
    · exact Or.inr (Or.inl ⟨fun h0 => d01 h0 his, his, d12 his⟩)
    · exact Or.inr (Or.inr ⟨fun h0 => d02 h0 his, fun h1 => d12 h1 his, his⟩)
  · constructor
    · intro hz
      rcases hs3 with h | h | h <;> subst h
      · exact his
      · have := hwf.part i his; omega
      · have := hwf.empt i his; omega
    · exact hwf.full i

/-- Witness of C10: a pool of two blocks of two units after allocations, a release and a release
of an address that is no unit. -/
theorem C10_list_membership_witness :
    ∃ mp live, (New exampleAddr 16 2 2).run exampleAddr []
        [Call.alloc, Call.alloc, Call.alloc, Call.free 4104, Call.free 77] = some (mp, live) ∧
      (mp.listOf fullId).Nodup ∧ (mp.listOf partialId).Nodup ∧ (mp.listOf emptyId).Nodup ∧
      ∀ i, 3 ≤ i → i < mp.nodes.length →
        ((i ∈ mp.listOf fullId ∧ i ∉ mp.listOf partialId ∧ i ∉ mp.listOf emptyId) ∨
          (i ∉ mp.listOf fullId ∧ i ∈ mp.listOf partialId ∧ i ∉ mp.listOf emptyId) ∨
          (i ∉ mp.listOf fullId ∧ i ∉ mp.listOf partialId ∧ i ∈ mp.listOf emptyId)) ∧
        ((getB mp.nodes i).nFree = 0 ↔ i ∈ mp.listOf fullId) :=
  C10_list_membership exampleAddr 16 2 2 2 _ (by decide) (by decide)
    (by intro i hi; have hW := W_val; unfold exampleAddr intSize; omega)
    (Or.inl ⟨by decide, by decide⟩)

/-- Claim C6. On a pool built with a negative `maxBlockCnt` and at least one unit per block,
after any sequence of `Alloc` and `Free` calls, with any pointer arguments, `Alloc` returns a
non-nil pointer, as long as the address space has a place for the block it may create. -/
theorem C6_unbounded_pool (addr : Nat → Nat) (sz u n : Nat) (k : Int) (calls : List Call)
    (hk : k < 0) (hu : 1 ≤ u) (hst : sz + intSize < W)
    (hfits : ∀ i, i < n → addr i + u * (sz + intSize) < W)
    (hn : allocCount calls + 2 ≤ n) :
    ∃ mp live mp2 p, (New addr sz u k).run addr [] calls = some (mp, live) ∧
      mp.Alloc addr = some (mp2, p) ∧ p ≠ 0 := by
  have hwf0 : WF addr sz u (New addr sz u k) newLists :=
    WF.ofNew addr k hst (hfits 0 (by omega)) hu
  have hlen0 : (New addr sz u k).nodes.length = 4 := New_length _ _ _ _
  obtain ⟨mp, live, L, hrun, hwf, hmax, hlen⟩ :=
    WF.runWF hu hst hfits calls _ [] _ hwf0 (Room.atNew (Or.inr (by omega)))
  have hmaxk : mp.maxBlockCnt = k := hmax
  obtain ⟨mp2, p, L2, hal, _, _, _, hp0, _⟩ :=
    hwf.allocWF hu hst (fun _ => hfits _ (by omega))
  refine ⟨mp, live, mp2, p, hrun, hal, ?_⟩
  intro h0
  have := (hp0 h0).1.2
  omega

/-- Witness of C6: an unbounded pool of one unit per block after two allocations and a
release. -/
theorem C6_unbounded_pool_witness :
    ∃ mp live mp2 p, (New exampleAddr 16 1 (-1)).run exampleAddr []
        [Call.alloc, Call.alloc, Call.free 4104] = some (mp, live) ∧
      mp.Alloc exampleAddr = some (mp2, p) ∧ p ≠ 0 :=
  C6_unbounded_pool exampleAddr 16 1 4 (-1) _ (by decide) (by decide) (by decide)
    (by intro i hi; have hW := W_val; unfold exampleAddr intSize; omega) (by decide)

/-- Claim C5, refuted as stated: on a pool that `New` has just returned, so that `Alloc` has
returned no address at all, `Free` of the payload address of unit 1 of the first block returns
true and raises the free count of the block from 4 to 5. -/
theorem C5_counterexample :
    (getB (New exampleAddr 16 4 1).nodes 3).nFree = 4 ∧
    ((New exampleAddr 16 4 1).Free 4128).map (fun r => (r.2, (getB r.1.nodes 3).nFree)) =
      some (true, 5) := by
  decide

/-- Claim C5, amended. In every pool state reached from `New` by `Alloc` and `Free` calls,
`Free` of an address that is not the payload address of a unit of a created block returns false
and leaves the pool, and so every free count, unchanged. -/
theorem C5_foreign_address_rejected (addr : Nat → Nat) (sz u n : Nat) (k : Int)
    (calls : List Call) (p : Nat) (hu : 1 ≤ u) (hst : sz + intSize < W)
    (hfits : ∀ i, i < n → addr i + u * (sz + intSize) < W)
    (hroom : (0 < k ∧ k ≤ n) ∨ allocCount calls + 1 ≤ n) (hp : p < W) :
    ∃ mp live, (New addr sz u k).run addr [] calls = some (mp, live) ∧
      ((∀ i j, i + 3 < mp.nodes.length → j < u → p ≠ unitPtr addr sz i j) →
        mp.Free p = some (mp, false)) := by
  have hn : 0 < n := by
    rcases hroom with h | h <;> omega
  have hwf0 : WF addr sz u (New addr sz u k) newLists := WF.ofNew addr k hst (hfits 0 hn) hu
  obtain ⟨mp, live, L, hrun, hwf, _, _⟩ :=
    WF.runWF hu hst hfits calls _ [] _ hwf0 (Room.atNew hroom)
  exact ⟨mp, live, hrun, fun hfor => Free_foreign hwf hp hfor⟩

/-- Witness of C5 amended: the address 5000 is no payload address of a unit of the pool, and
`Free` rejects it after two allocations. -/
theorem C5_foreign_address_rejected_witness :
    ∃ mp live, (New exampleAddr 16 4 1).run exampleAddr [] [Call.alloc, Call.alloc] =
        some (mp, live) ∧ mp.Free 5000 = some (mp, false) := by
  obtain ⟨mp, live, hrun, h⟩ :=
    C5_foreign_address_rejected exampleAddr 16 4 1 1 [Call.alloc, Call.alloc] 5000 (by decide)
      (by decide) (by intro i hi; have hW := W_val; unfold exampleAddr intSize; omega)
      (Or.inl ⟨by decide, by decide⟩) (by decide)
  refine ⟨mp, live, hrun, h ?_⟩
  intro i j _ hj
  unfold unitPtr exampleAddr intSize
  omega

/-- Claim C7, at its failing input: on `New(16, 1, 0)` after one `Alloc` the partial and empty
lists are empty and `blockCnt = 1 >= maxBlockCnt = 0`, yet the next `Alloc` returns the non-nil
pointer 8200 and creates a second block. -/
theorem C7_zero_budget_not_enforced :
    ((New exampleAddr 16 1 0).Alloc exampleAddr).map
        (fun r => (r.1.listOf partialId, r.1.listOf emptyId, r.1.blockCnt, r.1.maxBlockCnt)) =
      some ([], [], 1, 0) ∧
    ((New exampleAddr 16 1 0).Alloc exampleAddr).bind
        (fun r => (r.1.Alloc exampleAddr).map
          (fun q => (q.2, q.1.blockCnt, q.1.nodes.length))) =
      some (8200, 2, 5) := by
  decide

end Memopool

/-! ## Claims C1, C2, C3 -/
namespace Memopool

/-- The example placement is a layout for blocks of at most 4096 bytes. -/
theorem exampleLayout (sz u n : Nat) (hsize : u * (sz + intSize) ≤ 4096) (hsz : sz ≤ 4096)
    (hn : n ≤ 1000000) : Layout exampleAddr sz u n := by
  have hW := W_val
  have hi8 : intSize = 8 := rfl
  refine ⟨by omega, ?_, ?_⟩
  · intro i hi
    unfold exampleAddr
    omega
  · intro i j hi hj hij
    unfold exampleAddr
    omega

theorem allocCount_append : ∀ (cs ds : List Call),
    allocCount (cs ++ ds) = allocCount cs + allocCount ds
  | [], ds => by simp [allocCount]
  | Call.alloc :: cs, ds => by
    have ih := allocCount_append cs ds
    show allocCount (cs ++ ds) + 1 = allocCount cs + 1 + allocCount ds
    omega
  | Call.free _ :: cs, ds => by
    have ih := allocCount_append cs ds
    show allocCount (cs ++ ds) = allocCount cs + allocCount ds
    exact ih

/-- Claim C1. On a pool `New(unitSize, u, k)` with `k >= 1` and `u >= 1`, whose blocks the
runtime places disjointly below `2 ^ 64`, after `m` `Alloc` calls and no `Free` the next `Alloc`
returns a non-nil pointer if `m < k * u` and nil if `m >= k * u`: the first `k * u` calls succeed
and every later one returns nil. -/
theorem C1_capacity_bound (addr : Nat → Nat) (sz u k m : Nat) (hk : 1 ≤ k) (hu : 1 ≤ u)
    (hlay : Layout addr sz u k) :
    ∃ mp live mp2 p, (New addr sz u k).run addr [] (List.replicate m Call.alloc) =
        some (mp, live) ∧
      mp.Alloc addr = some (mp2, p) ∧ (m < k * u → p ≠ 0) ∧ (k * u ≤ m → p = 0) := by
  obtain ⟨mp, live, L, ch, hrun, hg, hmax, hb, hlen⟩ := allocs_state hlay hu hk m
  obtain ⟨mp2, p, hal, _, _, hcase⟩ := hg.Alloc_capped hlay hu hk hmax hb
  refine ⟨mp, live, mp2, p, hrun, hal, ?_, ?_⟩
  · intro hm
    rcases hcase with ⟨_, _, hfull⟩ | ⟨hp0, _⟩
    · omega
    · exact hp0
  · intro hm
    rcases hcase with ⟨hp0, _⟩ | ⟨_, _, _, hlt, _⟩
    · exact hp0
    · omega

/-- Witness of C1: the pool of the test, 10 blocks of 100 units; the allocation after 999
allocations returns a non-nil pointer, the one after 1000 allocations returns nil. -/
theorem C1_capacity_bound_witness :
    (∃ mp live mp2 p, (New exampleAddr (24 : Nat) (100 : Nat) (10 : Nat)).run exampleAddr []
        (List.replicate 999 Call.alloc) = some (mp, live) ∧
      mp.Alloc exampleAddr = some (mp2, p) ∧ p ≠ 0) ∧
    (∃ mp live mp2, (New exampleAddr (24 : Nat) (100 : Nat) (10 : Nat)).run exampleAddr []
        (List.replicate 1000 Call.alloc) = some (mp, live) ∧
      mp.Alloc exampleAddr = some (mp2, 0)) := by
  constructor
  · obtain ⟨mp, live, mp2, p, h1, h2, h3, _⟩ :=
      C1_capacity_bound exampleAddr 24 100 10 999 (by decide) (by decide)
        (exampleLayout 24 100 10 (by decide) (by decide) (by decide))
    exact ⟨mp, live, mp2, p, h1, h2, h3 (by decide)⟩
  · obtain ⟨mp, live, mp2, p, h1, h2, _, h4⟩ :=
      C1_capacity_bound exampleAddr 24 100 10 1000 (by decide) (by decide)
        (exampleLayout 24 100 10 (by decide) (by decide) (by decide))
    have hp := h4 (by decide)
    subst hp
    exact ⟨mp, live, mp2, h1, h2⟩

/-- Claim C2. On a pool with at least one unit per block whose blocks occupy disjoint address
ranges, after any sequence of `Alloc` and `Free` calls in which each `Free` is given a live
pointer, the live pointers are distinct and any two of them are at least
`unitSize + headerSize` bytes apart; a non-nil pointer that the next `Alloc` returns is not
live before the call and is that far from every live pointer. -/
theorem C2_no_aliasing (addr : Nat → Nat) (sz u n : Nat) (k : Int) (calls : List Call)
    (hu : 1 ≤ u) (hlay : Layout addr sz u n)
    (hroom : (0 < k ∧ k ≤ n) ∨ allocCount calls + 2 ≤ n)
    (hd : Disciplined addr (New addr sz u k) [] calls) :
    ∃ mp live mp2 r, (New addr sz u k).run addr [] calls = some (mp, live) ∧ live.Nodup ∧
      (∀ p q, p ∈ live → q ∈ live → p ≠ q →
        p + (sz + intSize) ≤ q ∨ q + (sz + intSize) ≤ p) ∧
      mp.Alloc addr = some (mp2, r) ∧
      (r ≠ 0 → r ∉ live ∧
        ∀ q, q ∈ live → r + (sz + intSize) ≤ q ∨ q + (sz + intSize) ≤ r) := by
  have hn : 0 < n := by
    rcases hroom with h | h <;> omega
  obtain ⟨ch0, hg0⟩ := Good.ofNewPool addr k hlay.stride (hlay.fits 0 hn) hu
  have hroom0 : Room (New addr sz u k) n (calls ++ [Call.alloc]) := by
    rcases hroom with h | h
    · exact Room.atNew (Or.inl h)
    · right
      rw [New_length]
      have : allocCount (calls ++ [Call.alloc]) = allocCount calls + 1 :=
        allocCount_append calls [Call.alloc]
      omega
  obtain ⟨mp, live, L, ch, hrun, hg, hroom1, _⟩ :=
    Good.runGood hlay hu calls [Call.alloc] _ [] _ ch0 hg0 hroom0 hd
  have hapart : ∀ (mp : MemoPool) (live : List Nat) (L ch : Nat → List Nat),
      Good addr sz u mp L ch live → mp.nodes.length ≤ n + 3 →
      ∀ p q, p ∈ live → q ∈ live → p ≠ q →
        p + (sz + intSize) ≤ q ∨ q + (sz + intSize) ≤ p := by
    intro mp live L ch hg hb p q hp hq hpq
    obtain ⟨i, j, hi3, hil, hj, _, hpe⟩ := hg.liveUnit p hp
    obtain ⟨i2, j2, hi23, hi2l, hj2, _, hqe⟩ := hg.liveUnit q hq
    rw [hpe, hqe]
    apply unitPtr_apart hlay (by omega) (by omega) hj hj2
    by_contra hc
    have h1 : i - 3 = i2 - 3 := by
      by_contra h; exact hc (Or.inl h)
    have h2 : j = j2 := by
      by_contra h; exact hc (Or.inr h)
    apply hpq
    rw [hpe, hqe, h1, h2]
  have hbound := Room.bound hg.wf hroom1
  obtain ⟨mp2, r, hal, hcase, hlen, _⟩ :=
    hg.allocGood hlay hu hbound (Room.index hg.wf hroom1)
  refine ⟨mp, live, mp2, r, hrun, hg.liveNodup, hapart mp live L ch hg hbound, hal, ?_⟩
  intro hr0
  rcases hcase with ⟨hp0, _⟩ | ⟨_, _, hnl, L2, ch2, hg2⟩
  · exact absurd hp0 hr0
  · refine ⟨hnl, ?_⟩
    intro q hq
    have hb2 : mp2.nodes.length ≤ n + 3 := by
      have := Room.index hg.wf hroom1
      rcases hlen with h | ⟨hov, h⟩
      · omega
      · have := this hov; omega
    exact hapart mp2 (r :: live) L2 ch2 hg2 hb2 r q (List.mem_cons_self _ _)
      (List.mem_cons_of_mem _ hq) (fun e => hnl (e ▸ hq))

/-- Witness of C2: three allocations and the release of the first pointer on a pool of two
blocks of two units. -/
theorem C2_no_aliasing_witness :
    ∃ mp live mp2 r, (New exampleAddr (16 : Nat) (2 : Nat) 2).run exampleAddr []
        [Call.alloc, Call.alloc, Call.alloc, Call.free 4104] = some (mp, live) ∧ live.Nodup ∧
      (∀ p q, p ∈ live → q ∈ live → p ≠ q →
        p + (16 + intSize) ≤ q ∨ q + (16 + intSize) ≤ p) ∧
      mp.Alloc exampleAddr = some (mp2, r) ∧
      (r ≠ 0 → r ∉ live ∧
        ∀ q, q ∈ live → r + (16 + intSize) ≤ q ∨ q + (16 + intSize) ≤ r) :=
  C2_no_aliasing exampleAddr 16 2 2 2 _ (by decide)
    (exampleLayout 16 2 2 (by decide) (by decide) (by decide))
    (Or.inl ⟨by decide, by decide⟩) (by decide)

/-- Claim C3. On a pool with at least one unit per block whose blocks occupy disjoint address
ranges, after any sequence of `Alloc` and `Free` calls in which each `Free` is given a live
pointer, `Free` of any live pointer returns true; the pointer is the payload address of a unit
of a block that is in the partial or the full list and not in the empty list. -/
theorem C3_free_live_succeeds (addr : Nat → Nat) (sz u n : Nat) (k : Int) (calls : List Call)
    (hu : 1 ≤ u) (hlay : Layout addr sz u n)
    (hroom : (0 < k ∧ k ≤ n) ∨ allocCount calls + 1 ≤ n)
    (hd : Disciplined addr (New addr sz u k) [] calls) :
    ∃ mp live, (New addr sz u k).run addr [] calls = some (mp, live) ∧
      ∀ p, p ∈ live →
        (∃ mp2, mp.Free p = some (mp2, true)) ∧
        ∃ i j, 3 ≤ i ∧ i < mp.nodes.length ∧ j < u ∧ p = unitPtr addr sz (i - 3) j ∧
          (i ∈ mp.listOf fullId ∨ i ∈ mp.listOf partialId) ∧ i ∉ mp.listOf emptyId := by
  have hn : 0 < n := by
    rcases hroom with h | h <;> omega
  obtain ⟨ch0, hg0⟩ := Good.ofNewPool addr k hlay.stride (hlay.fits 0 hn) hu
  have hroom0 : Room (New addr sz u k) n (calls ++ []) := by
    rw [List.append_nil]; exact Room.atNew hroom
  obtain ⟨mp, live, L, ch, hrun, hg, hroom1, _⟩ :=
    Good.runGood hlay hu calls [] _ [] _ ch0 hg0 hroom0 hd
  refine ⟨mp, live, hrun, ?_⟩
  intro p hp
  obtain ⟨mp2, L2, ch2, i, j, s, hfr, _, _, _, _, hi3, hil, hj, hpe, hmem, hnot, _⟩ :=
    hg.freeGood hlay (Room.bound hg.wf hroom1) hp
  refine ⟨⟨mp2, hfr⟩, i, j, hi3, hil, hj, hpe, ?_, ?_⟩
  · simp only [fullId, partialId]
    rw [hg.wf.listOf (s := 0) (by omega), hg.wf.listOf (s := 1) (by omega)]
    exact hmem
  · simp only [emptyId]
    rw [hg.wf.listOf (s := 2) (by omega)]
    exact hnot

/-- Witness of C3: three allocations and a release on a pool of two blocks of two units. -/
theorem C3_free_live_succeeds_witness :
    ∃ mp live, (New exampleAddr (16 : Nat) (2 : Nat) 2).run exampleAddr []
        [Call.alloc, Call.alloc, Call.alloc, Call.free 4128] = some (mp, live) ∧
      ∀ p, p ∈ live →
        (∃ mp2, mp.Free p = some (mp2, true)) ∧
        ∃ i j, 3 ≤ i ∧ i < mp.nodes.length ∧ j < 2 ∧ p = unitPtr exampleAddr 16 (i - 3) j ∧
          (i ∈ mp.listOf fullId ∨ i ∈ mp.listOf partialId) ∧ i ∉ mp.listOf emptyId :=
  C3_free_live_succeeds exampleAddr 16 2 2 2 _ (by decide)
    (exampleLayout 16 2 2 (by decide) (by decide) (by decide))
    (Or.inl ⟨by decide, by decide⟩) (by decide)

end Memopool

/-! ## Claim C4 -/
namespace Memopool

/-- Claim C4. On a pool `New(unitSize, u, k)` with `k >= 1` and `u >= 1` that a sequence of
calls, each `Free` given a live pointer, has brought to `k * u` live pointers, `Alloc` returns
nil, and for every live pointer `p`: `Free(p)` returns true, the next `Alloc` returns `p`, which
is not nil, and the `Alloc` after that returns nil again. -/
theorem C4_free_then_realloc (addr : Nat → Nat) (sz u k : Nat) (calls : List Call)
    (hk : 1 ≤ k) (hu : 1 ≤ u) (hlay : Layout addr sz u k)
    (hd : Disciplined addr (New addr sz u k) [] calls)
    (hfull : ((New addr sz u k).run addr [] calls).map (fun r => r.2.length) = some (k * u)) :
    ∃ mp live, (New addr sz u k).run addr [] calls = some (mp, live) ∧
      live.length = k * u ∧ mp.Alloc addr = some (mp, 0) ∧
      ∀ p, p ∈ live → ∃ mp1 mp2, mp.Free p = some (mp1, true) ∧
        mp1.Alloc addr = some (mp2, p) ∧ p ≠ 0 ∧ mp2.Alloc addr = some (mp2, 0) := by
  obtain ⟨ch0, hg0⟩ := Good.ofNewPool addr (k : Int) hlay.stride (hlay.fits 0 hk) hu
  have hroom0 : Room (New addr sz u k) k (calls ++ []) := by
    rw [List.append_nil]
    exact Room.atNew (Or.inl ⟨by omega, le_refl _⟩)
  obtain ⟨mp, live, L, ch, hrun, hg, hroom1, hmax⟩ :=
    Good.runGood hlay hu calls [] _ [] _ ch0 hg0 hroom0 hd
  have hmaxk : mp.maxBlockCnt = (k : Int) := hmax
  have hb := Room.bound hg.wf hroom1
  have hlen : live.length = k * u := by
    rw [hrun] at hfull
    simpa using hfull
  have hcntk : mp.blockCnt ≤ (k : Int) := by
    have := hg.wf.cnt
    have := hg.wf.len3
    omega
  obtain ⟨hL1, hL2, _⟩ := hg.exhausted hu hcntk hlen
  refine ⟨mp, live, hrun, hlen, ?_, ?_⟩
  · obtain ⟨mp2, p, hal, _, _, hcase⟩ := hg.Alloc_capped hlay hu hk hmaxk hb
    rcases hcase with ⟨hp0, hmp, _⟩ | ⟨_, _, _, hlt, _⟩
    · rw [hal, hp0, hmp]
    · omega
  · intro p hp
    obtain ⟨mp1, L1, ch1, i, j, s, hfr, hg1, hlen1, hmax1, _, hi3, hil, hj, hpe, _, _, hs, hL1e,
      hfirst⟩ := hg.freeGood hlay hb hp
    have hhead : (L1 1).head? = some i ∨ (L1 1 = [] ∧ (L1 2).head? = some i) := by
      rw [hL1e]
      rcases hs with h | h <;> subst h
      · left; rw [moved_nil_head]; rfl
      · right
        constructor
        · rw [moved_other (by omega), hL1]; rfl
        · rw [moved_nil_head]; rfl
    obtain ⟨mp2, hal⟩ := Alloc_head hg1.wf hu hhead
    rw [hfirst, ← hpe] at hal
    have hp0 : p ≠ 0 := by
      have := (unitPtr_pos_lt (hg.wf.blocks i hi3 hil).fits hj).1
      omega
    have hmax1k : mp1.maxBlockCnt = (k : Int) := by rw [hmax1, hmaxk]
    obtain ⟨mp2b, q, halb, hmax2, hb2, hcase⟩ :=
      hg1.Alloc_capped hlay hu hk hmax1k (by omega)
    rw [hal] at halb
    have hq : q = p := by
      have := congrArg (fun r => r.map (fun x => x.2)) halb
      simpa using this.symm
    have hm : mp2b = mp2 := by
      have := congrArg (fun r => r.map (fun x => x.1)) halb
      simpa using this.symm
    subst hq hm
    refine ⟨mp1, mp2b, hfr, hal, hp0, ?_⟩
    rcases hcase with ⟨h0, _⟩ | ⟨_, _, _, _, L2, ch2, hg2⟩
    · exact absurd h0 hp0
    · obtain ⟨mp3, r, hal3, _, _, hcase3⟩ := hg2.Alloc_capped hlay hu hk hmax2 hb2
      have hl : (q :: live.erase q).length = k * u := by
        have hpos : 0 < live.length := List.length_pos_of_mem hp
        simp only [List.length_cons, List.length_erase_of_mem hp]
        omega
      rcases hcase3 with ⟨hr0, hmp3, _⟩ | ⟨_, _, _, hlt, _⟩
      · rw [hal3, hr0, hmp3]
      · omega

/-- Witness of C4: a pool of one block of two units, allocated to exhaustion. -/
theorem C4_free_then_realloc_witness :
    ∃ mp live, (New exampleAddr (16 : Nat) (2 : Nat) (1 : Nat)).run exampleAddr []
        [Call.alloc, Call.alloc] = some (mp, live) ∧
      live.length = 1 * 2 ∧ mp.Alloc exampleAddr = some (mp, 0) ∧
      ∀ p, p ∈ live → ∃ mp1 mp2, mp.Free p = some (mp1, true) ∧
        mp1.Alloc exampleAddr = some (mp2, p) ∧ p ≠ 0 ∧
        mp2.Alloc exampleAddr = some (mp2, 0) :=
  C4_free_then_realloc exampleAddr 16 2 1 [Call.alloc, Call.alloc] (by decide) (by decide)
    (exampleLayout 16 2 1 (by decide) (by decide) (by decide)) (by decide) (by decide)

end Memopool

/-! ## Claims C8, C9 -/
namespace Memopool

/-- Claim C8. On a sharded pool reached from `NewParallelPools` by calls on valid shards,
`Pools.Alloc(s)` on a valid shard `s` returns the `Alloc` result of local pool `s` when that is
not nil and otherwise the `Alloc` result of the shared pool; so it returns nil exactly when
both return nil, it replaces local pool `s` by its state after `Alloc`, touches the shared pool
only in the second case and changes no other local pool. -/
theorem C8_sharded_alloc (addrs : Nat → Nat → Nat) (saddr : Nat → Nat) (n sz ul us : Nat)
    (kl ks : Int) (calls : List PCall) (s : Nat) (hul : 1 ≤ ul) (hus : 1 ≤ us)
    (hst : sz + intSize < W)
    (hfl : ∀ i m, i < n → m < calls.length + 2 → addrs i m + ul * (sz + intSize) < W)
    (hfs : ∀ m, m < calls.length + 2 → saddr m + us * (sz + intSize) < W)
    (hvalid : ∀ c, c ∈ calls → 0 ≤ c.shard ∧ c.shard < n) (hs : s < n) :
    ∃ ps, (NewParallelPools addrs saddr n sz ul kl us ks).bind
        (fun ps0 => ps0.run addrs saddr calls) = some ps ∧
      ∃ m p sh q ps2 r, (ps.mps.getD s default).Alloc (addrs s) = some (m, p) ∧
        ps.shared.Alloc saddr = some (sh, q) ∧ ps.Alloc addrs saddr s = some (ps2, r) ∧
        r = (if p ≠ 0 then p else q) ∧ (r = 0 ↔ p = 0 ∧ q = 0) ∧
        ps2.mps.getD s default = m ∧
        (∀ t, t ≠ s → ps2.mps.getD t default = ps.mps.getD t default) ∧
        ps2.shared = (if p ≠ 0 then ps.shared else sh) := by
  obtain ⟨ps0, hnew, h0⟩ := PoolsWF.atNewPools addrs saddr n kl ks hul hus hst
    (fun i hi => hfl i 0 hi (by omega)) (hfs 0 (by omega))
  obtain ⟨ps, hrun, h1⟩ := PoolsWF.runPools hul hus hst hfl hfs calls 1 ps0 h0 (by omega) hvalid
  refine ⟨ps, by rw [hnew]; exact hrun, ?_⟩
  obtain ⟨m, p, sh, q, ps2, r, hal, hals, hcall, hr, hmps, hsh, _⟩ :=
    h1.allocPools hul hus hst hfl hfs (N := calls.length + 2) (by omega) hs
  refine ⟨m, p, sh, q, ps2, r, hal, hals, hcall, hr, ?_, ?_, ?_, hsh⟩
  · rw [hr]
    by_cases hp : p ≠ 0
    · rw [if_pos hp]
      constructor
      · intro h; exact absurd h hp
      · intro h; exact h.1
    · rw [if_neg hp]
      have hp0 : p = 0 := by
        by_contra hc; exact hp hc
      constructor
      · intro h; exact ⟨hp0, h⟩
      · intro h; exact h.2
  · rw [hmps, getD_set_pool, if_pos ⟨rfl, by rw [h1.count]; exact hs⟩]
  · intro t ht
    rw [hmps, getD_set_pool, if_neg (fun e => ht e.1.symm)]

/-- Witness of C8, with the scenario of the claim: on `NewParallelPools(2, 8, 1, 1, 1, 1)` the
first `Alloc(0)` returns the unit of local pool 0, the second the unit of the shared pool, the
third nil, and local pool 1 is as `New` left it. -/
theorem C8_sharded_alloc_witness :
    (∃ ps, (NewParallelPools exampleAddrs exampleAddr (2 : Nat) (8 : Nat) (1 : Nat) 1 (1 : Nat)
          1).bind
        (fun ps0 => ps0.run exampleAddrs exampleAddr [PCall.alloc 0, PCall.alloc 0]) = some ps ∧
      ∃ m p sh q ps2 r, (ps.mps.getD 0 default).Alloc (exampleAddrs 0) = some (m, p) ∧
        ps.shared.Alloc exampleAddr = some (sh, q) ∧
        ps.Alloc exampleAddrs exampleAddr (0 : Nat) = some (ps2, r) ∧
        r = (if p ≠ 0 then p else q) ∧ (r = 0 ↔ p = 0 ∧ q = 0) ∧
        ps2.mps.getD 0 default = m ∧
        (∀ t, t ≠ 0 → ps2.mps.getD t default = ps.mps.getD t default) ∧
        ps2.shared = (if p ≠ 0 then ps.shared else sh)) ∧
    ((NewParallelPools exampleAddrs exampleAddr 2 8 1 1 1 1).bind
        (fun ps0 => ps0.Alloc exampleAddrs exampleAddr 0)).map (fun r => r.2) = some 1052680 ∧
    ((NewParallelPools exampleAddrs exampleAddr 2 8 1 1 1 1).bind
        (fun ps0 => (ps0.run exampleAddrs exampleAddr [PCall.alloc 0]).bind
          (fun ps => ps.Alloc exampleAddrs exampleAddr 0))).map (fun r => r.2) = some 4104 ∧
    ((NewParallelPools exampleAddrs exampleAddr 2 8 1 1 1 1).bind
        (fun ps0 => (ps0.run exampleAddrs exampleAddr [PCall.alloc 0, PCall.alloc 0]).bind
          (fun ps => ps.Alloc exampleAddrs exampleAddr 0))).map
        (fun r => (r.2, r.1.mps.getD 1 default)) =
      some (0, New (exampleAddrs 1) 8 1 1) :=
  ⟨C8_sharded_alloc exampleAddrs exampleAddr 2 8 1 1 1 1 [PCall.alloc 0, PCall.alloc 0] 0
      (by decide) (by decide) (by decide)
      (by intro i m hi hm; have hW := W_val; simp only [List.length_cons, List.length_nil] at hm
          unfold exampleAddrs intSize; omega)
      (by intro m hm; have hW := W_val; simp only [List.length_cons, List.length_nil] at hm
          unfold exampleAddr intSize; omega)
      (by decide) (by decide),
    by decide, by decide, by decide⟩

/-- Claim C9. On a sharded pool reached from `NewParallelPools` by calls on valid shards, let
`p` be the payload address of a unit of a block of local pool `t`, as every pointer live in that
pool is, and let the address range of that block be disjoint from the ranges of the blocks of
local pool `s`, which makes `s` another shard than `t`, and of the shared pool. Then `Pools.Free(s, p)` returns false and leaves the
sharded pool unchanged. For every address `q`, `Pools.Free(s, q)` returns true exactly when the
`Free` of local pool `s` or that of the shared pool returns true. -/
theorem C9_shard_mismatch (addrs : Nat → Nat → Nat) (saddr : Nat → Nat) (n sz ul us : Nat)
    (kl ks : Int) (calls : List PCall) (s t i j : Nat) (hul : 1 ≤ ul) (hus : 1 ≤ us)
    (hst : sz + intSize < W)
    (hfl : ∀ i m, i < n → m < calls.length + 2 → addrs i m + ul * (sz + intSize) < W)
    (hfs : ∀ m, m < calls.length + 2 → saddr m + us * (sz + intSize) < W)
    (hvalid : ∀ c, c ∈ calls → 0 ≤ c.shard ∧ c.shard < n) (hs : s < n) (ht : t < n)
    (hi : i < calls.length + 2) (hj : j < ul)
    (hdl : ∀ m, m < calls.length + 2 →
      addrs t i + ul * (sz + intSize) ≤ addrs s m ∨ addrs s m + ul * (sz + intSize) ≤ addrs t i)
    (hds : ∀ m, m < calls.length + 2 →
      addrs t i + ul * (sz + intSize) ≤ saddr m ∨ saddr m + us * (sz + intSize) ≤ addrs t i) :
    ∃ ps, (NewParallelPools addrs saddr n sz ul kl us ks).bind
        (fun ps0 => ps0.run addrs saddr calls) = some ps ∧
      ps.Free s (unitPtr (addrs t) sz i j) = some (ps, false) ∧
      ∀ q, ∃ m lr sh sr ps2, (ps.mps.getD s default).Free q = some (m, lr) ∧
        ps.shared.Free q = some (sh, sr) ∧ ps.Free s q = some (ps2, lr || sr) := by
  obtain ⟨ps0, hnew, h0⟩ := PoolsWF.atNewPools addrs saddr n kl ks hul hus hst
    (fun i hi => hfl i 0 hi (by omega)) (hfs 0 (by omega))
  obtain ⟨ps, hrun, h1⟩ := PoolsWF.runPools hul hus hst hfl hfs calls 1 ps0 h0 (by omega) hvalid
  refine ⟨ps, by rw [hnew]; exact hrun, ?_, ?_⟩
  · obtain ⟨L, hwf⟩ := h1.locals s hs
    obtain ⟨Ls, hwfs⟩ := h1.shared
    have hlen := h1.localsLen s hs
    have hlens := h1.sharedLen
    have hi8 : intSize = 8 := rfl
    have hpW := (unitPtr_pos_lt (hfl t i ht hi) hj).2
    have hm1 : (sz + intSize) * (j + 1) ≤ ul * (sz + intSize) := by
      rw [Nat.mul_comm ul]; exact Nat.mul_le_mul_left _ hj
    have he1 : (sz + intSize) * (j + 1) = (sz + intSize) * j + (sz + intSize) := by ring
    have hloc : (ps.mps.getD s default).Free (unitPtr (addrs t) sz i j) =
        some (ps.mps.getD s default, false) := by
      apply Free_foreign hwf hpW
      intro m j2 hm hj2 he
      have hm2 : (sz + intSize) * (j2 + 1) ≤ ul * (sz + intSize) := by
        rw [Nat.mul_comm ul]; exact Nat.mul_le_mul_left _ hj2
      have he2 : (sz + intSize) * (j2 + 1) = (sz + intSize) * j2 + (sz + intSize) := by ring
      unfold unitPtr at he
      rcases hdl m (by omega) with h | h <;> omega
    have hsh : ps.shared.Free (unitPtr (addrs t) sz i j) = some (ps.shared, false) := by
      apply Free_foreign hwfs hpW
      intro m j2 hm hj2 he
      have hm2 : (sz + intSize) * (j2 + 1) ≤ us * (sz + intSize) := by
        rw [Nat.mul_comm us]; exact Nat.mul_le_mul_left _ hj2
      have he2 : (sz + intSize) * (j2 + 1) = (sz + intSize) * j2 + (sz + intSize) := by ring
      unfold unitPtr at he
      rcases hds m (by omega) with h | h <;> omega
    obtain ⟨m, lr, sh, sr, ps2, hfr, hfrs, hcall, hmps, hshr, hmax, _⟩ :=
      h1.freePools hs (unitPtr (addrs t) sz i j)
    rw [hloc] at hfr
    rw [hsh] at hfrs
    have hm : m = ps.mps.getD s default := by
      have := congrArg (fun r => r.map (fun x => x.1)) hfr
      simpa using this.symm
    have hlr : lr = false := by
      have := congrArg (fun r => r.map (fun x => x.2)) hfr
      simpa using this.symm
    have hshe : sh = ps.shared := by
      have := congrArg (fun r => r.map (fun x => x.1)) hfrs
      simpa using this.symm
    have hsr : sr = false := by
      have := congrArg (fun r => r.map (fun x => x.2)) hfrs
      simpa using this.symm
    subst hlr hsr
    have hps : ps2 = ps := by
      rw [hm, set_getD_pool_self] at hmps
      simp only [Bool.false_eq_true, if_false] at hshr
      rw [hshe] at hshr
      cases ps2
      cases ps
      simp only at hmps hshr hmax
      rw [hmps, hshr, hmax]
    rw [hcall, hps]
    rfl
  · intro q
    obtain ⟨m, lr, sh, sr, ps2, hfr, hfrs, hcall, _⟩ := h1.freePools hs q
    exact ⟨m, lr, sh, sr, ps2, hfr, hfrs, hcall⟩

/-- Witness of C9: after `Alloc(1)` on a sharded pool of two shards, the pointer of shard 1
presented to shard 0. -/
theorem C9_shard_mismatch_witness :
    ∃ ps, (NewParallelPools exampleAddrs exampleAddr (2 : Nat) (8 : Nat) (1 : Nat) 1 (1 : Nat)
          1).bind
        (fun ps0 => ps0.run exampleAddrs exampleAddr [PCall.alloc 1]) = some ps ∧
      ps.Free (0 : Nat) (unitPtr (exampleAddrs 1) 8 0 0) = some (ps, false) ∧
      ∀ q, ∃ m lr sh sr ps2, (ps.mps.getD 0 default).Free q = some (m, lr) ∧
        ps.shared.Free q = some (sh, sr) ∧ ps.Free (0 : Nat) q = some (ps2, lr || sr) :=
  C9_shard_mismatch exampleAddrs exampleAddr 2 8 1 1 1 1 [PCall.alloc 1] 0 1 0 0
    (by decide) (by decide) (by decide)
    (by intro i m hi hm; have hW := W_val; simp only [List.length_cons, List.length_nil] at hm
        unfold exampleAddrs intSize; omega)
    (by intro m hm; have hW := W_val; simp only [List.length_cons, List.length_nil] at hm
        unfold exampleAddr intSize; omega)
    (by decide) (by decide) (by decide) (by decide) (by decide)
    (by intro m hm; simp only [List.length_cons, List.length_nil] at hm
        unfold exampleAddrs intSize; omega)
    (by intro m hm; simp only [List.length_cons, List.length_nil] at hm
        unfold exampleAddrs exampleAddr intSize; omega)

end Memopool

/-! ## Blocks in plain arithmetic -/
namespace Memopool

theorem BlockOK.shape {addr : Nat → Nat} {sz u i : Nat} {b : memoBlock}
    (hb : BlockOK addr sz u i b) : Shape (addr (i - 3)) sz u b :=
  ⟨hb.base, hb.size, hb.stride, hb.endp, hb.strideFits, hb.fits, hb.len⟩

theorem Shape.built (a sz u : Nat) (hsf : sz + intSize < W) (hfit : a + u * (sz + intSize) < W) :
    Shape a sz u (newMemoPool a sz u) := by
  have hmul : u * (sz + intSize) < W := by omega
  refine ⟨rfl, rfl, ?_, ?_, hsf, hfit, ?_⟩
  · show (sz + intSize) % W = sz + intSize
    exact Nat.mod_eq_of_lt hsf
  · show (a + (u * ((sz + intSize) % W)) % W) % W = a + u * (sz + intSize)
    rw [Nat.mod_eq_of_lt hsf, Nat.mod_eq_of_lt hmul, Nat.mod_eq_of_lt hfit]
  · simp [newMemoPool]

/-- The address test of `free` in plain arithmetic: the subtraction of the header size wraps
for an address below 8, and such an address is rejected. -/
theorem Shape.release_iff {a sz u : Nat} {b : memoBlock} (hb : Shape a sz u b) {p : Nat}
    (hp : p < W) :
    (b.free p).2 = true ↔ a + intSize ≤ p ∧ p - intSize < a + u * (sz + intSize) ∧
      (p - intSize - a) % (sz + intSize) = 0 := by
  have hW := W_val
  have hfit := hb.fits
  have hsf := hb.strideFits
  have hi8 : intSize = 8 := rfl
  have hS : (b.nUnitSize + intSize) % W = sz + intSize := by
    rw [hb.size, Nat.mod_eq_of_lt hsf]
  unfold memoBlock.free
  simp only [hS, hb.base, hb.endp]
  by_cases hp8 : 8 ≤ p
  · have hst : (p + W - intSize) % W = p - intSize := by
      have : p + W - intSize = (p - intSize) + W := by omega
      rw [this, Nat.add_mod_right, Nat.mod_eq_of_lt (by omega)]
    rw [hst]
    by_cases h1 : p - intSize < a ∨ p - intSize ≥ a + u * (sz + intSize)
    · rw [if_pos h1]
      constructor
      · intro h; simp at h
      · rintro ⟨h2, h3, _⟩; omega
    · rw [if_neg h1]
      by_cases h2 : (p - intSize - a) % (sz + intSize) ≠ 0
      · rw [if_pos h2]
        constructor
        · intro h; simp at h
        · rintro ⟨_, _, h4⟩; exact absurd h4 h2
      · rw [if_neg h2]
        constructor
        · intro _
          refine ⟨by omega, by omega, ?_⟩
          by_contra hc; exact h2 hc
        · intro _; rfl
  · have hst : (p + W - intSize) % W = p + W - 8 := by
      rw [hi8, Nat.mod_eq_of_lt (by omega)]
    rw [hst]
    constructor
    · intro hacc
      exfalso
      by_cases h1 : p + W - 8 < a ∨ p + W - 8 ≥ a + u * (sz + intSize)
      · rw [if_pos h1] at hacc; simp at hacc
      · rw [if_neg h1] at hacc
        by_cases h2 : (p + W - 8 - a) % (sz + intSize) ≠ 0
        · rw [if_pos h2] at hacc; simp at hacc
        · have h2z : (p + W - 8 - a) % (sz + intSize) = 0 := by
            by_contra hc; exact h2 hc
          obtain ⟨j, hj⟩ := Nat.dvd_of_mod_eq_zero h2z
          have hju : j < u := by
            by_contra hc
            have : u * (sz + intSize) ≤ (sz + intSize) * j := by
              rw [Nat.mul_comm u]; exact Nat.mul_le_mul_left _ (by omega)
            omega
          have hmul : (sz + intSize) * (j + 1) ≤ u * (sz + intSize) := by
            rw [Nat.mul_comm u]; exact Nat.mul_le_mul_left _ hju
          have hmul2 : (sz + intSize) * (j + 1) = (sz + intSize) * j + (sz + intSize) := by ring
          omega
    · rintro ⟨h, _, _⟩; omega

/-- The block after an accepted `free`, with the index of the released unit. -/
theorem Shape.release_eq {a sz u : Nat} {b : memoBlock} (hb : Shape a sz u b) {p : Nat}
    (hp : p < W) (hacc : (b.free p).2 = true) :
    b.free p = ({ b with nFirst := (p - intSize - a) / (sz + intSize),
                         bs := b.bs.set ((p - intSize - a) / (sz + intSize)) b.nFirst,
                         nFree := b.nFree + 1 }, true) ∧
      (p - intSize - a) / (sz + intSize) < u := by
  obtain ⟨h8, hlt, hmod⟩ := (hb.release_iff hp).mp hacc
  have hW := W_val
  have hsf := hb.strideFits
  have hi8 : intSize = 8 := rfl
  have hS : (b.nUnitSize + intSize) % W = sz + intSize := by
    rw [hb.size, Nat.mod_eq_of_lt hsf]
  have hst : (p + W - intSize) % W = p - intSize := by
    have : p + W - intSize = (p - intSize) + W := by omega
    rw [this, Nat.add_mod_right, Nat.mod_eq_of_lt (by omega)]
  have hSpos : 0 < sz + intSize := by omega
  constructor
  · unfold memoBlock.free
    simp only [hS, hst]
    rw [if_neg (by rw [hb.base, hb.endp]; omega), if_neg (by rw [hb.base]; simpa using hmod)]
    rw [hb.base]
  · rw [Nat.div_lt_iff_lt_mul hSpos]
    omega

/-- A block with a free unit whose free list starts at a unit hands out the payload address
of that unit. -/
theorem Shape.allocate {a sz u : Nat} {b : memoBlock} (hb : Shape a sz u b)
    (hf : 0 < b.nFree) (hj : b.nFirst < u) :
    b.alloc = ({ b with nFirst := b.bs.getD b.nFirst 0, nFree := b.nFree - 1 },
      a + b.nFirst * (sz + intSize) + intSize) := by
  have hW := W_val
  have hfit := hb.fits
  have hi8 : intSize = 8 := rfl
  have hmul : (sz + intSize) * (b.nFirst + 1) ≤ u * (sz + intSize) := by
    rw [Nat.mul_comm u]; exact Nat.mul_le_mul_left _ hj
  have hmul2 : (sz + intSize) * (b.nFirst + 1) = (sz + intSize) * b.nFirst + (sz + intSize) := by
    ring
  have hcomm : b.nFirst * (sz + intSize) = (sz + intSize) * b.nFirst := Nat.mul_comm _ _
  unfold memoBlock.alloc
  rw [if_neg (by omega)]
  simp only [hb.base, hb.stride]
  rw [Nat.mod_eq_of_lt (a := a + (sz + intSize) * b.nFirst) (by omega),
    Nat.mod_eq_of_lt (by omega), hcomm]

theorem set_getD_self (l : List Nat) (j : Nat) (hj : j < l.length) :
    l.set j (l.getD j 0) = l := by
  apply List.ext_getElem?
  intro n
  rw [List.getElem?_set]
  split
  · next h =>
    subst h
    rw [List.getD_eq_getElem?_getD, List.getElem?_eq_getElem hj]
    simp [hj]
  · rfl

end Memopool

/-! ## Successive allocations from a fresh block -/
namespace Memopool

/-- Successive calls of `alloc` on a block whose headers still form the chain of construction
hand out the units from the head of the chain on, in index order. -/
theorem allocN_chain {a sz u : Nat} : ∀ (m j : Nat) (c : memoBlock), Shape a sz u c →
    (∀ i, i < u → c.bs.getD i 0 = i + 1) → c.nFirst = j → c.nFree = m → j + m = u →
    c.allocN m = ({ c with nFirst := u, nFree := 0 },
      (List.range' j m).map (fun i => a + i * (sz + intSize) + intSize))
  | 0, j, c, _, _, hj, hm, hjm => by
    have hju : j = u := by omega
    subst hju
    cases c
    simp only at hj hm
    subst hj hm
    rfl
  | m + 1, j, c, hc, hid, hj, hm, hjm => by
    have hal := hc.allocate (by omega) (by omega : c.nFirst < u)
    have hc2 : Shape a sz u { c with nFirst := c.bs.getD c.nFirst 0, nFree := c.nFree - 1 } :=
      ⟨hc.base, hc.size, hc.stride, hc.endp, hc.strideFits, hc.fits, hc.len⟩
    have hnext : c.bs.getD c.nFirst 0 = j + 1 := by
      rw [hid _ (by omega), hj]
    have ih := allocN_chain m (j + 1) _ hc2 hid hnext (by show c.nFree - 1 = m; omega) (by omega)
    show ((c.alloc.1.allocN m).1, c.alloc.2 :: (c.alloc.1.allocN m).2) = _
    rw [hal]
    simp only
    rw [ih, hj]
    rfl

theorem new_headers (a sz u : Nat) : ∀ i, i < u → (newMemoPool a sz u).bs.getD i 0 = i + 1 := by
  intro i hi
  simp [newMemoPool, List.getD_eq_getElem?_getD, hi]

end Memopool

/-! ## Claims C14, C15, C16, C20 -/
namespace Memopool

/-- Claim C14. For a block built by `newMemoPool` at address `a` for `u` units of size `sz`
(stride `sz + 8`, no overflow) and every address `p`: `free(p)` returns true iff
`a <= p - 8 < a + u * stride` and `(p - 8 - a) mod stride = 0`; when it returns true, with
`idx = (p - 8 - a) / stride`, `idx < u`, the header of unit `idx` holds the old head of the
free list, the head becomes `idx`, the free count grows by one and nothing else changes; when
it returns false the block is unchanged. -/
theorem C14_block_release (a sz u : Nat) (b : memoBlock) (p : Nat) (hb : Shape a sz u b)
    (hp : p < W) :
    ((b.free p).2 = true ↔ a + intSize ≤ p ∧ p - intSize < a + u * (sz + intSize) ∧
      (p - intSize - a) % (sz + intSize) = 0) ∧
    ((b.free p).2 = true →
      (p - intSize - a) / (sz + intSize) < u ∧
      (b.free p).1 = { b with nFirst := (p - intSize - a) / (sz + intSize),
                              bs := b.bs.set ((p - intSize - a) / (sz + intSize)) b.nFirst,
                              nFree := b.nFree + 1 } ∧
      (b.free p).1.bs.getD ((p - intSize - a) / (sz + intSize)) 0 = b.nFirst ∧
      (∀ x, x ≠ (p - intSize - a) / (sz + intSize) →
        (b.free p).1.bs.getD x 0 = b.bs.getD x 0)) ∧
    ((b.free p).2 = false → (b.free p).1 = b) := by
  refine ⟨hb.release_iff hp, ?_, free_false⟩
  intro hacc
  obtain ⟨heq, hidx⟩ := hb.release_eq hp hacc
  refine ⟨hidx, by rw [heq], ?_, ?_⟩
  · rw [heq]
    simp [List.getD_eq_getElem?_getD, List.getElem?_set, hb.len, hidx]
  · intro x hx
    rw [heq]
    simp only [List.getD_eq_getElem?_getD]
    rw [List.getElem?_set_ne (Ne.symm hx)]

/-- Witness of C14: the second unit of a fresh block of two units of size 16 at 4096. -/
theorem C14_block_release_witness :
    (newMemoPool 4096 16 2).free 4128 =
      ({ newMemoPool 4096 16 2 with nFirst := 1, bs := [1, 0], nFree := 3 }, true) := by
  obtain ⟨_, h, _⟩ := C14_block_release 4096 16 2 (newMemoPool 4096 16 2) 4128
    (Shape.built 4096 16 2 (by decide) (by decide)) (by decide)
  have h2 := (h (by decide)).2.1
  exact Prod.ext h2 (by decide)

/-- Claim C15. For a block built by `newMemoPool` at address `a` for `u` units of size `sz`
(stride `sz + 8`, no overflow): `alloc` returns nil and leaves the block unchanged when the
free count is 0; otherwise, the head of the free list being the index of a unit, it returns
`a + freeHead * stride + 8`, sets the head to the value stored in the header of that unit,
lowers the free count by one and changes no unit header. -/
theorem C15_block_allocate (a sz u : Nat) (b : memoBlock) (hb : Shape a sz u b)
    (hfirst : 0 < b.nFree → b.nFirst < u) :
    (b.nFree = 0 → b.alloc = (b, 0)) ∧
    (b.nFree ≠ 0 →
      b.alloc.2 = a + b.nFirst * (sz + intSize) + intSize ∧
      b.alloc.1.nFirst = b.bs.getD b.nFirst 0 ∧
      b.alloc.1.nFree + 1 = b.nFree ∧
      b.alloc.1.bs = b.bs ∧
      b.alloc.1 = { b with nFirst := b.bs.getD b.nFirst 0, nFree := b.nFree - 1 }) := by
  constructor
  · intro h0
    unfold memoBlock.alloc
    rw [if_pos h0]
  · intro hne
    have hpos : 0 < b.nFree := Nat.pos_of_ne_zero hne
    rw [hb.allocate hpos (hfirst hpos)]
    exact ⟨rfl, rfl, by show b.nFree - 1 + 1 = b.nFree; omega, rfl, rfl⟩

/-- Witness of C15: the first allocation from a fresh block of two units of size 16 at 4096. -/
theorem C15_block_allocate_witness :
    (newMemoPool 4096 16 2).alloc =
      ({ newMemoPool 4096 16 2 with nFirst := 1, nFree := 1 }, 4104) := by
  have h := (C15_block_allocate 4096 16 2 (newMemoPool 4096 16 2)
    (Shape.built 4096 16 2 (by decide) (by decide)) (fun _ => by decide)).2 (by decide)
  exact Prod.ext h.2.2.2.2 h.1

/-- Claim C16. A block built by `newMemoPool` at address `a` for `u` units of size `sz` (no
overflow) has free count `u`, free-list head 0 and header `i + 1` in unit `i` for `i < u`;
`u` successive `alloc` calls on it return the payload addresses `a + i * (sz + 8) + 8` of the
units `0, ..., u - 1` in this order and leave the head at `u`, the free count at 0 and the
headers as they were. -/
theorem C16_identity_chain (a sz u : Nat) (hsf : sz + intSize < W)
    (hfit : a + u * (sz + intSize) < W) :
    (newMemoPool a sz u).nFree = u ∧ (newMemoPool a sz u).nFirst = 0 ∧
    (∀ i, i < u → (newMemoPool a sz u).bs.getD i 0 = i + 1) ∧
    ((newMemoPool a sz u).allocN u).2 =
      (List.range u).map (fun i => a + i * (sz + intSize) + intSize) ∧
    ((newMemoPool a sz u).allocN u).1.nFirst = u ∧
    ((newMemoPool a sz u).allocN u).1.nFree = 0 ∧
    ((newMemoPool a sz u).allocN u).1.bs = (newMemoPool a sz u).bs := by
  have h := allocN_chain u 0 (newMemoPool a sz u) (Shape.built a sz u hsf hfit)
    (new_headers a sz u) rfl rfl (by omega)
  refine ⟨rfl, rfl, new_headers a sz u, ?_, ?_, ?_, ?_⟩
  · rw [h, List.range_eq_range']
  · rw [h]
  · rw [h]
  · rw [h]

/-- Witness of C16: a block of three units of size 16 at 4096. -/
theorem C16_identity_chain_witness :
    ((newMemoPool 4096 16 3).allocN 3).2 = [4104, 4128, 4152] ∧
    ((newMemoPool 4096 16 3).allocN 3).1.nFirst = 3 ∧
    ((newMemoPool 4096 16 3).allocN 3).1.nFree = 0 := by
  have h := C16_identity_chain 4096 16 3 (by decide) (by decide)
  exact ⟨h.2.2.2.1.trans (by decide), h.2.2.2.2.1, h.2.2.2.2.2.1⟩

/-- Claim C20. For a block built by `newMemoPool` at address `a` for `u` units of size `sz`
(no overflow) with a free count above 0 and the head of the free list below `u`: `alloc`
returns a pointer `p`, and `free(p)` on the block after the `alloc` returns true and gives back
the block as it was before the `alloc`: same free count, same head, same unit headers. -/
theorem C20_block_round_trip (a sz u : Nat) (b : memoBlock) (hb : Shape a sz u b)
    (hfree : 0 < b.nFree) (hfirst : b.nFirst < u) :
    b.alloc.1.free b.alloc.2 = (b, true) := by
  have hW := W_val
  have hfit := hb.fits
  have hsf := hb.strideFits
  have hi8 : intSize = 8 := rfl
  have hal := hb.allocate hfree hfirst
  have hc2 : Shape a sz u { b with nFirst := b.bs.getD b.nFirst 0, nFree := b.nFree - 1 } :=
    ⟨hb.base, hb.size, hb.stride, hb.endp, hb.strideFits, hb.fits, hb.len⟩
  have hmul : (b.nFirst + 1) * (sz + intSize) ≤ u * (sz + intSize) :=
    Nat.mul_le_mul_right _ hfirst
  have hmul2 : (b.nFirst + 1) * (sz + intSize) = b.nFirst * (sz + intSize) + (sz + intSize) := by
    ring
  have hSpos : 0 < sz + intSize := by omega
  have hsub : a + b.nFirst * (sz + intSize) + intSize - intSize - a
      = b.nFirst * (sz + intSize) := by omega
  have hplt : a + b.nFirst * (sz + intSize) + intSize < W := by omega
  have hacc : (({ b with nFirst := b.bs.getD b.nFirst 0, nFree := b.nFree - 1 } : memoBlock).free
      (a + b.nFirst * (sz + intSize) + intSize)).2 = true := by
    rw [hc2.release_iff hplt, hsub, Nat.mul_mod_left]
    exact ⟨by omega, by omega, rfl⟩
  obtain ⟨heq, _⟩ := hc2.release_eq hplt hacc
  rw [hal]
  simp only
  rw [heq, hsub, Nat.mul_div_cancel _ hSpos]
  simp only
  rw [set_getD_self _ _ (by rw [hb.len]; exact hfirst)]
  have hn : b.nFree - 1 + 1 = b.nFree := by omega
  rw [hn]

/-- Witness of C20: a fresh block of two units of size 16 at 4096. -/
theorem C20_block_round_trip_witness :
    (newMemoPool 4096 16 2).alloc.1.free (newMemoPool 4096 16 2).alloc.2 =
      (newMemoPool 4096 16 2, true) :=
  C20_block_round_trip 4096 16 2 (newMemoPool 4096 16 2)
    (Shape.built 4096 16 2 (by decide) (by decide)) (by decide) (by decide)

end Memopool

/-! ## Single calls on the three lists -/
namespace Memopool

theorem mem_moved_sub {L : Nat → List Nat} {s b t x : Nat} (h : x ∈ moved L s b t) :
    (x = b ∧ t = s) ∨ x ∈ L t := by
  unfold moved at h
  by_cases hts : t = s
  · rw [if_pos hts] at h
    rcases List.mem_cons.mp h with h | h
    · exact Or.inl ⟨h, hts⟩
    · exact Or.inr (List.mem_of_mem_erase h)
  · rw [if_neg hts] at h
    exact Or.inr (List.mem_of_mem_erase h)

/-- What a call of `Alloc` does to the three lists of a well-formed pool: a node is added only
with the partial and empty lists both empty, no block of the full list comes to the empty list,
and with two units or more per block no block of the empty list comes to the full list. -/
theorem WF.allocStep {addr : Nat → Nat} {sz u : Nat} {mp : MemoPool} {L : Nat → List Nat}
    (hwf : WF addr sz u mp L) (hu : 0 < u) (hst : sz + intSize < W)
    (hfit : ¬ mp.over → addr (mp.nodes.length - 3) + u * (sz + intSize) < W) :
    ∃ mp2 p L2, mp.Alloc addr = some (mp2, p) ∧ WF addr sz u mp2 L2 ∧
      (mp2.nodes.length = mp.nodes.length ∨
        (L 1 = [] ∧ L 2 = [] ∧ ¬ mp.over ∧ mp2.nodes.length = mp.nodes.length + 1)) ∧
      mp2.maxBlockCnt = mp.maxBlockCnt ∧
      (∀ i, i ∈ L 0 → i ∉ L2 2) ∧ (2 ≤ u → ∀ i, i ∈ L 2 → i ∉ L2 0) := by
  have d02 : ∀ i, i ∈ L 0 → i ∉ L 2 :=
    fun i => hwf.rep.disj 0 2 (by omega) (by omega) (by omega) i
  have d12 : ∀ i, i ∈ L 1 → i ∉ L 2 :=
    fun i => hwf.rep.disj 1 2 (by omega) (by omega) (by omega) i
  unfold MemoPool.Alloc
  rcases refill_spec hwf hu hst hfit with ⟨hr, _, _, hov⟩ |
      ⟨mp1, L1, pa, rest, hr, hwf1, hL1, hmax, hdata⟩
  · rw [hr]
    exact ⟨mp, 0, L, rfl, hwf, Or.inl rfl, rfl, d02, fun _ i h2 h0 => d02 i h0 h2⟩
  · rw [hr]
    obtain ⟨mp2, L2, hal, hwf2, _, _, hlen, hmax2, _, hL2⟩ := allocHead_spec hwf1 hL1
    have hsub2 : ∀ x, x ∈ L1 2 → x ∈ L 2 ∨ x = mp.nodes.length := by
      intro x hx
      rcases hdata with ⟨_, _, ⟨_, _, hLe⟩ | ⟨_, e, r, _, hLe⟩⟩ | ⟨_, _, _, _, _, _, hLe⟩
      · rw [hLe] at hx; exact Or.inl hx
      · rw [hLe] at hx
        rcases mem_moved_sub hx with ⟨_, h⟩ | h
        · omega
        · exact Or.inl h
      · rw [hLe] at hx
        rcases mem_moved_sub hx with ⟨_, h⟩ | h
        · omega
        · rcases mem_moved_sub h with ⟨h, _⟩ | h
          · exact Or.inr h
          · exact Or.inl h
    have hsub0 : ∀ x, x ∈ L1 0 → x ∈ L 0 := by
      intro x hx
      rcases hdata with ⟨_, _, ⟨_, _, hLe⟩ | ⟨_, e, r, _, hLe⟩⟩ | ⟨_, _, _, _, _, _, hLe⟩
      · rw [hLe] at hx; exact hx
      · rw [hLe] at hx
        rcases mem_moved_sub hx with ⟨_, h⟩ | h
        · omega
        · exact h
      · rw [hLe] at hx
        rcases mem_moved_sub hx with ⟨_, h⟩ | h
        · omega
        · rcases mem_moved_sub h with ⟨_, h⟩ | h
          · omega
          · exact h
    have hpa : pa ∈ L 2 → (getB mp1.nodes pa).nFree = u := by
      intro hp2
      rcases hdata with ⟨_, hcore, _⟩ | ⟨_, hL2e, _⟩
      · rw [nFree_of_core (hcore pa)]
        exact hwf.empt pa hp2
      · rw [hL2e] at hp2; simp at hp2
    have hs2 : ∀ x, x ∈ L2 2 → x ∈ L1 2 := by
      intro x hx
      rw [hL2] at hx
      split at hx
      · rcases mem_moved_sub hx with ⟨_, h⟩ | h
        · omega
        · exact h
      · exact hx
    refine ⟨mp2, _, L2, hal, hwf2, ?_, by rw [hmax2, hmax], ?_, ?_⟩
    · rw [hlen]
      rcases hdata with ⟨h, _⟩ | ⟨h1, h2, hov, h, _⟩
      · exact Or.inl h
      · exact Or.inr ⟨h1, h2, hov, h⟩
    · intro i hi hi2
      rcases hsub2 i (hs2 i hi2) with h | h
      · exact d02 i hi h
      · have := hwf.rep.lt_of_mem (by omega : (0 : Nat) < 3) hi
        omega
    · intro hu2 i hi hi0
      rw [hL2] at hi0
      split at hi0
      · next h1 =>
        rcases mem_moved_sub hi0 with ⟨h, _⟩ | h
        · subst h
          have := hpa hi
          omega
        · exact d02 i (hsub0 i h) hi
      · exact d02 i (hsub0 i hi0) hi

/-- What a call of `Free` does to the three lists of a well-formed pool: the nodes stay, no
block of the empty list comes to the full list, and with two units or more per block no block
of the full list comes to the empty list. -/
theorem WF.freeStep {addr : Nat → Nat} {sz u : Nat} {mp : MemoPool} {L : Nat → List Nat}
    (hwf : WF addr sz u mp L) (pt : Nat) :
    ∃ mp2 ok L2, mp.Free pt = some (mp2, ok) ∧ WF addr sz u mp2 L2 ∧
      mp2.nodes.length = mp.nodes.length ∧ mp2.maxBlockCnt = mp.maxBlockCnt ∧
      mp2.blockCnt = mp.blockCnt ∧
      (2 ≤ u → ∀ i, i ∈ L 0 → i ∉ L2 2) ∧ (∀ i, i ∈ L 2 → i ∉ L2 0) := by
  have d02 : ∀ i, i ∈ L 0 → i ∉ L 2 :=
    fun i => hwf.rep.disj 0 2 (by omega) (by omega) (by omega) i
  rw [Free_spec hwf]
  cases hfind : (searchOrder (L 1) (L 0)).find? (accepts mp.nodes pt) with
  | none => exact ⟨mp, false, L, rfl, hwf, rfl, rfl, rfl, fun _ => d02, fun i h2 h0 => d02 i h0 h2⟩
  | some b =>
    have hacc : accepts mp.nodes pt b = true := List.find?_some hfind
    have hmem := (mem_searchOrder _ _ b).mp (List.mem_of_find?_eq_some hfind)
    have : ∃ t, t < 3 ∧ b ∈ L t := by
      rcases hmem with h | h
      · exact ⟨1, by omega, h⟩
      · exact ⟨0, by omega, h⟩
    obtain ⟨t, ht, hbt⟩ := this
    obtain ⟨j, s, _, _, hs, hres, hwf2⟩ := searchAndFree_spec hwf ht hbt hacc
    have hlen : (mp.searchAndFree b pt).1.nodes.length = mp.nodes.length := by
      rw [hres]
      simp [length_moveAfter]
    have hcnt : (mp.searchAndFree b pt).1.blockCnt = mp.blockCnt := by rw [hres]
    have hmax : (mp.searchAndFree b pt).1.maxBlockCnt = mp.maxBlockCnt := by rw [hres]
    refine ⟨_, true, moved L s b, rfl, hwf2, hlen, hmax, hcnt, ?_, ?_⟩
    · intro hu2 i hi hi2
      rcases mem_moved_sub hi2 with ⟨hib, hs2⟩ | h
      · subst hib
        have hz := hwf.full i hi
        rw [hz] at hs
        split at hs
        · next hc => omega
        · omega
      · exact d02 i hi h
    · intro i hi hi0
      rcases mem_moved_sub hi0 with ⟨_, hs0⟩ | h
      · split at hs <;> omega
      · exact d02 i h hi

/-- A sequence of calls with any arguments runs to its end, leaves the pool well formed and
leaves room for the calls that follow. -/
theorem WF.runRoom {addr : Nat → Nat} {sz u n : Nat} (hu : 0 < u) (hst : sz + intSize < W)
    (hfits : ∀ i, i < n → addr i + u * (sz + intSize) < W) :
    ∀ (calls extra : List Call) (mp : MemoPool) (live : List Nat) (L : Nat → List Nat),
    WF addr sz u mp L → Room mp n (calls ++ extra) →
    ∃ mp2 live2 L2, mp.run addr live calls = some (mp2, live2) ∧ WF addr sz u mp2 L2 ∧
      Room mp2 n extra ∧ mp2.maxBlockCnt = mp.maxBlockCnt
  | [], _, mp, live, L, hwf, hroom => ⟨mp, live, L, rfl, hwf, hroom, rfl⟩
  | Call.alloc :: cs, extra, mp, live, L, hwf, hroom => by
    have hroom0 : Room mp n (Call.alloc :: (cs ++ extra)) := hroom
    obtain ⟨mp1, p, L1, hal, hwf1, hlen, hmax, _, _⟩ :=
      hwf.allocWF hu hst (Room.fit hwf hroom0 hfits)
    have hroom1 : Room mp1 n (cs ++ extra) := Room.stepAlloc hwf hwf1 hroom0 hmax hlen
    obtain ⟨mp2, live2, L2, hrun, hwf2, hroom2, hmax2⟩ :=
      WF.runRoom hu hst hfits cs extra mp1 (if p = 0 then live else p :: live) L1 hwf1 hroom1
    refine ⟨mp2, live2, L2, ?_, hwf2, hroom2, by rw [hmax2, hmax]⟩
    simp only [MemoPool.run, MemoPool.call, hal]
    exact hrun
  | Call.free pt :: cs, extra, mp, live, L, hwf, hroom => by
    have hroom0 : Room mp n (Call.free pt :: (cs ++ extra)) := hroom
    obtain ⟨mp1, ok, L1, hfr, hwf1, hlen, hmax, hcnt⟩ := hwf.freeWF pt
    have hroom1 : Room mp1 n (cs ++ extra) := Room.stepFree hroom0 hmax hcnt hlen
    obtain ⟨mp2, live2, L2, hrun, hwf2, hroom2, hmax2⟩ :=
      WF.runRoom hu hst hfits cs extra mp1 (if ok then live.erase pt else live) L1 hwf1 hroom1
    refine ⟨mp2, live2, L2, ?_, hwf2, hroom2, by rw [hmax2, hmax]⟩
    simp only [MemoPool.run, MemoPool.call, hfr]
    exact hrun

/-- The three lists of a well-formed pool hold as many blocks as the pool has created. -/
theorem WF.total {addr : Nat → Nat} {sz u : Nat} {mp : MemoPool} {L : Nat → List Nat}
    (hwf : WF addr sz u mp L) :
    (L 0).length + (L 1).length + (L 2).length + 3 = mp.nodes.length := by
  have d01 := hwf.rep.disj 0 1 (by omega) (by omega) (by omega)
  have d02 := hwf.rep.disj 0 2 (by omega) (by omega) (by omega)
  have d12 := hwf.rep.disj 1 2 (by omega) (by omega) (by omega)
  have hnd : (L 0 ++ L 1 ++ L 2).Nodup := by
    rw [List.nodup_append, List.nodup_append]
    refine ⟨⟨hwf.rep.nodup 0 (by omega), hwf.rep.nodup 1 (by omega), fun x => d01 x⟩,
      hwf.rep.nodup 2 (by omega), ?_⟩
    intro x hx h2
    rcases List.mem_append.mp hx with h | h
    · exact d02 x h h2
    · exact d12 x h h2
  have hperm : (L 0 ++ L 1 ++ L 2).Perm (List.range' 3 (mp.nodes.length - 3)) := by
    rw [List.perm_ext_iff_of_nodup hnd (List.nodup_range' 3 _)]
    intro x
    simp only [List.mem_append, List.mem_range']
    constructor
    · intro hx
      have hr : 3 ≤ x ∧ x < mp.nodes.length := by
        rcases hx with (h | h) | h
        · exact hwf.rep.range 0 (by omega) x h
        · exact hwf.rep.range 1 (by omega) x h
        · exact hwf.rep.range 2 (by omega) x h
      exact ⟨x - 3, by omega, by omega⟩
    · rintro ⟨i, hi, rfl⟩
      have h3 := hwf.len3
      obtain ⟨s, hs, hm⟩ := hwf.cover (3 + 1 * i) (by omega) (by omega)
      have hs3 : s = 0 ∨ s = 1 ∨ s = 2 := by omega
      rcases hs3 with h | h | h <;> subst h
      · exact Or.inl (Or.inl hm)
      · exact Or.inl (Or.inr hm)
      · exact Or.inr hm
  have hl := hperm.length_eq
  have h3 := hwf.len3
  simp only [List.length_append, List.length_range'] at hl
  omega

end Memopool

/-! ## Failed releases and the search over arbitrary lists -/
namespace Memopool

theorem searchAndFree_false {mp : MemoPool} {b pt : Nat}
    (h : (mp.searchAndFree b pt).2.2 = false) : (mp.searchAndFree b pt).1 = mp := by
  cases hacc : accepts mp.nodes pt b with
  | true => rw [searchAndFree_ok hacc] at h; simp at h
  | false => rw [searchAndFree_reject hacc]

theorem searchIfAny_false {mp : MemoPool} {cur : Option Nat} {pt : Nat}
    (h : (mp.searchIfAny cur pt).2.2 = false) : (mp.searchIfAny cur pt).1 = mp := by
  cases cur with
  | none => rfl
  | some b => exact searchAndFree_false h

theorem probe_false (pt : Nat) : ∀ (n : Nat) (mp : MemoPool) (cp : Option Nat),
    (MemoPool.probe pt n mp cp).2.2 = false → (MemoPool.probe pt n mp cp).1 = mp
  | 0, _, _, _ => rfl
  | _ + 1, _, none, _ => rfl
  | n + 1, mp, some b, h => by
    have hstep : MemoPool.probe pt (n + 1) mp (some b) =
        if (mp.searchAndFree b pt).2.2 then mp.searchAndFree b pt
        else MemoPool.probe pt n (mp.searchAndFree b pt).1 (mp.searchAndFree b pt).2.1 := by
      rw [MemoPool.probe]
    rw [hstep] at h ⊢
    rcases Bool.eq_false_or_eq_true (mp.searchAndFree b pt).2.2 with hr | hr
    · rw [if_pos hr] at h
      rw [hr] at h
      simp at h
    · rw [if_neg (by simp [hr])] at h ⊢
      have h1 := searchAndFree_false hr
      rw [h1] at h ⊢
      exact probe_false pt n mp _ h

theorem lockstep_false (pt : Nat) : ∀ (fuel : Nat) (mp : MemoPool) (cp cf : Option Nat)
    (mp2 : MemoPool), MemoPool.lockstep pt fuel mp cp cf = some (mp2, false) → mp2 = mp
  | 0, mp, cp, cf, mp2, h => by
    unfold MemoPool.lockstep at h
    split at h
    · simp at h; exact h.symm
    · simp at h
  | fuel + 1, mp, cp, cf, mp2, h => by
    unfold MemoPool.lockstep at h
    split at h
    · simp at h; exact h.symm
    · simp only at h
      rcases Bool.eq_false_or_eq_true (mp.searchIfAny cp pt).2.2 with hr | hr
      · rw [if_pos hr] at h; simp at h
      · rw [if_neg (by simp [hr])] at h
        have h1 := searchIfAny_false hr
        rw [h1] at h
        rcases Bool.eq_false_or_eq_true (mp.searchIfAny cf pt).2.2 with hs | hs
        · rw [if_pos hs] at h; simp at h
        · rw [if_neg (by simp [hs])] at h
          have h2 := searchIfAny_false hs
          rw [h2] at h
          exact lockstep_false pt fuel mp _ _ mp2 h

/-- A `Free` that returns false returns the pool it was given, whatever the state of the pool. -/
theorem Free_unchanged {mp mp2 : MemoPool} {pt : Nat} (h : mp.Free pt = some (mp2, false)) :
    mp2 = mp := by
  unfold MemoPool.Free at h
  simp only at h
  cases hp : (getB mp.nodes partialId).Next with
  | none =>
    rw [hp] at h
    exact lockstep_false pt _ mp _ _ mp2 h
  | some b =>
    rw [hp] at h
    simp only at h
    rcases Bool.eq_false_or_eq_true (mp.searchAndFree b pt).2.2 with hr | hr
    · rw [if_pos hr] at h; simp at h
    · rw [if_neg (by simp [hr])] at h
      have h1 := searchAndFree_false hr
      rw [h1] at h
      rcases Bool.eq_false_or_eq_true (MemoPool.probe pt 2 mp (mp.searchAndFree b pt).2.1).2.2
        with hs | hs
      · rw [if_pos hs] at h; simp at h
      · rw [if_neg (by simp [hs])] at h
        have h2 := probe_false pt 2 mp _ hs
        rw [h2] at h
        exact lockstep_false pt _ mp _ _ mp2 h

theorem Walk.det {h : List memoBlock} : ∀ (l1 l2 : List Nat) (c : Option Nat),
    Walk h c l1 → Walk h c l2 → l1 = l2
  | [], [], _, _, _ => rfl
  | [], b :: r, c, h1, h2 => by
    have e1 : c = none := h1
    have e2 : c = some b := h2.1
    rw [e1] at e2; simp at e2
  | a :: r, [], c, h1, h2 => by
    have e1 : c = some a := h1.1
    have e2 : c = none := h2
    rw [e1] at e2; simp at e2
  | a :: r, b :: s, c, h1, h2 => by
    have e1 : c = some a := h1.1
    have e2 : c = some b := h2.1
    rw [e1] at e2
    have hab : a = b := by simpa using e2
    subst hab
    rw [Walk.det r s _ h1.2 h2.2]

theorem Walk.suffix {h : List memoBlock} : ∀ (l1 l2 : List Nat) (c : Option Nat),
    Walk h c (l1 ++ l2) → ∃ c2, Walk h c2 l2
  | [], _, c, hw => ⟨c, hw⟩
  | _ :: r, l2, _, hw => Walk.suffix r l2 _ hw.2

/-- A list that ends at nil passes no node twice. -/
theorem Walk.distinct {h : List memoBlock} : ∀ (l : List Nat) (c : Option Nat),
    Walk h c l → l.Nodup
  | [], _, _ => List.nodup_nil
  | b :: r, _, hw => by
    rw [List.nodup_cons]
    refine ⟨?_, Walk.distinct r _ hw.2⟩
    intro hb
    obtain ⟨s, t, hst⟩ := List.append_of_mem hb
    have hw2 := hw.2
    rw [hst] at hw2
    obtain ⟨c2, hc2⟩ := Walk.suffix s (b :: t) _ hw2
    have ht : Walk h (getB h b).Next t := hc2.2
    have := Walk.det _ _ _ hw2 ht
    have hl := congrArg List.length this
    simp at hl
    omega

/-- The lockstep loop with one round for every node of the longer list. -/
theorem lockstep_max (mp : MemoPool) (pt : Nat) : ∀ (fuel : Nat) (lp lf : List Nat)
    (cp cf : Option Nat), Walk mp.nodes cp lp → Walk mp.nodes cf lf →
    lp.length ≤ fuel → lf.length ≤ fuel →
    MemoPool.lockstep pt fuel mp cp cf =
      mp.outcome pt ((interleave lp lf).find? (accepts mp.nodes pt))
  | 0, lp, lf, cp, cf, hp, hf, hlen, hlen2 => by
    have h1 : lp = [] := List.eq_nil_of_length_eq_zero (by omega)
    have h2 : lf = [] := List.eq_nil_of_length_eq_zero (by omega)
    subst h1 h2
    have hp2 : cp = none := hp
    have hf2 : cf = none := hf
    subst hp2 hf2
    rfl
  | fuel + 1, [], [], cp, cf, hp, hf, _, _ => by
    have hp2 : cp = none := hp
    have hf2 : cf = none := hf
    subst hp2 hf2
    rfl
  | fuel + 1, a :: as, [], cp, cf, hp, hf, hlen, _ => by
    have hf2 : cf = none := hf
    obtain ⟨hp1, hp2⟩ := hp
    subst hf2 hp1
    unfold MemoPool.lockstep
    rw [if_neg (by simp)]
    simp only [MemoPool.searchIfAny, interleave]
    cases hacc : accepts mp.nodes pt a with
    | true =>
      rw [searchAndFree_ok hacc, List.find?_cons_of_pos _ hacc]
      simp [MemoPool.outcome]
    | false =>
      rw [searchAndFree_reject hacc, List.find?_cons_of_neg _ (by simp [hacc])]
      simp only [Bool.false_eq_true, if_false]
      have := lockstep_max mp pt fuel as [] (getB mp.nodes a).Next none hp2 rfl
        (by simp at hlen ⊢; omega) (by simp)
      rw [interleave_nil_right] at this
      exact this
  | fuel + 1, [], b :: bs, cp, cf, hp, hf, _, hlen => by
    have hp2 : cp = none := hp
    obtain ⟨hf1, hf2⟩ := hf
    subst hp2 hf1
    unfold MemoPool.lockstep
    rw [if_neg (by simp)]
    simp only [MemoPool.searchIfAny, interleave]
    cases hacc : accepts mp.nodes pt b with
    | true =>
      rw [searchAndFree_ok hacc, List.find?_cons_of_pos _ hacc]
      simp [MemoPool.outcome]
    | false =>
      rw [searchAndFree_reject hacc, List.find?_cons_of_neg _ (by simp [hacc])]
      simp only [Bool.false_eq_true, if_false]
      exact lockstep_max mp pt fuel [] bs none (getB mp.nodes b).Next rfl hf2
        (by simp) (by simp at hlen ⊢; omega)
  | fuel + 1, a :: as, b :: bs, cp, cf, hp, hf, hlen, hlen2 => by
    obtain ⟨hp1, hp2⟩ := hp
    obtain ⟨hf1, hf2⟩ := hf
    subst hp1 hf1
    unfold MemoPool.lockstep
    rw [if_neg (by simp)]
    simp only [MemoPool.searchIfAny, interleave]
    cases hacc : accepts mp.nodes pt a with
    | true =>
      rw [searchAndFree_ok hacc, List.find?_cons_of_pos _ hacc]
      simp [MemoPool.outcome]
    | false =>
      rw [searchAndFree_reject hacc, List.find?_cons_of_neg _ (by simp [hacc])]
      simp only [Bool.false_eq_true, if_false]
      cases hacc2 : accepts mp.nodes pt b with
      | true =>
        rw [searchAndFree_ok hacc2, List.find?_cons_of_pos _ hacc2]
        simp [MemoPool.outcome]
      | false =>
        rw [searchAndFree_reject hacc2, List.find?_cons_of_neg _ (by simp [hacc2])]
        simp only [Bool.false_eq_true, if_false]
        exact lockstep_max mp pt fuel as bs _ _ hp2 hf2 (by simp at hlen ⊢; omega)
          (by simp at hlen2 ⊢; omega)

/-- `Free` on a pool whose partial list `P` and full list `F` end at nil and hold nodes of the
pool: it releases into the first accepting block in its search order, and returns false leaving
the pool as it is when no block of the two lists accepts. -/
theorem Free_walk {mp : MemoPool} {P F : List Nat}
    (hwP : Walk mp.nodes (getB mp.nodes partialId).Next P)
    (hwF : Walk mp.nodes (getB mp.nodes fullId).Next F)
    (hin : ∀ x, x ∈ P ++ F → x < mp.nodes.length) (pt : Nat) :
    mp.Free pt = mp.outcome pt ((searchOrder P F).find? (accepts mp.nodes pt)) := by
  have hlP : P.length ≤ mp.nodes.length :=
    length_le_of_nodup_lt (Walk.distinct _ _ hwP) (fun x hx => hin x (List.mem_append_left _ hx))
  have hlF : F.length ≤ mp.nodes.length :=
    length_le_of_nodup_lt (Walk.distinct _ _ hwF) (fun x hx => hin x (List.mem_append_right _ hx))
  unfold MemoPool.Free searchOrder
  simp only [partialId, fullId] at hwP hwF ⊢
  cases P with
  | nil =>
    have hnone : (getB mp.nodes 1).Next = none := hwP
    rw [hnone]
    simp only [List.take_nil, List.drop_nil, List.nil_append]
    exact lockstep_max mp pt _ [] F none _ rfl hwF (by simp) hlF
  | cons a as =>
    obtain ⟨hw1, hw2⟩ := hwP
    rw [hw1]
    simp only [List.take_succ_cons, List.drop_succ_cons, List.cons_append]
    cases hacc : accepts mp.nodes pt a with
    | true =>
      rw [searchAndFree_ok hacc, List.find?_cons_of_pos _ hacc]
      simp [MemoPool.outcome]
    | false =>
      rw [searchAndFree_reject hacc, List.find?_cons_of_neg _ (by simp [hacc])]
      simp only [Bool.false_eq_true, if_false, List.find?_append]
      rcases probe_spec mp pt 2 as _ hw2 with ⟨b, hfind, hpr, hok⟩ | ⟨hfind, cq, hpr, hwq⟩
      · rw [hpr, hfind, hok]
        simp [MemoPool.outcome]
      · rw [hpr, hfind]
        simp only [Bool.false_eq_true, if_false, Option.none_or]
        refine lockstep_max mp pt _ (as.drop 2) F cq _ hwq hwF ?_ hlF
        simp only [List.length_cons, List.length_drop] at hlP ⊢
        omega

/-- A block that accepts an address holds the header address in its range. -/
theorem accepts_range {h : List memoBlock} {pt b : Nat} (hacc : accepts h pt b = true) :
    (getB h b).pBlock ≤ (pt + W - intSize) % W ∧ (pt + W - intSize) % W < (getB h b).endPtr := by
  unfold accepts memoBlock.free at hacc
  simp only at hacc
  by_cases h1 : (pt + W - intSize) % W < (getB h b).pBlock ∨
      (pt + W - intSize) % W ≥ (getB h b).endPtr
  · rw [if_pos h1] at hacc; simp at hacc
  · omega

/-- Two searches of lists with the same members find the same block when at most one block
passes the test. -/
theorem find?_same {l1 l2 : List Nat} {p : Nat → Bool} (hmem : ∀ x, x ∈ l1 ↔ x ∈ l2)
    (huniq : ∀ x y, x ∈ l1 → y ∈ l1 → p x = true → p y = true → x = y) :
    l1.find? p = l2.find? p := by
  cases h : l1.find? p with
  | none =>
    rw [List.find?_eq_none] at h
    symm
    rw [List.find?_eq_none]
    intro x hx
    exact h x ((hmem x).mpr hx)
  | some a =>
    have ha := List.find?_some h
    have ham := List.mem_of_find?_eq_some h
    symm
    exact find?_unique ((hmem a).mp ham) ha
      (fun x hx hpx => huniq x a ((hmem x).mpr hx) ham hpx ha)

end Memopool

/-! ## The parking rule of Free -/
namespace Memopool

/-- The parking rule of `Free` on a live pointer: the pointer is a unit of one block `i`, which
gets one more free unit and goes to the front of the empty list when this makes all its units
free and it is not the head of the partial list, and to the front of the partial list
otherwise. -/
theorem Good.freeRule {addr : Nat → Nat} {sz u n : Nat} (hlay : Layout addr sz u n)
    {mp : MemoPool} {L : Nat → List Nat} {ch : Nat → List Nat} {live : List Nat}
    (hg : Good addr sz u mp L ch live) (hbound : mp.nodes.length ≤ n + 3) {p : Nat}
    (hp : p ∈ live) :
    ∃ mp2 i j s, mp.Free p = some (mp2, true) ∧
      3 ≤ i ∧ i < mp.nodes.length ∧ j < u ∧ p = unitPtr addr sz (i - 3) j ∧ i ∉ L 2 ∧
      (getB mp2.nodes i).nFree = (getB mp.nodes i).nFree + 1 ∧
      s = (if (getB mp.nodes i).nFree + 1 = u ∧ (L 1).head? ≠ some i then 2 else 1) ∧
      WF addr sz u mp2 (moved L s i) := by
  have hwf := hg.wf
  obtain ⟨i, j, hi3, hil, hj, hjc, hpij⟩ := hg.liveUnit p hp
  have hOK := hwf.blocks i hi3 hil
  obtain ⟨hchain, hnd, hclen⟩ := hg.chain i hi3 hil
  have hlt : (getB mp.nodes i).nFree < u := by
    rw [← hclen]
    exact length_lt_of_not_mem hnd (FreeChain.lt _ _ hchain) hj hjc
  have hnot2 : i ∉ L 2 := by
    intro hm
    have := hwf.empt i hm
    omega
  have hmem : i ∈ L 0 ∨ i ∈ L 1 := by
    obtain ⟨s, hs, his⟩ := hwf.cover i hi3 hil
    have : s = 0 ∨ s = 1 ∨ s = 2 := by omega
    rcases this with h | h | h <;> subst h
    · exact Or.inl his
    · exact Or.inr his
    · exact absurd his hnot2
  have hpW : p < W := by
    rw [hpij]; exact (unitPtr_pos_lt hOK.fits hj).2
  have hfree : (getB mp.nodes i).free p = ((getB mp.nodes i).pushed j, true) := by
    rw [hpij]; exact free_unit hOK hj
  have hacc : accepts mp.nodes p i = true := by
    unfold accepts; rw [hfree]
  have huniq : ∀ x, x ∈ searchOrder (L 1) (L 0) → accepts mp.nodes p x = true → x = i := by
    intro x hx hax
    have hxm := (mem_searchOrder _ _ x).mp hx
    have hxr : 3 ≤ x ∧ x < mp.nodes.length := by
      rcases hxm with h | h
      · exact hwf.rep.range 1 (by omega) x h
      · exact hwf.rep.range 0 (by omega) x h
    obtain ⟨j2, hj2, hpx⟩ := (free_accepts (hwf.blocks x hxr.1 hxr.2) hpW).mp hax
    rw [hpij] at hpx
    have := unitPtr_inj hlay (by omega) (by omega) hj hj2 hpx
    omega
  have hfind : (searchOrder (L 1) (L 0)).find? (accepts mp.nodes p) = some i :=
    find?_unique ((mem_searchOrder _ _ i).mpr (by tauto)) hacc huniq
  have ht : ∃ t, t < 3 ∧ i ∈ L t := by
    rcases hmem with h | h
    · exact ⟨0, by omega, h⟩
    · exact ⟨1, by omega, h⟩
  obtain ⟨t, ht, hit⟩ := ht
  obtain ⟨j2, s, _, hfree2, hs, hres, hwf2⟩ := searchAndFree_spec hwf ht hit hacc
  have hnf : (getB (mp.searchAndFree i p).1.nodes i).nFree = (getB mp.nodes i).nFree + 1 := by
    rw [hres]
    show (getB (moveAfter (mp.nodes.set i ((getB mp.nodes i).pushed j2)) s i) i).nFree = _
    have hc : core (getB (moveAfter (mp.nodes.set i ((getB mp.nodes i).pushed j2)) s i) i) =
        core ((getB mp.nodes i).pushed j2) := by
      rw [core_moveAfter, getB_set, if_pos ⟨rfl, hil⟩]
    rw [nFree_of_core hc]
    rfl
  refine ⟨_, i, j, s, ?_, hi3, hil, hj, hpij, hnot2, hnf, hs, hwf2⟩
  rw [Free_spec hwf, hfind]
  rfl

end Memopool

/-! ## Claims C11, C12, C13 -/
namespace Memopool

/-- Claim C11, refuted as stated: on a pool of two units per block, after three allocations, the
release of the one pointer of the second block and the release of a pointer of the first
block, each release given a live pointer, the second block has all its units free, the empty
list is empty, and the partial list holds the first block at its head and the second block
behind it. -/
theorem C11_counterexample :
    Disciplined exampleAddr (New exampleAddr 16 2 2) []
      [Call.alloc, Call.alloc, Call.alloc, Call.free 8200, Call.free 4104] ∧
    ((New exampleAddr 16 2 2).run exampleAddr []
      [Call.alloc, Call.alloc, Call.alloc, Call.free 8200, Call.free 4104]).map
        (fun r => ((getB r.1.nodes 4).nFree, r.1.nUnitCount, r.1.listOf partialId,
          r.1.listOf emptyId)) = some (2, 2, [3, 4], []) := by
  decide

/-- Claim C11, amended. On a pool with at least one unit per block whose blocks occupy disjoint
address ranges, after any sequence of `Alloc` and `Free` calls in which each `Free` is given a
live pointer: every block whose free count equals the unit count is in the empty list or in the
partial list, and not in the full list; and `Free` of a live pointer returns true, gives the
block of the pointer one more free unit, takes it out of the list it is in, and parks it: when
the release makes all its units free and it is not the head of the partial list before the
call, the block becomes the head of the empty list; otherwise it becomes the head of the
partial list and the empty list stays as it is. So a block that a release has just made fully
free is the head of the empty list or the head of the partial list. -/
theorem C11_fully_free_parked (addr : Nat → Nat) (sz u n : Nat) (k : Int) (calls : List Call)
    (hu : 1 ≤ u) (hlay : Layout addr sz u n)
    (hroom : (0 < k ∧ k ≤ n) ∨ allocCount calls + 1 ≤ n)
    (hd : Disciplined addr (New addr sz u k) [] calls) :
    ∃ mp live, (New addr sz u k).run addr [] calls = some (mp, live) ∧
      (∀ i, 3 ≤ i → i < mp.nodes.length → (getB mp.nodes i).nFree = u →
        i ∉ mp.listOf fullId ∧ (i ∈ mp.listOf emptyId ∨ i ∈ mp.listOf partialId)) ∧
      (∀ p, p ∈ live → ∃ mp2 i j, mp.Free p = some (mp2, true) ∧
        3 ≤ i ∧ i < mp.nodes.length ∧ j < u ∧ p = unitPtr addr sz (i - 3) j ∧
        (getB mp2.nodes i).nFree = (getB mp.nodes i).nFree + 1 ∧
        mp2.listOf fullId = (mp.listOf fullId).erase i ∧
        (((getB mp2.nodes i).nFree = u ∧ (mp.listOf partialId).head? ≠ some i) →
          mp2.listOf emptyId = i :: mp.listOf emptyId ∧
          mp2.listOf partialId = (mp.listOf partialId).erase i) ∧
        (¬ ((getB mp2.nodes i).nFree = u ∧ (mp.listOf partialId).head? ≠ some i) →
          mp2.listOf partialId = i :: (mp.listOf partialId).erase i ∧
          mp2.listOf emptyId = mp.listOf emptyId) ∧
        ((getB mp2.nodes i).nFree = u →
          (mp2.listOf emptyId).head? = some i ∨ (mp2.listOf partialId).head? = some i)) := by
  have hn : 0 < n := by
    rcases hroom with h | h <;> omega
  obtain ⟨ch0, hg0⟩ := Good.ofNewPool addr k hlay.stride (hlay.fits 0 hn) hu
  have hroom0 : Room (New addr sz u k) n (calls ++ []) := by
    rw [List.append_nil]; exact Room.atNew hroom
  obtain ⟨mp, live, L, ch, hrun, hg, hroom1, _⟩ :=
    Good.runGood hlay hu calls [] _ [] _ ch0 hg0 hroom0 hd
  have hwf := hg.wf
  refine ⟨mp, live, hrun, ?_, ?_⟩
  · intro i hi3 hil hfree
    simp only [fullId, partialId, emptyId]
    rw [hwf.listOf (s := 0) (by omega), hwf.listOf (s := 1) (by omega),
      hwf.listOf (s := 2) (by omega)]
    constructor
    · intro h0
      have := hwf.full i h0
      omega
    · obtain ⟨s, hs, his⟩ := hwf.cover i hi3 hil
      have hs3 : s = 0 ∨ s = 1 ∨ s = 2 := by omega
      rcases hs3 with h | h | h <;> subst h
      · have := hwf.full i his
        omega
      · exact Or.inr his
      · exact Or.inl his
  · intro p hp
    obtain ⟨mp2, i, j, s, hfr, hi3, hil, hj, hpe, hnot2, hnf, hs, hwf2⟩ :=
      hg.freeRule hlay (Room.bound hwf hroom1) hp
    have hs12 : s = 1 ∨ s = 2 := by
      rw [hs]; split
      · exact Or.inr rfl
      · exact Or.inl rfl
    have hE : (L 2).erase i = L 2 := List.erase_of_not_mem hnot2
    have hfull : mp2.listOf fullId = (mp.listOf fullId).erase i := by
      simp only [fullId]
      rw [hwf.listOf (s := 0) (by omega), hwf2.listOf (s := 0) (by omega)]
      exact moved_other (by omega)
    have hpark : ((getB mp2.nodes i).nFree = u ∧ (mp.listOf partialId).head? ≠ some i) →
        mp2.listOf emptyId = i :: mp.listOf emptyId ∧
        mp2.listOf partialId = (mp.listOf partialId).erase i := by
      intro hc
      simp only [partialId, emptyId] at hc ⊢
      rw [hwf.listOf (s := 1) (by omega)] at hc
      rw [hwf.listOf (s := 1) (by omega), hwf.listOf (s := 2) (by omega),
        hwf2.listOf (s := 1) (by omega), hwf2.listOf (s := 2) (by omega)]
      have hs2 : s = 2 := by
        rw [hs, if_pos ⟨by omega, hc.2⟩]
      subst hs2
      rw [moved_nil_head, moved_other (by omega), hE]
      exact ⟨rfl, rfl⟩
    have hstay : ¬ ((getB mp2.nodes i).nFree = u ∧ (mp.listOf partialId).head? ≠ some i) →
        mp2.listOf partialId = i :: (mp.listOf partialId).erase i ∧
        mp2.listOf emptyId = mp.listOf emptyId := by
      intro hc
      simp only [partialId, emptyId] at hc ⊢
      rw [hwf.listOf (s := 1) (by omega)] at hc
      rw [hwf.listOf (s := 1) (by omega), hwf.listOf (s := 2) (by omega),
        hwf2.listOf (s := 1) (by omega), hwf2.listOf (s := 2) (by omega)]
      have hs1 : s = 1 := by
        rw [hs, if_neg (fun h => hc ⟨by omega, h.2⟩)]
      subst hs1
      rw [moved_nil_head, moved_other (by omega), hE]
      exact ⟨rfl, rfl⟩
    refine ⟨mp2, i, j, hfr, hi3, hil, hj, hpe, hnf, hfull, hpark, hstay, ?_⟩
    intro hfreeu
    by_cases hc : (getB mp2.nodes i).nFree = u ∧ (mp.listOf partialId).head? ≠ some i
    · left; rw [(hpark hc).1]; rfl
    · right; rw [(hstay hc).1]; rfl

/-- Witness of C11 amended: a pool of two blocks of two units after three allocations and the
release of the first pointer; the live pointers are 8200, whose release parks the second block
in the empty list, and 4128, whose release leaves the first block at the head of the partial
list. -/
theorem C11_fully_free_parked_witness :
    ∃ mp live, (New exampleAddr (16 : Nat) (2 : Nat) 2).run exampleAddr []
        [Call.alloc, Call.alloc, Call.alloc, Call.free 4104] = some (mp, live) ∧
      (∀ i, 3 ≤ i → i < mp.nodes.length → (getB mp.nodes i).nFree = 2 →
        i ∉ mp.listOf fullId ∧ (i ∈ mp.listOf emptyId ∨ i ∈ mp.listOf partialId)) ∧
      (∀ p, p ∈ live → ∃ mp2 i j, mp.Free p = some (mp2, true) ∧
        3 ≤ i ∧ i < mp.nodes.length ∧ j < 2 ∧ p = unitPtr exampleAddr 16 (i - 3) j ∧
        (getB mp2.nodes i).nFree = (getB mp.nodes i).nFree + 1 ∧
        mp2.listOf fullId = (mp.listOf fullId).erase i ∧
        (((getB mp2.nodes i).nFree = 2 ∧ (mp.listOf partialId).head? ≠ some i) →
          mp2.listOf emptyId = i :: mp.listOf emptyId ∧
          mp2.listOf partialId = (mp.listOf partialId).erase i) ∧
        (¬ ((getB mp2.nodes i).nFree = 2 ∧ (mp.listOf partialId).head? ≠ some i) →
          mp2.listOf partialId = i :: (mp.listOf partialId).erase i ∧
          mp2.listOf emptyId = mp.listOf emptyId) ∧
        ((getB mp2.nodes i).nFree = 2 →
          (mp2.listOf emptyId).head? = some i ∨ (mp2.listOf partialId).head? = some i)) :=
  C11_fully_free_parked exampleAddr 16 2 2 2 _ (by decide)
    (exampleLayout 16 2 2 (by decide) (by decide) (by decide))
    (Or.inl ⟨by decide, by decide⟩) (by decide)

/-- Claim C12, refuted as stated: on a pool of one unit per block, after one allocation the
first block is in the full list; `Free` of its pointer puts it in the empty list, and the next
`Alloc` puts it back in the full list. -/
theorem C12_counterexample :
    ((New exampleAddr 16 1 2).run exampleAddr [] [Call.alloc]).map
      (fun r => (r.1.listOf fullId, r.1.listOf partialId, r.1.listOf emptyId)) =
        some ([3], [], []) ∧
    ((New exampleAddr 16 1 2).run exampleAddr [] [Call.alloc, Call.free 4104]).map
      (fun r => (r.1.listOf fullId, r.1.listOf partialId, r.1.listOf emptyId)) =
        some ([], [], [3]) ∧
    ((New exampleAddr 16 1 2).run exampleAddr [] [Call.alloc, Call.free 4104, Call.alloc]).map
      (fun r => (r.1.listOf fullId, r.1.listOf partialId, r.1.listOf emptyId)) =
        some ([3], [], []) := by
  decide

/-- Claim C12, amended. On a pool with two units per block or more, after `New` and any
sequence of `Alloc` and `Free` calls, with any pointer arguments, every further call returns,
and no block that is in the full list before the call is in the empty list after it and no
block that is in the empty list before the call is in the full list after it, be the call a
`Free` of any address or an `Alloc`. -/
theorem C12_block_state_machine (addr : Nat → Nat) (sz u n : Nat) (k : Int) (calls : List Call)
    (hu : 2 ≤ u) (hst : sz + intSize < W)
    (hfits : ∀ i, i < n → addr i + u * (sz + intSize) < W)
    (hroom : (0 < k ∧ k ≤ n) ∨ allocCount calls + 2 ≤ n) :
    ∃ mp live, (New addr sz u k).run addr [] calls = some (mp, live) ∧
      (∀ p, ∃ mp2 ok, mp.Free p = some (mp2, ok) ∧
        ∀ i, (i ∈ mp.listOf fullId → i ∉ mp2.listOf emptyId) ∧
          (i ∈ mp.listOf emptyId → i ∉ mp2.listOf fullId)) ∧
      (∃ mp2 q, mp.Alloc addr = some (mp2, q) ∧
        ∀ i, (i ∈ mp.listOf fullId → i ∉ mp2.listOf emptyId) ∧
          (i ∈ mp.listOf emptyId → i ∉ mp2.listOf fullId)) := by
  have hn : 0 < n := by
    rcases hroom with h | h <;> omega
  have hu1 : 0 < u := by omega
  have hwf0 : WF addr sz u (New addr sz u k) newLists := WF.ofNew addr k hst (hfits 0 hn) hu1
  have hroom0 : Room (New addr sz u k) n (calls ++ [Call.alloc]) := by
    rcases hroom with h | h
    · exact Room.atNew (Or.inl h)
    · right
      rw [New_length]
      have : allocCount (calls ++ [Call.alloc]) = allocCount calls + 1 :=
        allocCount_append calls [Call.alloc]
      omega
  obtain ⟨mp, live, L, hrun, hwf, hroom1, _⟩ :=
    WF.runRoom hu1 hst hfits calls [Call.alloc] _ [] _ hwf0 hroom0
  refine ⟨mp, live, hrun, ?_, ?_⟩
  · intro p
    obtain ⟨mp2, ok, L2, hfr, hwf2, _, _, _, h1, h2⟩ := hwf.freeStep p
    refine ⟨mp2, ok, hfr, ?_⟩
    intro i
    simp only [fullId, emptyId]
    rw [hwf.listOf (s := 0) (by omega), hwf.listOf (s := 2) (by omega),
      hwf2.listOf (s := 0) (by omega), hwf2.listOf (s := 2) (by omega)]
    exact ⟨h1 hu i, h2 i⟩
  · obtain ⟨mp2, q, L2, hal, hwf2, _, _, h1, h2⟩ :=
      hwf.allocStep hu1 hst (Room.fit hwf hroom1 hfits)
    refine ⟨mp2, q, hal, ?_⟩
    intro i
    simp only [fullId, emptyId]
    rw [hwf.listOf (s := 0) (by omega), hwf.listOf (s := 2) (by omega),
      hwf2.listOf (s := 0) (by omega), hwf2.listOf (s := 2) (by omega)]
    exact ⟨h1 i, h2 hu i⟩

/-- Witness of C12 amended: a pool of two blocks of two units after three allocations, with the
first block in the full list and the second in the partial list. -/
theorem C12_block_state_machine_witness :
    ∃ mp live, (New exampleAddr (16 : Nat) (2 : Nat) 2).run exampleAddr []
        [Call.alloc, Call.alloc, Call.alloc] = some (mp, live) ∧
      (∀ p, ∃ mp2 ok, mp.Free p = some (mp2, ok) ∧
        ∀ i, (i ∈ mp.listOf fullId → i ∉ mp2.listOf emptyId) ∧
          (i ∈ mp.listOf emptyId → i ∉ mp2.listOf fullId)) ∧
      (∃ mp2 q, mp.Alloc exampleAddr = some (mp2, q) ∧
        ∀ i, (i ∈ mp.listOf fullId → i ∉ mp2.listOf emptyId) ∧
          (i ∈ mp.listOf emptyId → i ∉ mp2.listOf fullId)) :=
  C12_block_state_machine exampleAddr 16 2 2 2 _ (by decide) (by decide)
    (by intro i hi; have hW := W_val; unfold exampleAddr intSize; omega)
    (Or.inl ⟨by decide, by decide⟩)

/-- Claim C13. On a pool with at least one unit per block, after `New` and after any sequence
of `Alloc` and `Free` calls, with any pointer arguments, `blockCnt` is the number of blocks
linked in the full, partial and empty lists; `Free` of any address returns and leaves
`blockCnt` as it is; `Alloc` returns and leaves `blockCnt` as it is or raises it by exactly 1,
and it raises it only with the partial and the empty list both empty before the call. -/
theorem C13_block_count (addr : Nat → Nat) (sz u n : Nat) (k : Int) (calls : List Call)
    (hu : 1 ≤ u) (hst : sz + intSize < W)
    (hfits : ∀ i, i < n → addr i + u * (sz + intSize) < W)
    (hroom : (0 < k ∧ k ≤ n) ∨ allocCount calls + 2 ≤ n) :
    ∃ mp live, (New addr sz u k).run addr [] calls = some (mp, live) ∧
      mp.blockCnt = (((mp.listOf fullId).length + (mp.listOf partialId).length +
        (mp.listOf emptyId).length : Nat) : Int) ∧
      (∀ p, ∃ mp2 ok, mp.Free p = some (mp2, ok) ∧ mp2.blockCnt = mp.blockCnt) ∧
      (∃ mp2 q, mp.Alloc addr = some (mp2, q) ∧
        (mp2.blockCnt = mp.blockCnt ∨
          (mp2.blockCnt = mp.blockCnt + 1 ∧ mp.listOf partialId = [] ∧
            mp.listOf emptyId = []))) := by
  have hn : 0 < n := by
    rcases hroom with h | h <;> omega
  have hwf0 : WF addr sz u (New addr sz u k) newLists := WF.ofNew addr k hst (hfits 0 hn) hu
  have hroom0 : Room (New addr sz u k) n (calls ++ [Call.alloc]) := by
    rcases hroom with h | h
    · exact Room.atNew (Or.inl h)
    · right
      rw [New_length]
      have : allocCount (calls ++ [Call.alloc]) = allocCount calls + 1 :=
        allocCount_append calls [Call.alloc]
      omega
  obtain ⟨mp, live, L, hrun, hwf, hroom1, _⟩ :=
    WF.runRoom hu hst hfits calls [Call.alloc] _ [] _ hwf0 hroom0
  refine ⟨mp, live, hrun, ?_, ?_, ?_⟩
  · simp only [fullId, partialId, emptyId]
    rw [hwf.listOf (s := 0) (by omega), hwf.listOf (s := 1) (by omega),
      hwf.listOf (s := 2) (by omega)]
    have hc := hwf.total
    have hcnt := hwf.cnt
    omega
  · intro p
    obtain ⟨mp2, ok, L2, hfr, _, _, _, hcnt, _⟩ := hwf.freeStep p
    exact ⟨mp2, ok, hfr, hcnt⟩
  · obtain ⟨mp2, q, L2, hal, hwf2, hlen, _⟩ :=
      hwf.allocStep hu hst (Room.fit hwf hroom1 hfits)
    refine ⟨mp2, q, hal, ?_⟩
    have hcnt := hwf.cnt
    have hcnt2 := hwf2.cnt
    rcases hlen with h | ⟨h1, h2, _, h⟩
    · left; omega
    · right
      simp only [partialId, emptyId]
      rw [hwf.listOf (s := 1) (by omega), hwf.listOf (s := 2) (by omega)]
      exact ⟨by omega, h1, h2⟩

/-- Witness of C13: a pool of one unit per block and at most three blocks after two
allocations and a release. -/
theorem C13_block_count_witness :
    ∃ mp live, (New exampleAddr (16 : Nat) (1 : Nat) 3).run exampleAddr []
        [Call.alloc, Call.alloc, Call.free 4104] = some (mp, live) ∧
      mp.blockCnt = (((mp.listOf fullId).length + (mp.listOf partialId).length +
        (mp.listOf emptyId).length : Nat) : Int) ∧
      (∀ p, ∃ mp2 ok, mp.Free p = some (mp2, ok) ∧ mp2.blockCnt = mp.blockCnt) ∧
      (∃ mp2 q, mp.Alloc exampleAddr = some (mp2, q) ∧
        (mp2.blockCnt = mp.blockCnt ∨
          (mp2.blockCnt = mp.blockCnt + 1 ∧ mp.listOf partialId = [] ∧
            mp.listOf emptyId = []))) :=
  C13_block_count exampleAddr 16 1 3 3 _ (by decide) (by decide)
    (by intro i hi; have hW := W_val; unfold exampleAddr intSize; omega)
    (Or.inl ⟨by decide, by decide⟩)

end Memopool

/-! ## Claims C17, C18, C19 -/
namespace Memopool

/-- Claim C17. For a pool whose partial list `P` and full list `F` end at nil and hold nodes
of the pool, and every address `p`: `Free(p)` returns, and it returns true if and only if some
block of `P` or of `F` accepts `p`; its boolean is that of a plain linear scan of `P` followed
by `F`; and when the blocks of the two lists occupy disjoint address ranges, `Free(p)` releases
into the block that the linear scan finds. -/
theorem C17_tiered_search (mp : MemoPool) (P F : List Nat) (p : Nat)
    (hP : Walk mp.nodes (getB mp.nodes partialId).Next P)
    (hF : Walk mp.nodes (getB mp.nodes fullId).Next F)
    (hin : ∀ x, x ∈ P ++ F → x < mp.nodes.length) :
    ∃ mp2 ok, mp.Free p = some (mp2, ok) ∧
      (ok = true ↔ ∃ b, (b ∈ P ∨ b ∈ F) ∧ accepts mp.nodes p b = true) ∧
      ok = (linearScan mp.nodes p P F).isSome ∧
      ((∀ x y, x ∈ P ++ F → y ∈ P ++ F → x ≠ y →
          (getB mp.nodes x).endPtr ≤ (getB mp.nodes y).pBlock ∨
          (getB mp.nodes y).endPtr ≤ (getB mp.nodes x).pBlock) →
        mp.Free p = mp.outcome p (linearScan mp.nodes p P F)) := by
  have hfree := Free_walk hP hF hin p
  have hmem : ∀ x, x ∈ searchOrder P F ↔ x ∈ P ++ F := by
    intro x
    rw [mem_searchOrder, List.mem_append]
  have hlast : (∀ x y, x ∈ P ++ F → y ∈ P ++ F → x ≠ y →
      (getB mp.nodes x).endPtr ≤ (getB mp.nodes y).pBlock ∨
      (getB mp.nodes y).endPtr ≤ (getB mp.nodes x).pBlock) →
      mp.Free p = mp.outcome p (linearScan mp.nodes p P F) := by
    intro hdisj
    rw [hfree]
    unfold linearScan
    congr 1
    apply find?_same hmem
    intro x y hx hy hax hay
    by_contra hxy
    have rx := accepts_range hax
    have ry := accepts_range hay
    rcases hdisj x y ((hmem x).mp hx) ((hmem y).mp hy) hxy with h | h <;> omega
  cases hfind : (searchOrder P F).find? (accepts mp.nodes p) with
  | none =>
    rw [hfind] at hfree
    have hall := List.find?_eq_none.mp hfind
    refine ⟨mp, false, hfree, ?_, ?_, hlast⟩
    · constructor
      · intro h; simp at h
      · rintro ⟨b, hb, hacc⟩
        exact absurd hacc (hall b ((mem_searchOrder P F b).mpr hb))
    · unfold linearScan
      have : (P ++ F).find? (accepts mp.nodes p) = none := by
        rw [List.find?_eq_none]
        intro x hx
        exact hall x ((hmem x).mpr hx)
      rw [this]
      rfl
  | some b =>
    rw [hfind] at hfree
    have hacc : accepts mp.nodes p b = true := List.find?_some hfind
    have hb := (hmem b).mp (List.mem_of_find?_eq_some hfind)
    refine ⟨(mp.searchAndFree b p).1, true, hfree, ?_, ?_, hlast⟩
    · constructor
      · intro _
        exact ⟨b, List.mem_append.mp hb, hacc⟩
      · intro _; rfl
    · unfold linearScan
      cases hl : (P ++ F).find? (accepts mp.nodes p) with
      | none => exact absurd hacc (List.find?_eq_none.mp hl b hb)
      | some c => rfl

/-- Witness of C17: in the example pool the partial list is block 4 and the full list is block
3; `Free` of the address 4104 of a unit of block 3 returns true and releases into block 3. -/
theorem C17_tiered_search_witness :
    ∃ mp2, examplePool.Free 4104 = some (mp2, true) ∧
      linearScan examplePool.nodes 4104 [4] [3] = some 3 ∧
      examplePool.Free 4104 = examplePool.outcome 4104 (some 3) := by
  obtain ⟨mp2, ok, h1, _, h3, h4⟩ := C17_tiered_search examplePool [4] [3] 4104
    ⟨by decide, show (getB examplePool.nodes 4).Next = none by decide⟩
    ⟨by decide, show (getB examplePool.nodes 3).Next = none by decide⟩ (by decide)
  have hl : linearScan examplePool.nodes 4104 [4] [3] = some 3 := by decide
  have hok : ok = true := by rw [h3, hl]; rfl
  subst hok
  have h5 := h4 (by
    intro x y hx hy hxy
    have hx2 : x = 4 ∨ x = 3 := by simpa using hx
    have hy2 : y = 4 ∨ y = 3 := by simpa using hy
    rcases hx2 with rfl | rfl <;> rcases hy2 with rfl | rfl
    · exact absurd rfl hxy
    · decide
    · decide
    · exact absurd rfl hxy)
  rw [hl] at h5
  exact ⟨mp2, h1, hl, h5⟩

/-- Claim C18, refuted as stated: the pool that `New(16, 4, 1)` returns has `blockCnt = 1` and
one block, node 3 with its 4 units free, linked in the partial list. -/
theorem C18_counterexample :
    (New exampleAddr 16 4 1).blockCnt = 1 ∧ (New exampleAddr 16 4 1).listOf partialId = [3] ∧
    (New exampleAddr 16 4 1).nodes.length = 4 ∧
    (getB (New exampleAddr 16 4 1).nodes 3).nFree = 4 := by
  decide

/-- Claim C18, amended. A pool freshly returned by `New(unitSize, unitCount, maxBlocks)` has
created exactly one block: `blockCnt = 1`, the partial list holds that block, built by
`newMemoPool(unitSize, unitCount)` with all its units free, and the full and the empty list are
empty; the first `Alloc` call returns without creating a block. -/
theorem C18_first_block_eager (addr : Nat → Nat) (sz u k : Int) :
    (New addr sz u k).blockCnt = 1 ∧ (New addr sz u k).nodes.length = 4 ∧
    (New addr sz u k).listOf partialId = [3] ∧ (New addr sz u k).listOf fullId = [] ∧
    (New addr sz u k).listOf emptyId = [] ∧
    core (getB (New addr sz u k).nodes 3) = newMemoPool (addr 0) (uintptr sz) (uintptr u) ∧
    (getB (New addr sz u k).nodes 3).nFree = uintptr u ∧
    ∃ mp2 q, (New addr sz u k).Alloc addr = some (mp2, q) ∧ mp2.blockCnt = 1 ∧
      mp2.nodes.length = 4 := by
  refine ⟨rfl, rfl, rfl, rfl, rfl, rfl, rfl, ?_⟩
  have hr : (New addr sz u k).refill addr = some (New addr sz u k) := rfl
  have hn : (getB (New addr sz u k).nodes partialId).Next = some 3 := rfl
  unfold MemoPool.Alloc
  rw [hr]
  simp only
  unfold MemoPool.allocHead
  rw [hn]
  simp only
  split
  · exact ⟨_, _, rfl, rfl, by simp [length_moveAfter, New_length]⟩
  · exact ⟨_, _, rfl, rfl, by simp [New_length]⟩

/-- Claim C19. For every pool state and every address `p`, if `Free(p)` returns false then the
pool it leaves is the pool it was given: the same nodes with the same links, so the same lists
in the same order, the same `blockCnt`, and in every block the same free count, free-list head
and unit headers. -/
theorem C19_failed_free_atomic (mp mp2 : MemoPool) (p : Nat)
    (h : mp.Free p = some (mp2, false)) : mp2 = mp :=
  Free_unchanged h

/-- Witness of C19: in the example pool `Free` of the address 4100, which is the payload
address of no unit, returns false. -/
theorem C19_failed_free_atomic_witness :
    ∃ mp2, examplePool.Free 4100 = some (mp2, false) ∧ mp2 = examplePool :=
  ⟨examplePool, by decide, C19_failed_free_atomic examplePool examplePool 4100 (by decide)⟩

end Memopool
